import Mathlib

/-!
# gcache: the LRU cache engine

A shallow embedding of `internal/cache/list.go`, `node.go`,
`internal/cache/cache.go` and the command dispatcher of `internal/cache/TCP_Server.go`.  Go pointers to `DoublyNode` are addresses (`Nat`) into an
explicit node store; a nil pointer is `none`.  A Go panic is the result `none` of an
operation.  The mutex of `LRUCache` serialises the operations, so each operation is a
function from the state before the call to the state after it.  The Go `int` fields
`capacity` and `count` are `Int`: `count` moves by one per list operation and stays between
0 and `capacity` in every reachable state (`Models.bound`), so nothing overflows.
-/

namespace GCache

/-! ## Data model -/

/-- The struct `CacheItem` of `cache.go`. -/
structure CacheItem where
  key : String
  value : String
deriving DecidableEq, Repr

/-- The struct `DoublyNode` of `node.go`.  The field `data` is an `interface{}`; it is
`some item` when its dynamic type is `*CacheItem` (the item is owned by this one node) and
`none` otherwise, in which case the type assertion `.(*CacheItem)` panics. -/
structure DoublyNode where
  data : Option CacheItem
  next : Option Nat
  prev : Option Nat
deriving DecidableEq, Repr

/-- The node store: the `DoublyNode` found at each address. -/
abbrev Heap := Nat → DoublyNode

/-- The struct `DoublyLinkedList` of `list.go`. -/
structure DoublyLinkedList where
  head : Option Nat
  last : Option Nat
  count : Int
deriving DecidableEq, Repr

/-- The struct `LRUCache` of `cache.go` (field `mu` left out), together with the node store
its pointers point into and the next address `NewDoublyNode` will allocate. -/
structure LRUCache where
  capacity : Int
  cache : AList (fun _ : String => Nat)
  list : DoublyLinkedList
  mem : Heap
  fresh : Nat

/-! ## Node store updates -/

/-- The assignment `p.next = v`. -/
def setNext (m : Heap) (p : Nat) (v : Option Nat) : Heap :=
  fun q => if q = p then { m p with next := v } else m q

/-- The assignment `p.prev = v`. -/
def setPrev (m : Heap) (p : Nat) (v : Option Nat) : Heap :=
  fun q => if q = p then { m p with prev := v } else m q

/-- The assignment `p.data = d`. -/
def setData (m : Heap) (p : Nat) (d : Option CacheItem) : Heap :=
  fun q => if q = p then { m p with data := d } else m q

/-- `NewDoublyNode(data)`: the node `&DoublyNode{data: data}` written at address `p`. -/
def NewDoublyNode (m : Heap) (p : Nat) (data : Option CacheItem) : Heap :=
  fun q => if q = p then { data := data, next := none, prev := none } else m q

/-! ## list.go -/

/-- `NewDoublyLinkedList()`: the zero value of the struct. -/
def NewDoublyLinkedList : DoublyLinkedList :=
  { head := none, last := none, count := 0 }

/-- `DoublyLinkedList.Count`. -/
def DoublyLinkedList.Count (l : DoublyLinkedList) : Int := l.count

/-- `DoublyLinkedList.Remove(node)`, statement by statement. -/
def Remove (m : Heap) (l : DoublyLinkedList) (node : Option Nat) : Heap × DoublyLinkedList :=
  match node with
  | none => (m, l)
  | some n =>
    let l1 := if some n = l.head then { l with head := (m n).next } else l
    let l2 := if some n = l1.last then { l1 with last := (m n).prev } else l1
    let m1 := match (m n).prev with
      | some p => setNext m p (m n).next
      | none => m
    let m2 := match (m1 n).next with
      | some q => setPrev m1 q (m1 n).prev
      | none => m1
    let m3 := setPrev m2 n none
    let m4 := setNext m3 n none
    (m4, { l2 with count := l2.count - 1 })

/-- `DoublyLinkedList.InsertAtFront(node)` for a non-nil `node`, statement by statement. -/
def InsertAtFront (m : Heap) (l : DoublyLinkedList) (node : Nat) : Heap × DoublyLinkedList :=
  let m1 := setPrev m node none
  let m2 := setNext m1 node l.head
  let (m3, l1) := match l.head with
    | some h => (setPrev m2 h (some node), l)
    | none => (m2, { l with last := some node })
  (m3, { l1 with head := some node, count := l1.count + 1 })

/-! ## cache.go -/

/-- `NewLRUCache(capacity)`: panics when `capacity <= 0`. -/
def NewLRUCache (capacity : Int) : Option LRUCache :=
  if capacity ≤ 0 then none
  else some
    { capacity := capacity
      cache := ∅
      list := NewDoublyLinkedList
      mem := fun _ => { data := none, next := none, prev := none }
      fresh := 0 }

/-- `LRUCache.Get(key)`: the state after the call and the pair returned. -/
def Get (lru : LRUCache) (key : String) : Option (LRUCache × String × Bool) :=
  match lru.cache.lookup key with
  | some node =>
    let (m1, l1) := Remove lru.mem lru.list (some node)
    let (m2, l2) := InsertAtFront m1 l1 node
    match (m2 node).data with
    | some item => some ({ lru with mem := m2, list := l2 }, item.value, true)
    | none => none
  | none => some (lru, "", false)

/-- `LRUCache.Put(key, value)`. -/
def Put (lru : LRUCache) (key value : String) : Option LRUCache :=
  match lru.cache.lookup key with
  | some node =>
    match (lru.mem node).data with
    | none => none
    | some item =>
      let m0 := setData lru.mem node (some { item with value := value })
      let (m1, l1) := Remove m0 lru.list (some node)
      let (m2, l2) := InsertAtFront m1 l1 node
      some { lru with mem := m2, list := l2 }
  | none =>
    let evict : Option (Heap × DoublyLinkedList × AList (fun _ : String => Nat)) :=
      if lru.list.Count = lru.capacity then
        match lru.list.last with
        | some tail =>
          let (m1, l1) := Remove lru.mem lru.list (some tail)
          match (m1 tail).data with
          | some evicted => some (m1, l1, lru.cache.erase evicted.key)
          | none => none
        | none => some (lru.mem, lru.list, lru.cache)
      else some (lru.mem, lru.list, lru.cache)
    match evict with
    | none => none
    | some (m1, l1, c1) =>
      let node := lru.fresh
      let m2 := NewDoublyNode m1 node (some { key := key, value := value })
      let (m3, l3) := InsertAtFront m2 l1 node
      some { lru with mem := m3, list := l3, cache := c1.insert key node, fresh := node + 1 }

/-- `LRUCache.Delete(key)`. -/
def Delete (lru : LRUCache) (key : String) : LRUCache × Bool :=
  match lru.cache.lookup key with
  | some node =>
    let (m1, l1) := Remove lru.mem lru.list (some node)
    ({ lru with mem := m1, list := l1, cache := lru.cache.erase key }, true)
  | none => (lru, false)

/-- `LRUCache.Size()`. -/
def Size (lru : LRUCache) : Int := lru.list.Count

/-- `LRUCache.Clear()`. -/
def Clear (lru : LRUCache) : LRUCache :=
  { lru with cache := ∅, list := NewDoublyLinkedList }

/-- `LRUCache.Contains(key)`. -/
def Contains (lru : LRUCache) (key : String) : Bool :=
  (lru.cache.lookup key).isSome

/-! ## Reading the recency list -/

/-- The forward traversal of `LRUCache.Print`: follow `next` from `cur` until nil, at most
`fuel` nodes; `none` when a node is left over after `fuel` steps. -/
def walk (m : Heap) : Option Nat → Nat → Option (List Nat)
  | none, _ => some []
  | some _, 0 => none
  | some p, fuel + 1 => (walk m (m p).next fuel).map (fun ps => p :: ps)

/-- The nodes of the recency list, front to back: the traversal from `head` visiting
`count` nodes. -/
def order (lru : LRUCache) : Option (List Nat) :=
  walk lru.mem lru.list.head lru.list.count.toNat

/-- The `(key, value)` carried by the node at `p` (the empty pair for a foreign payload). -/
def itemAt (m : Heap) (p : Nat) : String × String :=
  match (m p).data with
  | some item => (item.key, item.value)
  | none => ("", "")

/-- The entries of the cache, most recently used first, as `Print` lists them. -/
def entries (lru : LRUCache) : Option (List (String × String)) :=
  (order lru).map (fun ps => ps.map (itemAt lru.mem))

/-! ## Call sequences -/

/-- A call of one of the public operations of the engine. -/
inductive Op where
  | get (key : String)
  | put (key value : String)
  | delete (key : String)
  | contains (key : String)
  | size
  | clear
deriving DecidableEq, Repr

/-- What a call returns. -/
inductive Ret where
  | found (value : String) (ok : Bool)
  | unit
  | bool (b : Bool)
  | int (n : Int)
deriving DecidableEq, Repr

/-- One call: the state after it and its result, `none` when the call panics. -/
def step (lru : LRUCache) : Op → Option (LRUCache × Ret)
  | .get k => (Get lru k).map (fun r => (r.1, Ret.found r.2.1 r.2.2))
  | .put k v => (Put lru k v).map (fun s => (s, Ret.unit))
  | .delete k => some ((Delete lru k).1, Ret.bool (Delete lru k).2)
  | .contains k => some (lru, Ret.bool (Contains lru k))
  | .size => some (lru, Ret.int (Size lru))
  | .clear => some (Clear lru, Ret.unit)

/-- The state after a sequence of calls. -/
def run (lru : LRUCache) : List Op → Option LRUCache
  | [] => some lru
  | op :: ops => (step lru op).bind (fun r => run r.1 ops)

/-- The state after `NewLRUCache(c)` followed by the calls `ops`. -/
def exec (c : Int) (ops : List Op) : Option LRUCache :=
  (NewLRUCache c).bind (fun s => run s ops)

/-- A state reachable from `NewLRUCache(c)` by a sequence of calls. -/
def Reachable (c : Int) (s : LRUCache) : Prop :=
  ∃ ops, exec c ops = some s

/-! ## Well-formed states -/

/-- The nodes `ps` are doubly linked in `m`, in this order: the first one has `prev = pv`,
each `next` is the following node, and the last `next` is nil. -/
def Seg (m : Heap) : Option Nat → List Nat → Prop
  | _, [] => True
  | pv, p :: ps => (m p).prev = pv ∧ (m p).next = ps.head? ∧ Seg m (some p) ps

/-- The key carried by the node at `p`. -/
def keyAt (m : Heap) (p : Nat) : String := (itemAt m p).1

/-- The list `l` over the store `m` is a well-formed doubly linked list holding exactly the
nodes `ps`, front to back. -/
structure WF (m : Heap) (l : DoublyLinkedList) (ps : List Nat) : Prop where
  nodup : ps.Nodup
  seg : Seg m none ps
  head : l.head = ps.head?
  last : l.last = ps.getLast?
  count : l.count = ps.length

/-- The state `s` is well formed and its recency list holds the nodes `ps`, front to back:
the list is well formed, every node carries a `*CacheItem` and is indexed under its key,
the index points only to nodes of the list, and the size is within the capacity. -/
structure Models (s : LRUCache) (ps : List Nat) : Prop where
  wf : WF s.mem s.list ps
  alloc : ∀ p ∈ ps, p < s.fresh
  data : ∀ p ∈ ps, (s.mem p).data.isSome = true ∧ s.cache.lookup (keyAt s.mem p) = some p
  index : ∀ k p, s.cache.lookup k = some p → p ∈ ps ∧ keyAt s.mem p = k
  cap : 0 < s.capacity
  bound : s.list.count ≤ s.capacity

/-- The entries carried by the nodes `ps` in the state `s`. -/
def view (s : LRUCache) (ps : List Nat) : List (String × String) :=
  ps.map (itemAt s.mem)

/-! ## The recency list as a list of entries

The engine seen through `entries`: what each call does to the list of `(key, value)` pairs,
most recently used first.  `Models.sim` shows that the code above does exactly this. -/

/-- The entries other than the one under `k`. -/
def dropKey (k : String) (es : List (String × String)) : List (String × String) :=
  es.filter (fun e => decide (e.1 ≠ k))

/-- The value under `k` in a list of entries. -/
def valueOf (k : String) : List (String × String) → Option String
  | [] => none
  | e :: es => if e.1 = k then some e.2 else valueOf k es

/-- One call on the list of entries of a cache of capacity `cap`. -/
def absStep (cap : Int) (es : List (String × String)) :
    Op → List (String × String) × Ret
  | .get k =>
    match valueOf k es with
    | some v => ((k, v) :: dropKey k es, Ret.found v true)
    | none => (es, Ret.found "" false)
  | .put k v =>
    match valueOf k es with
    | some _ => ((k, v) :: dropKey k es, Ret.unit)
    | none =>
      if (es.length : Int) = cap then ((k, v) :: es.dropLast, Ret.unit)
      else ((k, v) :: es, Ret.unit)
  | .delete k => (dropKey k es, Ret.bool (valueOf k es).isSome)
  | .contains k => (es, Ret.bool (valueOf k es).isSome)
  | .size => (es, Ret.int es.length)
  | .clear => ([], Ret.unit)

/-- A sequence of calls on the list of entries. -/
def absRun (cap : Int) (es : List (String × String)) : List Op → List (String × String)
  | [] => es
  | op :: ops => absRun cap (absStep cap es op).1 ops

/-! ## Histories -/

/-- The value of the most recent `Put(k, _)` among the calls `ops`. -/
def lastPut (k : String) : List Op → Option String
  | [] => none
  | op :: ops =>
    match lastPut k ops with
    | some v => some v
    | none =>
      match op with
      | .put k2 v => if k2 = k then some v else none
      | _ => none

/-- Whether the call `op`, made on the state `s`, touches the key `k`: a `Put` on `k`, or a
`Get` on `k` that hits. -/
def touches (s : LRUCache) (op : Op) (k : String) : Bool :=
  match op with
  | .put k2 _ => decide (k2 = k)
  | .get k2 =>
    decide (k2 = k) &&
      (match Get s k2 with
       | some (_, _, ok) => ok
       | none => false)
  | _ => false

/-- Whether call number `i` of `ops` (counted from 0, on `NewLRUCache(c)`) touches `k`. -/
def touchedAt (c : Int) (ops : List Op) (k : String) (i : Nat) : Bool :=
  match exec c (ops.take i), ops[i]? with
  | some s, some op => touches s op k
  | _, _ => false

/-- The number of the most recent call of `ops` that touches `k`. -/
def lastTouch (c : Int) (ops : List Op) (k : String) : Option Nat :=
  (List.range ops.length).reverse.find? (touchedAt c ops k)

/-- The most recent touch of `k1` is older than the most recent touch of `k2`. -/
def OlderThan (c : Int) (ops : List Op) (k1 k2 : String) : Prop :=
  ∃ i j, lastTouch c ops k1 = some i ∧ lastTouch c ops k2 = some j ∧ i < j

/-- The key that a call touches, read off the list of entries. -/
def absTouched (es : List (String × String)) : Op → Option String
  | .put k _ => some k
  | .get k => if (valueOf k es).isSome then some k else none
  | _ => none

/-! ## TCP_Server.go: the command dispatcher

Go strings are Lean strings.  The Go library functions the dispatcher calls are written
out below from their documentation. -/

/-- Go's `unicode.IsSpace`: the white space characters of Unicode. -/
def isSpace (c : Char) : Bool :=
  c.toNat = 0x09 || c.toNat = 0x0A || c.toNat = 0x0B || c.toNat = 0x0C || c.toNat = 0x0D ||
  c.toNat = 0x20 || c.toNat = 0x85 || c.toNat = 0xA0 || c.toNat = 0x1680 ||
  (0x2000 ≤ c.toNat && c.toNat ≤ 0x200A) || c.toNat = 0x2028 || c.toNat = 0x2029 ||
  c.toNat = 0x202F || c.toNat = 0x205F || c.toNat = 0x3000

/-- The loop of Go's `strings.Fields` over the characters still to read; `cur` holds the
field being read, last character first. -/
def fieldsAux : List Char → List Char → List String
  | [], cur => if cur = [] then [] else [String.mk cur.reverse]
  | c :: cs, cur =>
    if isSpace c = true then
      if cur = [] then fieldsAux cs [] else String.mk cur.reverse :: fieldsAux cs []
    else fieldsAux cs (c :: cur)

/-- Go's `strings.Fields`: the maximal runs of characters that are not white space. -/
def fields (s : String) : List String :=
  fieldsAux s.data []

/-- Go's `unicode.ToUpper` on one character: `a`..`z` become `A`..`Z`, the other ASCII
characters stay, and a character outside ASCII is mapped by the upper-case table `tbl` of
Unicode, which is left as a parameter. -/
def upperRune (tbl : Char → Char) (c : Char) : Char :=
  if c.toNat < 128 then c.toUpper else tbl c

/-- Go's `strings.ToUpper`. -/
def toUpper (tbl : Char → Char) (s : String) : String :=
  String.mk (s.data.map (upperRune tbl))

/-- Go's `strings.Join(parts, " ")`. -/
def joinSpace : List String → String
  | [] => ""
  | [a] => a
  | a :: b :: rest => a ++ " " ++ joinSpace (b :: rest)

/-- Go's `strings.TrimSpace`. -/
def trimSpace (s : String) : String :=
  String.mk ((s.data.dropWhile isSpace).reverse.dropWhile isSpace).reverse

/-- The verb `%d` of `fmt.Sprintf` on an `int`. -/
def fmtInt (n : Int) : String := toString n

/-- `Server.handleGet`. -/
def handleGet (lru : LRUCache) (parts : List String) : Option (LRUCache × String) :=
  if parts.length ≠ 2 then some (lru, "-ERR wrong number of arguments for 'GET' command")
  else
    match parts[1]? with
    | none => none
    | some key =>
      match Get lru key with
      | none => none
      | some (lru2, value, true) => some (lru2, "+" ++ value)
      | some (lru2, _, false) => some (lru2, "-ERR key not found")

/-- `Server.handleSet`. -/
def handleSet (lru : LRUCache) (parts : List String) : Option (LRUCache × String) :=
  if parts.length < 3 then some (lru, "-ERR wrong number of arguments for 'SET' command")
  else
    match parts[1]? with
    | none => none
    | some key =>
      match Put lru key (joinSpace (parts.drop 2)) with
      | none => none
      | some lru2 => some (lru2, "+OK")

/-- `Server.handleDel`. -/
def handleDel (lru : LRUCache) (parts : List String) : Option (LRUCache × String) :=
  if parts.length ≠ 2 then some (lru, "-ERR wrong number of arguments for 'DEL' command")
  else
    match parts[1]? with
    | none => none
    | some key =>
      if (Delete lru key).2 = true then some ((Delete lru key).1, "+OK")
      else some ((Delete lru key).1, "-ERR key not found")

/-- `Server.handleSize`. -/
def handleSize (lru : LRUCache) (parts : List String) : Option (LRUCache × String) :=
  if parts.length ≠ 1 then some (lru, "-ERR wrong number of arguments for 'SIZE' command")
  else some (lru, ":" ++ fmtInt (Size lru))

/-- `Server.handleClear`. -/
def handleClear (lru : LRUCache) (parts : List String) : Option (LRUCache × String) :=
  if parts.length ≠ 1 then some (lru, "-ERR wrong number of arguments for 'CLEAR' command")
  else some (Clear lru, "+OK")

/-- `Server.handlePing`. -/
def handlePing (lru : LRUCache) (parts : List String) : Option (LRUCache × String) :=
  if parts.length = 1 then some (lru, "+PONG")
  else if parts.length = 2 then
    match parts[1]? with
    | none => none
    | some msg => some (lru, "+" ++ msg)
  else some (lru, "-ERR wrong number of arguments for 'PING' command")

/-- `Server.handleInfo`; `uptime` is `time.Since(startTime).Seconds()` as the verb `%.0f`
prints it, a whole number of seconds. -/
def handleInfo (uptime : Nat) (lru : LRUCache) (parts : List String) :
    Option (LRUCache × String) :=
  if parts.length ≠ 1 then some (lru, "-ERR wrong number of arguments for 'INFO' command")
  else some (lru, "+" ++ ("gcache_version:1.0 cache_capacity:" ++ fmtInt lru.capacity ++
    " cache_size:" ++ fmtInt (Size lru) ++ " uptime_seconds:" ++ toString uptime))

/-- `Server.handleStats`. -/
def handleStats (lru : LRUCache) (parts : List String) : Option (LRUCache × String) :=
  if parts.length ≠ 1 then some (lru, "-ERR wrong number of arguments for 'STATS' command")
  else some (lru, "+" ++ ("size:" ++ fmtInt (Size lru) ++ " capacity:" ++
    fmtInt lru.capacity))

/-- `Server.handleQuit`. -/
def handleQuit (lru : LRUCache) (_parts : List String) : Option (LRUCache × String) :=
  some (lru, "+BYE")

/-- `Server.processCommand` on the cache `lru` of the server: the cache after the call and
the response, `none` when the call panics. -/
def processCommand (tbl : Char → Char) (uptime : Nat) (lru : LRUCache) (command : String) :
    Option (LRUCache × String) :=
  let parts := fields command
  if parts.length = 0 then some (lru, "-ERR empty command")
  else
    match parts[0]? with
    | none => none
    | some first =>
      let cmd := toUpper tbl first
      if cmd = "GET" then handleGet lru parts
      else if cmd = "SET" then handleSet lru parts
      else if cmd = "DEL" then handleDel lru parts
      else if cmd = "SIZE" then handleSize lru parts
      else if cmd = "CLEAR" then handleClear lru parts
      else if cmd = "PING" then handlePing lru parts
      else if cmd = "INFO" then handleInfo uptime lru parts
      else if cmd = "STATS" then handleStats lru parts
      else if cmd = "QUIT" then handleQuit lru parts
      else some (lru, "-ERR unknown command '" ++ cmd ++ "'")

/-- Go's `bufio.MaxScanTokenSize`: the largest buffer a `bufio.Scanner` grows to. -/
def maxScanTokenSize : Nat := 64 * 1024

/-- The loop of `Server.handleConnection` over the lines the client sends (the bytes before
each newline), each with the uptime at the moment it is handled, while the server is not
shut down and no read or write on the socket fails: the cache after the lines, the strings written to the client,
and whether the connection is still open, the handler waiting in `scanner.Scan()` for the
next line.  A line of `maxScanTokenSize` bytes or more does not fit the buffer of the scanner
with its newline: `scanner.Scan()` fails with `ErrTooLong`, the loop ends and the deferred
`conn.Close()` runs. -/
def handleConnection (tbl : Char → Char) (lru : LRUCache) :
    List (Nat × String) → Option (LRUCache × List String × Bool)
  | [] => some (lru, [], true)
  | (uptime, text) :: rest =>
    if maxScanTokenSize ≤ text.utf8ByteSize then some (lru, [], false)
    else
      let line := trimSpace text
      if line = "" then handleConnection tbl lru rest
      else
        match processCommand tbl uptime lru line with
        | none => none
        | some (lru2, response) =>
          (handleConnection tbl lru2 rest).map
            (fun r => (r.1, (response ++ "\r\n") :: r.2.1, r.2.2))

/-! ## Command lines -/

/-- A token of a command line: not empty and free of white space. -/
def Token (t : String) : Prop :=
  t.data ≠ [] ∧ ∀ c ∈ t.data, isSpace c = false

/-- A run of white space, possibly empty. -/
def Blank (w : String) : Prop :=
  ∀ c ∈ w.data, isSpace c = true

/-- The text made of tokens, each followed by its separator. -/
def lineOf : List (String × String) → String
  | [] => ""
  | (t, w) :: rest => t ++ w ++ lineOf rest

/-- The pairs are tokens followed by white space, which is not empty between two tokens. -/
def Separated : List (String × String) → Prop
  | [] => True
  | (t, w) :: rest => Token t ∧ Blank w ∧ (rest ≠ [] → w ≠ "") ∧ Separated rest

instance decToken (t : String) : Decidable (Token t) :=
  inferInstanceAs (Decidable (t.data ≠ [] ∧ ∀ c ∈ t.data, isSpace c = false))

instance decBlank (w : String) : Decidable (Blank w) :=
  inferInstanceAs (Decidable (∀ c ∈ w.data, isSpace c = true))

instance decSeparated : (l : List (String × String)) → Decidable (Separated l)
  | [] => isTrue trivial
  | (t, w) :: rest =>
    have := decSeparated rest
    inferInstanceAs (Decidable (Token t ∧ Blank w ∧ (rest ≠ [] → w ≠ "") ∧ Separated rest))

/-- The result `r` of a handler called on the cache `s`: the call returns, the cache after
it is well formed with the capacity of `s`, and it is `s` itself when the response is an
error line. -/
def HandledOk (s : LRUCache) (r : Option (LRUCache × String)) : Prop :=
  ∃ s2 resp, r = some (s2, resp) ∧ (∃ ps2, Models s2 ps2) ∧ s2.capacity = s.capacity ∧
    ((∃ rest, resp = "-ERR" ++ rest) → s2 = s)

/-- The Unicode table left out: the characters outside ASCII are kept as they are. -/
def keepRune (c : Char) : Char := c

/-! ## The list invariant, written out -/

/-- The well-formedness of a `DoublyLinkedList` over the store `m`, condition by condition:
`head == nil` iff `last == nil` iff `count == 0`; `head.prev == nil`; `last.next == nil`;
the forward traversal from `head` ends after exactly `count` nodes, the last of them being
`last`; and `n.next.prev == n` for every node `n` of the traversal that has a `next`. -/
def WellFormed (m : Heap) (l : DoublyLinkedList) : Prop :=
  (l.head = none ↔ l.last = none) ∧ (l.last = none ↔ l.count = 0) ∧
  (∀ h ∈ l.head, (m h).prev = none) ∧
  (∀ t ∈ l.last, (m t).next = none) ∧
  ∃ ps ∈ walk m l.head l.count.toNat,
    (ps.length : Int) = l.count ∧ ps.getLast? = l.last ∧
    ∀ n ∈ ps, ∀ x ∈ (m n).next, (m x).prev = some n

instance decWellFormed (m : Heap) (l : DoublyLinkedList) : Decidable (WellFormed m l) :=
  inferInstanceAs (Decidable (
    (l.head = none ↔ l.last = none) ∧ (l.last = none ↔ l.count = 0) ∧
    (∀ h ∈ l.head, (m h).prev = none) ∧
    (∀ t ∈ l.last, (m t).next = none) ∧
    ∃ ps ∈ walk m l.head l.count.toNat,
      (ps.length : Int) = l.count ∧ ps.getLast? = l.last ∧
      ∀ n ∈ ps, ∀ x ∈ (m n).next, (m x).prev = some n))

/-! ## cache.go of the repository root: the cache before the hardening

The struct and the list are the ones above (the type has no `mu`); `NewLRUCache` has no
check of the capacity and `Put` no check of the tail. -/

/-- `NewLRUCache(capacity)` of `src/cache.go`: no check, it always returns a cache. -/
def Legacy.NewLRUCache (capacity : Int) : LRUCache :=
  { capacity := capacity
    cache := ∅
    list := NewDoublyLinkedList
    mem := fun _ => { data := none, next := none, prev := none }
    fresh := 0 }

/-- `LRUCache.Get(key)` of `src/cache.go`. -/
def Legacy.Get (lru : LRUCache) (key : String) : Option (LRUCache × String × Bool) :=
  match lru.cache.lookup key with
  | some node =>
    let (m1, l1) := Remove lru.mem lru.list (some node)
    let (m2, l2) := InsertAtFront m1 l1 node
    match (m2 node).data with
    | some item => some ({ lru with mem := m2, list := l2 }, item.value, true)
    | none => none
  | none => some (lru, "", false)

/-- `LRUCache.Put(key, value)` of `src/cache.go`: when the list is full the tail is removed
and read without a nil check, so a nil tail is a nil pointer dereference in
`tail.GetData()`. -/
def Legacy.Put (lru : LRUCache) (key value : String) : Option LRUCache :=
  match lru.cache.lookup key with
  | some node =>
    match (lru.mem node).data with
    | none => none
    | some item =>
      let m0 := setData lru.mem node (some { item with value := value })
      let (m1, l1) := Remove m0 lru.list (some node)
      let (m2, l2) := InsertAtFront m1 l1 node
      some { lru with mem := m2, list := l2 }
  | none =>
    let evict : Option (Heap × DoublyLinkedList × AList (fun _ : String => Nat)) :=
      if lru.list.Count = lru.capacity then
        let tail := lru.list.last
        let (m1, l1) := Remove lru.mem lru.list tail
        match tail with
        | none => none
        | some t =>
          match (m1 t).data with
          | some evicted => some (m1, l1, lru.cache.erase evicted.key)
          | none => none
      else some (lru.mem, lru.list, lru.cache)
    match evict with
    | none => none
    | some (m1, l1, c1) =>
      let node := lru.fresh
      let m2 := NewDoublyNode m1 node (some { key := key, value := value })
      let (m3, l3) := InsertAtFront m2 l1 node
      some { lru with mem := m3, list := l3, cache := c1.insert key node, fresh := node + 1 }

/-- A call of one of the two operations both caches have. -/
inductive Call where
  | get (key : String)
  | put (key value : String)
deriving DecidableEq, Repr

/-- The same call as a call of the hardened cache. -/
def Call.toOp : Call → Op
  | .get k => Op.get k
  | .put k v => Op.put k v

/-- One call on the legacy cache: the state after it and its result. -/
def Legacy.step (lru : LRUCache) : Call → Option (LRUCache × Ret)
  | .get k => (Legacy.Get lru k).map (fun r => (r.1, Ret.found r.2.1 r.2.2))
  | .put k v => (Legacy.Put lru k v).map (fun s => (s, Ret.unit))

/-- A sequence of calls on the legacy cache: the final state and the results, in order. -/
def Legacy.trace (lru : LRUCache) : List Call → Option (LRUCache × List Ret)
  | [] => some (lru, [])
  | call :: calls =>
    (Legacy.step lru call).bind (fun r =>
      (Legacy.trace r.1 calls).map (fun t => (t.1, r.2 :: t.2)))

/-- A sequence of calls on the hardened cache: the final state and the results, in order. -/
def trace (lru : LRUCache) : List Op → Option (LRUCache × List Ret)
  | [] => some (lru, [])
  | op :: ops =>
    (step lru op).bind (fun r => (trace r.1 ops).map (fun t => (t.1, r.2 :: t.2)))

/-! ## Sample states -/

/-- The cache of capacity 2 after `Put("a","1")`, `Put("b","2")`: it is full. -/
def demoFull : LRUCache :=
  (exec 2 [.put "a" "1", .put "b" "2"]).get rfl

/-- The cache of capacity 3 after `Put("a","1")`, `Put("b","2")`: it has room. -/
def demoRoom : LRUCache :=
  (exec 3 [.put "a" "1", .put "b" "2"]).get rfl

/-- The freshly constructed cache of capacity 1. -/
def demoEmpty : LRUCache :=
  (exec 1 []).get rfl

/-! ## The node store after `Remove` and `InsertAtFront` -/

theorem Remove_mem (m : Heap) (l : DoublyLinkedList) (n q : Nat) :
    (Remove m l (some n)).1 q =
      if q = n then { data := (m n).data, next := none, prev := none }
      else { data := (m q).data
             next := if (m n).prev = some q then (m n).next else (m q).next
             prev := if (m n).next = some q then (m n).prev else (m q).prev } := by
  have e1 : (match (m n).prev with
      | some p => setNext m p (m n).next
      | none => m) n = m n := by
    rcases hp : (m n).prev with _ | a
    · rfl
    · by_cases hna : n = a
      · subst hna; simp [setNext]
      · simp [setNext, hna]
  unfold Remove
  simp only [e1]
  rcases hp : (m n).prev with _ | a <;> rcases hx : (m n).next with _ | b <;>
    by_cases hq : q = n <;> simp [setNext, setPrev, hq]
  all_goals (split_ifs <;> subst_vars <;> simp_all)

theorem Remove_list (m : Heap) (l : DoublyLinkedList) (n : Nat) :
    (Remove m l (some n)).2 =
      { head := if some n = l.head then (m n).next else l.head
        last := if some n = l.last then (m n).prev else l.last
        count := l.count - 1 } := by
  unfold Remove
  simp only
  split_ifs <;> simp_all

theorem InsertAtFront_mem (m : Heap) (l : DoublyLinkedList) (node q : Nat)
    (h : l.head ≠ some node) :
    (InsertAtFront m l node).1 q =
      if q = node then { data := (m node).data, next := l.head, prev := none }
      else { data := (m q).data
             next := (m q).next
             prev := if l.head = some q then some node else (m q).prev } := by
  unfold InsertAtFront
  rcases hh : l.head with _ | a <;> by_cases hq : q = node <;>
    simp [setNext, setPrev, hq]
  · rintro rfl
    exact h (hq ▸ hh)
  all_goals (split_ifs <;> subst_vars <;> simp_all)

theorem InsertAtFront_list (m : Heap) (l : DoublyLinkedList) (node : Nat) :
    (InsertAtFront m l node).2 =
      { head := some node
        last := if l.head = none then some node else l.last
        count := l.count + 1 } := by
  unfold InsertAtFront
  rcases hh : l.head with _ | a <;> simp

/-! ## Linked segments -/

theorem Seg.frame {m m2 : Heap} {ps : List Nat} :
    ∀ {pv : Option Nat}, Seg m pv ps →
      (∀ p ∈ ps, (m2 p).next = (m p).next ∧ (m2 p).prev = (m p).prev) → Seg m2 pv ps := by
  induction ps with
  | nil => intro _ _ _; trivial
  | cons p ps ih =>
    intro pv h hf
    obtain ⟨h1, h2, h3⟩ := h
    have hp := hf p (List.mem_cons_self _ _)
    refine ⟨hp.2.trans h1, hp.1.trans h2, ih h3 ?_⟩
    intro q hq
    exact hf q (List.mem_cons_of_mem _ hq)

theorem Seg.next_mid {m : Heap} {n : Nat} {l2 : List Nat} (l1 : List Nat) :
    ∀ {pv : Option Nat}, Seg m pv (l1 ++ n :: l2) → (m n).next = l2.head? := by
  induction l1 with
  | nil => intro pv h; exact h.2.1
  | cons x l1 ih => intro pv h; exact ih h.2.2

theorem Seg.prev_mid {m : Heap} {n : Nat} {l2 : List Nat} (l1 : List Nat) :
    ∀ {pv : Option Nat}, Seg m pv (l1 ++ n :: l2) → (m n).prev = (l1.getLast?).or pv := by
  induction l1 with
  | nil => intro pv h; simpa using h.1
  | cons x l1 ih =>
    intro pv h
    have := ih h.2.2
    rw [this]
    cases l1 with
    | nil => simp
    | cons y r => simp [List.getLast?_eq_getLast, Option.or]

theorem Seg.walk_eq {m : Heap} {ps : List Nat} :
    ∀ {pv : Option Nat}, Seg m pv ps → walk m ps.head? ps.length = some ps := by
  induction ps with
  | nil => intro _ _; rfl
  | cons p ps ih =>
    intro pv h
    simp [GCache.walk, h.2.1, ih h.2.2]

theorem Seg.remove_mid {m : Heap} (l : DoublyLinkedList) {n : Nat} {l2 : List Nat}
    (l1 : List Nat) :
    ∀ {pv : Option Nat}, Seg m pv (l1 ++ n :: l2) → (l1 ++ n :: l2).Nodup →
      (∀ x, pv = some x → x ∉ l1 ++ n :: l2) →
      Seg (Remove m l (some n)).1 pv (l1 ++ l2) := by
  induction l1 with
  | nil =>
    intro pv h hnd hpv
    simp only [List.nil_append] at h hnd hpv ⊢
    obtain ⟨h1, h2, h3⟩ := h
    cases l2 with
    | nil => trivial
    | cons q r =>
      obtain ⟨g1, g2, g3⟩ := h3
      have hnd2 := hnd
      simp only [List.nodup_cons, List.mem_cons, not_or] at hnd2
      have hqn : q ≠ n := fun e => hnd2.1.1 e.symm
      have hpq : pv ≠ some q := fun e => hpv q e (by simp)
      refine ⟨?_, ?_, ?_⟩
      · rw [Remove_mem]; simp [hqn, h2, h1]
      · rw [Remove_mem]; simp [hqn, h1, g2, hpq]
      · apply g3.frame
        intro p hp
        have hpn : p ≠ n := fun e => hnd2.1.2 (e ▸ hp)
        have hpq2 : q ≠ p := fun e => hnd2.2.1 (e ▸ hp)
        have hpp : pv ≠ some p := fun e => hpv p e (by simp [hp])
        rw [Remove_mem]; simp [hpn, h1, h2, hpq2, hpp]
  | cons x l1 ih =>
    intro pv h hnd hpv
    obtain ⟨h1, h2, h3⟩ := h
    have hnd2 : x ∉ l1 ++ n :: l2 ∧ (l1 ++ n :: l2).Nodup := by
      simpa using hnd
    have hx1 : x ∉ l1 := fun e => hnd2.1 (by simp [e])
    have hxn : x ≠ n := fun e => hnd2.1 (by simp [e])
    have hx2 : x ∉ l2 := fun e => hnd2.1 (by simp [e])
    have ih2 := ih h3 hnd2.2 (by intro y hy; cases hy; exact hnd2.1)
    have hnx := Seg.next_mid l1 h3
    have hpr := Seg.prev_mid l1 h3
    have hnx2 : (m n).next ≠ some x := by
      rw [hnx]; intro e; exact hx2 (List.mem_of_mem_head? e)
    refine ⟨?_, ?_, ih2⟩
    · rw [Remove_mem]; simp [hxn, hnx2, h1]
    · rw [Remove_mem]
      cases l1 with
      | nil =>
        simp at hpr
        simp [hxn, hpr, hnx]
      | cons y r =>
        have hpr2 : (m n).prev ≠ some x := by
          rw [hpr]
          simp only [List.getLast?_eq_getLast, ne_eq, reduceCtorEq, not_false_eq_true,
            Option.or, Option.some.injEq]
          intro e
          exact hx1 (e ▸ List.getLast_mem _)
        simp [hxn, hpr2]
        simpa using h2

/-! ## `Remove` and `InsertAtFront` on a well-formed list -/

theorem WF.remove_split {m : Heap} {l : DoublyLinkedList} {n : Nat} (l1 l2 : List Nat)
    (h : WF m l (l1 ++ n :: l2)) :
    WF (Remove m l (some n)).1 (Remove m l (some n)).2 (l1 ++ l2) := by
  have hnd := h.nodup
  have hn1 : n ∉ l1 := by
    intro e
    have := List.disjoint_of_nodup_append hnd e
    exact this (List.mem_cons_self _ _)
  have hn2 : n ∉ l2 := by
    have := (List.nodup_append.1 hnd).2.1
    exact (List.nodup_cons.1 this).1
  refine ⟨?_, ?_, ?_, ?_, ?_⟩
  · exact hnd.sublist (List.Sublist.append_left (List.sublist_cons_self _ _) _)
  · exact Seg.remove_mid l l1 h.seg hnd (by intro x hx; cases hx)
  · rw [Remove_list, h.head, Seg.next_mid l1 h.seg]
    cases l1 with
    | nil => simp
    | cons x r =>
      have : n ≠ x := fun e => hn1 (by simp [e])
      simp [this]
  · rw [Remove_list, h.last, Seg.prev_mid l1 h.seg]
    cases l2 with
    | nil => simp
    | cons y r =>
      have hne : (y :: r).getLast (by simp) ≠ n := fun e => hn2 (e ▸ List.getLast_mem _)
      simp [List.getLast?_eq_getLast, List.getLast_append, Ne.symm hne]
  · rw [Remove_list, h.count]
    simp
    omega

theorem WF.remove_mem {m : Heap} {l : DoublyLinkedList} {ps : List Nat} {n : Nat}
    (h : WF m l ps) (hn : n ∈ ps) :
    WF (Remove m l (some n)).1 (Remove m l (some n)).2 (ps.erase n) := by
  obtain ⟨l1, l2, rfl, hn1⟩ := List.eq_append_cons_of_mem hn
  have : (l1 ++ n :: l2).erase n = l1 ++ l2 := by
    rw [List.erase_append_right _ hn1, List.erase_cons_head]
  rw [this]
  exact h.remove_split l1 l2

theorem WF.head_ne {m : Heap} {l : DoublyLinkedList} {ps : List Nat} {n : Nat}
    (h : WF m l ps) (hn : n ∉ ps) : l.head ≠ some n := by
  rw [h.head]
  intro e
  exact hn (List.mem_of_mem_head? e)

theorem WF.insert_front {m : Heap} {l : DoublyLinkedList} {ps : List Nat} {n : Nat}
    (h : WF m l ps) (hn : n ∉ ps) :
    WF (InsertAtFront m l n).1 (InsertAtFront m l n).2 (n :: ps) := by
  have hh := h.head_ne hn
  refine ⟨List.nodup_cons.2 ⟨hn, h.nodup⟩, ?_, ?_, ?_, ?_⟩
  · refine ⟨?_, ?_, ?_⟩
    · rw [InsertAtFront_mem _ _ _ _ hh]; simp
    · rw [InsertAtFront_mem _ _ _ _ hh]; simp [h.head]
    · cases ps with
      | nil => trivial
      | cons p r =>
        obtain ⟨g1, g2, g3⟩ := h.seg
        have hpn : p ≠ n := fun e => hn (by simp [e])
        have hnd := List.nodup_cons.1 h.nodup
        refine ⟨?_, ?_, ?_⟩
        · rw [InsertAtFront_mem _ _ _ _ hh]; simp [hpn, h.head]
        · rw [InsertAtFront_mem _ _ _ _ hh]; simp [hpn, g2]
        · apply g3.frame
          intro q hq
          have hqn : q ≠ n := fun e => hn (by simp [e ▸ hq])
          have hqp : p ≠ q := fun e => hnd.1 (e ▸ hq)
          rw [InsertAtFront_mem _ _ _ _ hh]; simp [hqn, h.head, hqp]
  · rw [InsertAtFront_list]; rfl
  · rw [InsertAtFront_list, h.head, h.last]
    cases ps with
    | nil => simp
    | cons p r => simp [List.getLast?_cons_cons]
  · rw [InsertAtFront_list, h.count]; simp

theorem Remove_data (m : Heap) (l : DoublyLinkedList) (n q : Nat) :
    ((Remove m l (some n)).1 q).data = (m q).data := by
  rw [Remove_mem]; split_ifs with e <;> simp [e]

theorem InsertAtFront_data (m : Heap) (l : DoublyLinkedList) (n q : Nat) :
    ((InsertAtFront m l n).1 q).data = (m q).data := by
  unfold InsertAtFront
  rcases hh : l.head with _ | a <;> simp [setNext, setPrev] <;> split_ifs <;> simp_all

theorem WF.order_eq {s : LRUCache} {ps : List Nat} (h : WF s.mem s.list ps) :
    order s = some ps := by
  unfold GCache.order
  rw [h.head, h.count]
  exact h.seg.walk_eq

/-! ## The operations on a well-formed state -/

theorem itemAt_congr {m m2 : Heap} {q : Nat} (h : (m2 q).data = (m q).data) :
    itemAt m2 q = itemAt m q := by
  unfold itemAt; rw [h]

theorem keyAt_congr {m m2 : Heap} {q : Nat} (h : (m2 q).data = (m q).data) :
    keyAt m2 q = keyAt m q := by
  unfold keyAt; rw [itemAt_congr h]

theorem touch_wf {m : Heap} {l : DoublyLinkedList} {n : Nat} (l1 l2 : List Nat)
    (h : WF m l (l1 ++ n :: l2)) :
    WF (InsertAtFront (Remove m l (some n)).1 (Remove m l (some n)).2 n).1
      (InsertAtFront (Remove m l (some n)).1 (Remove m l (some n)).2 n).2
      (n :: (l1 ++ l2)) := by
  have hnd := h.nodup
  have hn : n ∉ l1 ++ l2 := by
    have h1 : n ∉ l1 := fun e =>
      List.disjoint_of_nodup_append hnd e (List.mem_cons_self _ _)
    have h2 : n ∉ l2 := (List.nodup_cons.1 (List.nodup_append.1 hnd).2.1).1
    simp [h1, h2]
  exact (h.remove_split l1 l2).insert_front hn

theorem touch_data (m : Heap) (l : DoublyLinkedList) (n q : Nat) :
    ((InsertAtFront (Remove m l (some n)).1 (Remove m l (some n)).2 n).1 q).data
      = (m q).data := by
  rw [InsertAtFront_data, Remove_data]

theorem Get_miss {s : LRUCache} {k : String} (h : s.cache.lookup k = none) :
    Get s k = some (s, "", false) := by
  unfold Get; rw [h]

theorem Get_hit {s : LRUCache} {k : String} {n : Nat} (l1 l2 : List Nat)
    (h : Models s (l1 ++ n :: l2)) (hk : s.cache.lookup k = some n) :
    ∃ s2, Get s k = some (s2, (itemAt s.mem n).2, true) ∧ Models s2 (n :: (l1 ++ l2)) ∧
      (∀ q, (s2.mem q).data = (s.mem q).data) ∧ s2.cache = s.cache ∧
      s2.capacity = s.capacity ∧ s2.fresh = s.fresh ∧ s2.list.count = s.list.count := by
  have hmem : n ∈ l1 ++ n :: l2 := by simp
  obtain ⟨hd, hl⟩ := h.data n hmem
  obtain ⟨it, hit⟩ := Option.isSome_iff_exists.1 hd
  have hwf := touch_wf l1 l2 h.wf
  have hdat := touch_data s.mem s.list n
  refine ⟨{ s with
      mem := (InsertAtFront (Remove s.mem s.list (some n)).1 (Remove s.mem s.list (some n)).2 n).1
      list := (InsertAtFront (Remove s.mem s.list (some n)).1
        (Remove s.mem s.list (some n)).2 n).2 }, ?_, ?_, hdat, rfl, rfl, rfl, ?_⟩
  · unfold Get
    rw [hk]
    simp only [hdat, hit, itemAt]
  · refine ⟨hwf, ?_, ?_, ?_, h.cap, ?_⟩
    · intro p hp
      apply h.alloc
      simp only [List.mem_cons, List.mem_append] at hp ⊢
      tauto
    · intro p hp
      have hp2 : p ∈ l1 ++ n :: l2 := by
        simp only [List.mem_cons, List.mem_append] at hp ⊢
        tauto
      have := h.data p hp2
      dsimp only
      rw [hdat, keyAt_congr (hdat p)]
      exact this
    · intro k2 p hp
      have := h.index k2 p hp
      dsimp only
      rw [keyAt_congr (hdat p)]
      refine ⟨?_, this.2⟩
      have h1 := this.1
      simp only [List.mem_cons, List.mem_append] at h1 ⊢
      tauto
    · have := h.bound
      rw [hwf.count]
      rw [h.wf.count] at this
      simp at this ⊢
      omega
  · rw [hwf.count, h.wf.count]
    simp
    omega

theorem Models.not_mem_split {s : LRUCache} {n : Nat} {l1 l2 : List Nat}
    (h : Models s (l1 ++ n :: l2)) : n ∉ l1 ++ l2 := by
  have hnd := h.wf.nodup
  have h1 : n ∉ l1 := fun e =>
    List.disjoint_of_nodup_append hnd e (List.mem_cons_self _ _)
  have h2 : n ∉ l2 := (List.nodup_cons.1 (List.nodup_append.1 hnd).2.1).1
  simp [h1, h2]

theorem Models.remove_node {s : LRUCache} {n : Nat} (l1 l2 : List Nat)
    (h : Models s (l1 ++ n :: l2)) :
    Models { s with
      mem := (Remove s.mem s.list (some n)).1
      list := (Remove s.mem s.list (some n)).2
      cache := s.cache.erase (keyAt s.mem n) } (l1 ++ l2) := by
  have hwf := h.wf.remove_split l1 l2
  have hn := h.not_mem_split
  have hdat := Remove_data s.mem s.list n
  have hsub : ∀ p, p ∈ l1 ++ l2 → p ∈ l1 ++ n :: l2 := by
    intro p hp
    simp only [List.mem_cons, List.mem_append] at hp ⊢
    tauto
  have hnl := (h.data n (by simp)).2
  refine ⟨hwf, fun p hp => h.alloc p (hsub p hp), ?_, ?_, h.cap, ?_⟩
  · intro p hp
    have := h.data p (hsub p hp)
    dsimp only
    rw [hdat, keyAt_congr (hdat p)]
    refine ⟨this.1, ?_⟩
    rw [AList.lookup_erase_ne]
    · exact this.2
    · intro e
      rw [e, hnl] at this
      exact hn (Option.some.inj this.2 ▸ hp)
  · intro k2 p hp
    dsimp only at hp ⊢
    have hk : k2 ≠ keyAt s.mem n := by
      intro e
      rw [e, AList.lookup_erase] at hp
      cases hp
    rw [AList.lookup_erase_ne hk] at hp
    have := h.index k2 p hp
    rw [keyAt_congr (hdat p)]
    refine ⟨?_, this.2⟩
    have hpn : p ≠ n := by
      intro e
      rw [e] at this
      exact hk this.2.symm
    have h1 := this.1
    simp only [List.mem_cons, List.mem_append] at h1 ⊢
    tauto
  · have := h.bound
    rw [hwf.count]
    rw [h.wf.count] at this
    simp at this ⊢
    omega

theorem NewDoublyNode_wf {m : Heap} {l : DoublyLinkedList} {ps : List Nat} {n : Nat}
    (d : Option CacheItem) (h : WF m l ps) (hn : n ∉ ps) : WF (NewDoublyNode m n d) l ps := by
  refine ⟨h.nodup, h.seg.frame ?_, h.head, h.last, h.count⟩
  intro p hp
  have : p ≠ n := fun e => hn (e ▸ hp)
  simp [NewDoublyNode, this]

theorem setData_wf {m : Heap} {l : DoublyLinkedList} {ps : List Nat} (n : Nat)
    (d : Option CacheItem) (h : WF m l ps) : WF (setData m n d) l ps := by
  refine ⟨h.nodup, h.seg.frame ?_, h.head, h.last, h.count⟩
  intro p _
  unfold setData
  split_ifs with e
  · subst e; simp
  · simp

theorem Models.insert_new {s : LRUCache} {ps : List Nat} (k v : String)
    (h : Models s ps) (hk : s.cache.lookup k = none) (hroom : s.list.count < s.capacity) :
    Models { s with
      mem := (InsertAtFront (NewDoublyNode s.mem s.fresh (some { key := k, value := v }))
        s.list s.fresh).1
      list := (InsertAtFront (NewDoublyNode s.mem s.fresh (some { key := k, value := v }))
        s.list s.fresh).2
      cache := s.cache.insert k s.fresh
      fresh := s.fresh + 1 } (s.fresh :: ps) := by
  have hn : s.fresh ∉ ps := fun e => Nat.lt_irrefl _ (h.alloc _ e)
  have hwf := (NewDoublyNode_wf (some { key := k, value := v }) h.wf hn).insert_front hn
  have hdat : ∀ q, ((InsertAtFront (NewDoublyNode s.mem s.fresh
      (some { key := k, value := v })) s.list s.fresh).1 q).data =
      if q = s.fresh then some { key := k, value := v } else (s.mem q).data := by
    intro q
    rw [InsertAtFront_data]
    unfold NewDoublyNode
    split_ifs <;> rfl
  have hkey : ∀ q, keyAt (InsertAtFront (NewDoublyNode s.mem s.fresh
      (some { key := k, value := v })) s.list s.fresh).1 q =
      if q = s.fresh then k else keyAt s.mem q := by
    intro q
    unfold keyAt itemAt
    rw [hdat]
    split_ifs <;> rfl
  refine ⟨hwf, ?_, ?_, ?_, h.cap, ?_⟩
  · intro p hp
    rcases List.mem_cons.1 hp with e | e
    · subst e; exact Nat.lt_succ_self _
    · exact Nat.lt_succ_of_lt (h.alloc p e)
  · intro p hp
    dsimp only
    rw [hdat, hkey]
    rcases List.mem_cons.1 hp with e | e
    · subst e
      rw [if_pos rfl, if_pos rfl]
      exact ⟨rfl, AList.lookup_insert _⟩
    · have hpn : p ≠ s.fresh := fun e2 => hn (e2 ▸ e)
      have := h.data p e
      rw [if_neg hpn, if_neg hpn]
      refine ⟨this.1, ?_⟩
      rw [AList.lookup_insert_ne]
      · exact this.2
      · intro e2
        rw [e2, hk] at this
        cases this.2
  · intro k2 p hp
    dsimp only at hp ⊢
    rw [hkey]
    by_cases e : k2 = k
    · subst e
      rw [AList.lookup_insert] at hp
      cases hp
      simp
    · rw [AList.lookup_insert_ne e] at hp
      have := h.index k2 p hp
      have hpn : p ≠ s.fresh := fun e2 => hn (e2 ▸ this.1)
      simp [hpn, this]
  · rw [hwf.count]
    have := h.wf.count
    simp
    omega

theorem Put_hit {s : LRUCache} {k : String} {n : Nat} (v : String) (l1 l2 : List Nat)
    (h : Models s (l1 ++ n :: l2)) (hk : s.cache.lookup k = some n) :
    ∃ s2, Put s k v = some s2 ∧ Models s2 (n :: (l1 ++ l2)) ∧
      (∀ q, (s2.mem q).data =
        if q = n then some { key := k, value := v } else (s.mem q).data) ∧
      s2.cache = s.cache ∧ s2.capacity = s.capacity ∧ s2.list.count = s.list.count := by
  have hmem : n ∈ l1 ++ n :: l2 := by simp
  obtain ⟨hd, -⟩ := h.data n hmem
  obtain ⟨it, hit⟩ := Option.isSome_iff_exists.1 hd
  have hkey : it.key = k := by
    have := (h.index k n hk).2
    simpa [keyAt, itemAt, hit] using this
  have hwf0 := setData_wf n (some { it with value := v }) h.wf
  have hwf := touch_wf l1 l2 hwf0
  have hdat : ∀ q, ((InsertAtFront
      (Remove (setData s.mem n (some { it with value := v })) s.list (some n)).1
      (Remove (setData s.mem n (some { it with value := v })) s.list (some n)).2 n).1 q).data =
      if q = n then some { key := k, value := v } else (s.mem q).data := by
    intro q
    rw [touch_data]
    unfold setData
    split_ifs
    · simp [hkey]
    · rfl
  have hkeyAt : ∀ q, keyAt (InsertAtFront
      (Remove (setData s.mem n (some { it with value := v })) s.list (some n)).1
      (Remove (setData s.mem n (some { it with value := v })) s.list (some n)).2 n).1 q =
      keyAt s.mem q := by
    intro q
    have hq := (h.index k n hk).2
    unfold keyAt itemAt at hq ⊢
    rw [hdat]
    split_ifs with e
    · subst e; exact hq.symm
    · rfl
  have hcount : ((InsertAtFront
      (Remove (setData s.mem n (some { it with value := v })) s.list (some n)).1
      (Remove (setData s.mem n (some { it with value := v })) s.list (some n)).2 n).2).count =
      s.list.count := by
    rw [hwf.count, h.wf.count]
    simp
    omega
  have hsub : ∀ p, p ∈ n :: (l1 ++ l2) ↔ p ∈ l1 ++ n :: l2 := by
    intro p
    simp only [List.mem_cons, List.mem_append]
    tauto
  refine ⟨{ s with
      mem := (InsertAtFront
        (Remove (setData s.mem n (some { it with value := v })) s.list (some n)).1
        (Remove (setData s.mem n (some { it with value := v })) s.list (some n)).2 n).1
      list := (InsertAtFront
        (Remove (setData s.mem n (some { it with value := v })) s.list (some n)).1
        (Remove (setData s.mem n (some { it with value := v })) s.list (some n)).2 n).2 },
    ?_, ?_, hdat, rfl, rfl, hcount⟩
  · unfold Put
    rw [hk]
    simp only [hit]
  · refine ⟨hwf, fun p hp => h.alloc p ((hsub p).1 hp), ?_, ?_, h.cap, ?_⟩
    · intro p hp
      have := h.data p ((hsub p).1 hp)
      dsimp only
      rw [hdat, hkeyAt]
      refine ⟨?_, this.2⟩
      split_ifs
      · rfl
      · exact this.1
    · intro k2 p hp
      have := h.index k2 p hp
      dsimp only
      rw [hkeyAt]
      exact ⟨(hsub p).2 this.1, this.2⟩
    · dsimp only
      rw [hcount]
      exact h.bound

theorem Put_room {s : LRUCache} {k : String} {ps : List Nat} (v : String)
    (h : Models s ps) (hk : s.cache.lookup k = none) (hroom : s.list.count ≠ s.capacity) :
    ∃ s2, Put s k v = some s2 ∧ Models s2 (s.fresh :: ps) ∧
      (∀ q, (s2.mem q).data =
        if q = s.fresh then some { key := k, value := v } else (s.mem q).data) ∧
      s2.cache = s.cache.insert k s.fresh ∧ s2.capacity = s.capacity := by
  have hlt : s.list.count < s.capacity := lt_of_le_of_ne h.bound hroom
  refine ⟨_, ?_, h.insert_new k v hk hlt, ?_, rfl, rfl⟩
  · unfold Put
    rw [hk]
    simp only [DoublyLinkedList.Count, hroom, if_false]
  · intro q
    dsimp only
    rw [InsertAtFront_data]
    unfold NewDoublyNode
    split_ifs <;> rfl

theorem Put_full {s : LRUCache} {k : String} {t : Nat} (v : String) (l1 : List Nat)
    (h : Models s (l1 ++ [t])) (hk : s.cache.lookup k = none)
    (hfull : s.list.count = s.capacity) :
    ∃ s2, Put s k v = some s2 ∧ Models s2 (s.fresh :: l1) ∧
      (∀ q, (s2.mem q).data =
        if q = s.fresh then some { key := k, value := v } else (s.mem q).data) ∧
      s2.cache = (s.cache.erase (keyAt s.mem t)).insert k s.fresh ∧
      s2.capacity = s.capacity := by
  have hmem : t ∈ l1 ++ [t] := by simp
  obtain ⟨hd, -⟩ := h.data t hmem
  obtain ⟨it, hit⟩ := Option.isSome_iff_exists.1 hd
  have hkey : keyAt s.mem t = it.key := by simp [keyAt, itemAt, hit]
  have hrem := h.remove_node l1 []
  rw [List.append_nil] at hrem
  have hlast : s.list.last = some t := by rw [h.wf.last]; simp
  have hk2 : (s.cache.erase (keyAt s.mem t)).lookup k = none := by
    rw [AList.lookup_eq_none] at hk ⊢
    intro e
    exact hk (AList.mem_erase.1 e).2
  have hlt : (Remove s.mem s.list (some t)).2.count < s.capacity := by
    rw [Remove_list]
    dsimp only
    omega
  have hins := hrem.insert_new k v hk2 hlt
  refine ⟨_, ?_, hins, ?_, rfl, rfl⟩
  · unfold Put
    rw [hk]
    simp only [DoublyLinkedList.Count, hfull, if_true, hlast, Remove_data, hit, hkey]
  · intro q
    dsimp only
    rw [InsertAtFront_data]
    unfold NewDoublyNode
    split_ifs
    · rfl
    · exact Remove_data _ _ _ _

theorem Delete_miss {s : LRUCache} {k : String} (h : s.cache.lookup k = none) :
    Delete s k = (s, false) := by
  unfold Delete; rw [h]

theorem Delete_hit {s : LRUCache} {k : String} {n : Nat} (l1 l2 : List Nat)
    (h : Models s (l1 ++ n :: l2)) (hk : s.cache.lookup k = some n) :
    (Delete s k).2 = true ∧ Models (Delete s k).1 (l1 ++ l2) ∧
      (∀ q, ((Delete s k).1.mem q).data = (s.mem q).data) ∧
      (Delete s k).1.cache = s.cache.erase k ∧ (Delete s k).1.capacity = s.capacity := by
  have hkey := (h.index k n hk).2
  have hrem := h.remove_node l1 l2
  rw [hkey] at hrem
  have e : Delete s k = ({ s with
      mem := (Remove s.mem s.list (some n)).1
      list := (Remove s.mem s.list (some n)).2
      cache := s.cache.erase k }, true) := by
    unfold Delete; rw [hk]
  rw [e]
  exact ⟨rfl, hrem, fun q => Remove_data s.mem s.list n q, rfl, rfl⟩

theorem Clear_models {s : LRUCache} (hc : 0 < s.capacity) : Models (Clear s) [] := by
  refine ⟨⟨List.nodup_nil, trivial, rfl, rfl, rfl⟩, ?_, ?_, ?_, hc, ?_⟩
  · intro p hp; cases hp
  · intro p hp; cases hp
  · intro k p hp
    simp [Clear, AList.lookup_empty] at hp
  · simp [Clear, NewDoublyLinkedList]
    exact le_of_lt hc

theorem NewLRUCache_pos {c : Int} (hc : 0 < c) :
    ∃ s, NewLRUCache c = some s ∧ Models s [] ∧ s.capacity = c := by
  unfold NewLRUCache
  rw [if_neg (not_le.2 hc)]
  refine ⟨_, rfl, ?_, rfl⟩
  refine ⟨⟨List.nodup_nil, trivial, rfl, rfl, rfl⟩, ?_, ?_, ?_, hc, ?_⟩
  · intro p hp; cases hp
  · intro p hp; cases hp
  · intro k p hp
    simp [AList.lookup_empty] at hp
  · simp [NewDoublyLinkedList]
    exact le_of_lt hc

theorem NewLRUCache_some {c : Int} {s : LRUCache} (h : NewLRUCache c = some s) : 0 < c := by
  unfold NewLRUCache at h
  split_ifs at h with e
  exact not_le.1 e

/-- Every call on a well-formed state returns, and leaves a well-formed state of the same
capacity. -/
theorem Models.step_ok {s : LRUCache} {ps : List Nat} (h : Models s ps) (op : Op) :
    ∃ s2 r ps2, step s op = some (s2, r) ∧ Models s2 ps2 ∧ s2.capacity = s.capacity := by
  cases op with
  | get k =>
    rcases hk : s.cache.lookup k with _ | n
    · exact ⟨s, Ret.found "" false, ps, by simp [GCache.step, Get_miss hk], h, rfl⟩
    · obtain ⟨l1, l2, rfl, -⟩ := List.eq_append_cons_of_mem (h.index k n hk).1
      obtain ⟨s2, e, hm, -, -, hc, -⟩ := Get_hit l1 l2 h hk
      exact ⟨s2, Ret.found (itemAt s.mem n).2 true, _, by simp [GCache.step, e], hm, hc⟩
  | put k v =>
    rcases hk : s.cache.lookup k with _ | n
    · by_cases hfull : s.list.count = s.capacity
      · have hne : ps ≠ [] := by
          intro e
          have h1 := h.wf.count
          have h2 := h.cap
          rw [e] at h1
          simp at h1
          omega
        obtain ⟨l1, t, e⟩ := (List.eq_nil_or_concat ps).resolve_left hne
        rw [List.concat_eq_append] at e
        subst e
        obtain ⟨s2, e, hm, -, -, hc⟩ := Put_full v l1 h hk hfull
        exact ⟨s2, Ret.unit, _, by simp [GCache.step, e], hm, hc⟩
      · obtain ⟨s2, e, hm, -, -, hc⟩ := Put_room v h hk hfull
        exact ⟨s2, Ret.unit, _, by simp [GCache.step, e], hm, hc⟩
    · obtain ⟨l1, l2, rfl, -⟩ := List.eq_append_cons_of_mem (h.index k n hk).1
      obtain ⟨s2, e, hm, -, -, hc, -⟩ := Put_hit v l1 l2 h hk
      exact ⟨s2, Ret.unit, _, by simp [GCache.step, e], hm, hc⟩
  | delete k =>
    rcases hk : s.cache.lookup k with _ | n
    · exact ⟨s, Ret.bool false, ps, by simp [GCache.step, Delete_miss hk], h, rfl⟩
    · obtain ⟨l1, l2, rfl, -⟩ := List.eq_append_cons_of_mem (h.index k n hk).1
      obtain ⟨-, hm, -, -, hc⟩ := Delete_hit l1 l2 h hk
      exact ⟨_, _, _, rfl, hm, hc⟩
  | contains k => exact ⟨s, _, ps, rfl, h, rfl⟩
  | size => exact ⟨s, _, ps, rfl, h, rfl⟩
  | clear => exact ⟨_, _, _, rfl, Clear_models h.cap, rfl⟩

theorem run_append (s : LRUCache) (ops1 ops2 : List Op) :
    run s (ops1 ++ ops2) = (run s ops1).bind (fun s2 => run s2 ops2) := by
  induction ops1 generalizing s with
  | nil => rfl
  | cons op ops ih =>
    simp only [List.cons_append, GCache.run]
    rcases step s op with _ | r
    · rfl
    · simp [ih]

theorem Models.run_ok {s : LRUCache} {ps : List Nat} (h : Models s ps) (ops : List Op) :
    ∃ s2 ps2, run s ops = some s2 ∧ Models s2 ps2 ∧ s2.capacity = s.capacity := by
  induction ops generalizing s ps with
  | nil => exact ⟨s, ps, rfl, h, rfl⟩
  | cons op ops ih =>
    obtain ⟨s1, r, ps1, e1, h1, c1⟩ := h.step_ok op
    obtain ⟨s2, ps2, e2, h2, c2⟩ := ih h1
    exact ⟨s2, ps2, by simp [GCache.run, e1, e2], h2, c2.trans c1⟩

/-- Every call sequence on a cache of positive capacity runs to the end without a panic. -/
theorem exec_total {c : Int} (hc : 0 < c) (ops : List Op) :
    ∃ s ps, exec c ops = some s ∧ Models s ps ∧ s.capacity = c := by
  obtain ⟨s0, e0, h0, c0⟩ := NewLRUCache_pos hc
  obtain ⟨s, ps, e, h, c1⟩ := h0.run_ok ops
  exact ⟨s, ps, by simp [exec, e0, e], h, c1.trans c0⟩

theorem exec_pos {c : Int} {ops : List Op} {s : LRUCache} (h : exec c ops = some s) :
    0 < c := by
  unfold exec at h
  rcases e : NewLRUCache c with _ | s0
  · rw [e] at h; cases h
  · exact NewLRUCache_some e

theorem Reachable.models {c : Int} {s : LRUCache} (h : Reachable c s) :
    ∃ ps, Models s ps ∧ s.capacity = c := by
  obtain ⟨ops, e⟩ := h
  obtain ⟨s2, ps, e2, hm, hc⟩ := exec_total (exec_pos e) ops
  rw [e] at e2
  cases e2
  exact ⟨ps, hm, hc⟩

/-! ## What a well-formed state shows -/

theorem Models.entries_eq {s : LRUCache} {ps : List Nat} (h : Models s ps) :
    entries s = some (view s ps) := by
  unfold GCache.entries
  rw [h.wf.order_eq]
  rfl

theorem Models.size_eq {s : LRUCache} {ps : List Nat} (h : Models s ps) :
    Size s = (view s ps).length := by
  simp [Size, DoublyLinkedList.Count, h.wf.count, view]

theorem view_keys (s : LRUCache) (ps : List Nat) :
    (view s ps).map Prod.fst = ps.map (keyAt s.mem) := by
  simp [view, keyAt, List.map_map, Function.comp_def]

theorem Models.contains_iff {s : LRUCache} {ps : List Nat} (h : Models s ps) (k : String) :
    Contains s k = true ↔ k ∈ (view s ps).map Prod.fst := by
  rw [view_keys]
  unfold Contains
  constructor
  · intro hk
    obtain ⟨n, hn⟩ := Option.isSome_iff_exists.1 hk
    obtain ⟨h1, h2⟩ := h.index k n hn
    exact List.mem_map.2 ⟨n, h1, h2⟩
  · intro hk
    obtain ⟨n, h1, h2⟩ := List.mem_map.1 hk
    rw [← h2, (h.data n h1).2]
    rfl

theorem Models.keys_nodup {s : LRUCache} {ps : List Nat} (h : Models s ps) :
    ((view s ps).map Prod.fst).Nodup := by
  rw [view_keys]
  refine List.Nodup.map_on ?_ h.wf.nodup
  intro p hp q hq e
  have h1 := (h.data p hp).2
  have h2 := (h.data q hq).2
  rw [e, h2] at h1
  exact (Option.some.inj h1).symm

theorem Contains_false_iff {s : LRUCache} {k : String} :
    Contains s k = false ↔ s.cache.lookup k = none := by
  unfold Contains
  cases s.cache.lookup k <;> simp

theorem view_congr {s s2 : LRUCache} {ps : List Nat}
    (h : ∀ q ∈ ps, (s2.mem q).data = (s.mem q).data) : view s2 ps = view s ps := by
  unfold view
  exact List.map_congr_left (fun q hq => itemAt_congr (h q hq))

theorem itemAt_of_data {m : Heap} {q : Nat} {k v : String}
    (h : (m q).data = some { key := k, value := v }) : itemAt m q = (k, v) := by
  unfold itemAt; rw [h]

theorem exec_demoFull : exec 2 [.put "a" "1", .put "b" "2"] = some demoFull :=
  (Option.some_get _).symm

theorem exec_demoRoom : exec 3 [.put "a" "1", .put "b" "2"] = some demoRoom :=
  (Option.some_get _).symm

/-! ## The code against the list of entries -/

theorem valueOf_none {k : String} {es : List (String × String)} :
    valueOf k es = none ↔ k ∉ es.map Prod.fst := by
  induction es with
  | nil => simp [valueOf]
  | cons e es ih =>
    unfold valueOf
    by_cases h : e.1 = k
    · simp [h]
    · simp [h, ih, Ne.symm h]

theorem valueOf_split {k v : String} {a b : List (String × String)}
    (h : k ∉ a.map Prod.fst) : valueOf k (a ++ (k, v) :: b) = some v := by
  induction a with
  | nil => simp [valueOf]
  | cons e a ih =>
    simp only [List.map_cons, List.mem_cons, not_or] at h
    simp [valueOf, Ne.symm h.1, ih h.2]

theorem dropKey_of_not_mem {k : String} {a : List (String × String)}
    (h : k ∉ a.map Prod.fst) : dropKey k a = a := by
  unfold dropKey
  rw [List.filter_eq_self]
  intro e he
  have : e.1 ≠ k := fun e2 => h (List.mem_map.2 ⟨e, he, e2⟩)
  simpa using this

theorem dropKey_split {k v : String} {a b : List (String × String)}
    (ha : k ∉ a.map Prod.fst) (hb : k ∉ b.map Prod.fst) :
    dropKey k (a ++ (k, v) :: b) = a ++ b := by
  have h1 := dropKey_of_not_mem ha
  have h2 := dropKey_of_not_mem hb
  unfold dropKey at h1 h2 ⊢
  rw [List.filter_append, List.filter_cons, h1, h2]
  simp

theorem view_split (s : LRUCache) (l1 l2 : List Nat) (n : Nat) :
    view s (l1 ++ n :: l2) = view s l1 ++ itemAt s.mem n :: view s l2 := by
  simp [view]

theorem Models.keys_split {s : LRUCache} {n : Nat} {l1 l2 : List Nat}
    (h : Models s (l1 ++ n :: l2)) :
    keyAt s.mem n ∉ (view s l1).map Prod.fst ∧ keyAt s.mem n ∉ (view s l2).map Prod.fst := by
  have hk := h.keys_nodup
  rw [view_split, List.map_append, List.map_cons, List.nodup_append, List.nodup_cons] at hk
  refine ⟨fun e => hk.2.2 e (List.mem_cons_self _ _), hk.2.1.1⟩

theorem Models.valueOf_absent {s : LRUCache} {ps : List Nat} {k : String} (h : Models s ps)
    (hk : s.cache.lookup k = none) : valueOf k (view s ps) = none := by
  rw [GCache.valueOf_none, ← h.contains_iff, Bool.not_eq_true]
  exact Contains_false_iff.2 hk

theorem Models.item_split {s : LRUCache} {n : Nat} {l1 l2 : List Nat} {k : String}
    (h : Models s (l1 ++ n :: l2)) (hk : s.cache.lookup k = some n) :
    itemAt s.mem n = (k, (itemAt s.mem n).2) := by
  have := (h.index k n hk).2
  unfold keyAt at this
  rw [← this]

theorem Models.view_hit {s : LRUCache} {n : Nat} {l1 l2 : List Nat} {k : String}
    (h : Models s (l1 ++ n :: l2)) (hk : s.cache.lookup k = some n) :
    view s (l1 ++ n :: l2) = view s l1 ++ (k, (itemAt s.mem n).2) :: view s l2 ∧
      valueOf k (view s (l1 ++ n :: l2)) = some (itemAt s.mem n).2 ∧
      dropKey k (view s (l1 ++ n :: l2)) = view s (l1 ++ l2) := by
  have hkey := (h.index k n hk).2
  have hs := h.keys_split
  rw [hkey] at hs
  have e : view s (l1 ++ n :: l2) = view s l1 ++ (k, (itemAt s.mem n).2) :: view s l2 := by
    rw [view_split, ← h.item_split hk]
  refine ⟨e, ?_, ?_⟩
  · rw [e, valueOf_split hs.1]
  · rw [e, dropKey_split hs.1 hs.2]
    simp [view]

/-- Each call of the engine on a well-formed state returns, returns what the list of entries
says, and leaves a well-formed state showing the list of entries after the call. -/
theorem Models.sim {s : LRUCache} {ps : List Nat} (h : Models s ps) (op : Op) :
    ∃ s2 ps2, GCache.step s op = some (s2, (absStep s.capacity (view s ps) op).2) ∧
      Models s2 ps2 ∧ s2.capacity = s.capacity ∧
      view s2 ps2 = (absStep s.capacity (view s ps) op).1 := by
  cases op with
  | get k =>
    rcases hk : s.cache.lookup k with _ | n
    · refine ⟨s, ps, ?_, h, rfl, ?_⟩ <;>
        simp [GCache.step, Get_miss hk, absStep, h.valueOf_absent hk]
    · obtain ⟨l1, l2, rfl, -⟩ := List.eq_append_cons_of_mem (h.index k n hk).1
      obtain ⟨s2, e, hm, hdat, -, hc, -⟩ := Get_hit l1 l2 h hk
      obtain ⟨-, hv, hd⟩ := h.view_hit hk
      refine ⟨s2, _, ?_, hm, hc, ?_⟩
      · simp [GCache.step, e, absStep, hv]
      · simp only [absStep, hv, hd]
        have h1 : view s2 (l1 ++ l2) = view s (l1 ++ l2) := view_congr (fun q _ => hdat q)
        have h2 : itemAt s2.mem n = (k, (itemAt s.mem n).2) := by
          rw [itemAt_congr (hdat n)]
          exact h.item_split hk
        rw [← h1, ← h2]
        rfl
  | put k v =>
    rcases hk : s.cache.lookup k with _ | n
    · have hfresh : s.fresh ∉ ps := fun e => Nat.lt_irrefl _ (h.alloc _ e)
      have hlen : ((view s ps).length : Int) = s.list.count := by
        rw [h.wf.count]; simp [view]
      by_cases hfull : s.list.count = s.capacity
      · have hne : ps ≠ [] := by
          intro e
          have h1 := h.wf.count
          have h2 := h.cap
          rw [e] at h1
          simp at h1
          omega
        obtain ⟨l1, t, e⟩ := (List.eq_nil_or_concat ps).resolve_left hne
        rw [List.concat_eq_append] at e
        subst e
        obtain ⟨s2, e, hm, hdat, -, hc⟩ := Put_full v l1 h hk hfull
        refine ⟨s2, _, ?_, hm, hc, ?_⟩
        · simp [GCache.step, e, absStep, h.valueOf_absent hk, hlen, hfull]
        · simp only [absStep, h.valueOf_absent hk, hlen, hfull, if_true]
          have h1 : view s2 l1 = view s l1 := by
            apply view_congr
            intro q hq
            have : q ≠ s.fresh := fun e => hfresh (by simp [← e, hq])
            rw [hdat, if_neg this]
          have h2 : itemAt s2.mem s.fresh = (k, v) :=
            itemAt_of_data (by rw [hdat, if_pos rfl])
          have h3 : view s (l1 ++ [t]) = view s l1 ++ [itemAt s.mem t] := by simp [view]
          rw [h3, List.dropLast_concat, ← h1, ← h2]
          rfl
      · obtain ⟨s2, e, hm, hdat, -, hc⟩ := Put_room v h hk hfull
        refine ⟨s2, _, ?_, hm, hc, ?_⟩
        · simp [GCache.step, e, absStep, h.valueOf_absent hk, hlen, hfull]
        · simp only [absStep, h.valueOf_absent hk, hlen, hfull, if_false]
          have h1 : view s2 ps = view s ps := by
            apply view_congr
            intro q hq
            have : q ≠ s.fresh := fun e => hfresh (e ▸ hq)
            rw [hdat, if_neg this]
          have h2 : itemAt s2.mem s.fresh = (k, v) :=
            itemAt_of_data (by rw [hdat, if_pos rfl])
          rw [← h1, ← h2]
          rfl
    · obtain ⟨l1, l2, rfl, -⟩ := List.eq_append_cons_of_mem (h.index k n hk).1
      obtain ⟨s2, e, hm, hdat, -, hc, -⟩ := Put_hit v l1 l2 h hk
      obtain ⟨-, hv, hd⟩ := h.view_hit hk
      have hn := h.not_mem_split
      refine ⟨s2, _, ?_, hm, hc, ?_⟩
      · simp [GCache.step, e, absStep, hv]
      · simp only [absStep, hv, hd]
        have h1 : view s2 (l1 ++ l2) = view s (l1 ++ l2) := by
          apply view_congr
          intro q hq
          have : q ≠ n := fun e => hn (e ▸ hq)
          rw [hdat, if_neg this]
        have h2 : itemAt s2.mem n = (k, v) := itemAt_of_data (by rw [hdat, if_pos rfl])
        rw [← h1, ← h2]
        rfl
  | delete k =>
    rcases hk : s.cache.lookup k with _ | n
    · refine ⟨s, ps, ?_, h, rfl, ?_⟩
      · simp [GCache.step, Delete_miss hk, absStep, h.valueOf_absent hk]
      · simp only [absStep]
        rw [dropKey_of_not_mem (GCache.valueOf_none.1 (h.valueOf_absent hk))]
    · obtain ⟨l1, l2, rfl, -⟩ := List.eq_append_cons_of_mem (h.index k n hk).1
      obtain ⟨hb, hm, hdat, -, hc⟩ := Delete_hit l1 l2 h hk
      obtain ⟨-, hv, hd⟩ := h.view_hit hk
      refine ⟨_, _, ?_, hm, hc, ?_⟩
      · simp [GCache.step, hb, absStep, hv]
      · simp only [absStep, hd]
        exact view_congr (fun q _ => hdat q)
  | contains k =>
    refine ⟨s, ps, ?_, h, rfl, rfl⟩
    simp only [GCache.step, absStep]
    rcases hk : s.cache.lookup k with _ | n
    · simp [Contains, hk, h.valueOf_absent hk]
    · obtain ⟨l1, l2, rfl, -⟩ := List.eq_append_cons_of_mem (h.index k n hk).1
      simp [Contains, hk, (h.view_hit hk).2.1]
  | size =>
    refine ⟨s, ps, ?_, h, rfl, rfl⟩
    simp [GCache.step, absStep, h.size_eq]
  | clear =>
    exact ⟨_, [], rfl, Clear_models h.cap, rfl, rfl⟩

theorem Models.sim_run {s : LRUCache} {ps : List Nat} (h : Models s ps) (ops : List Op) :
    ∃ s2 ps2, GCache.run s ops = some s2 ∧ Models s2 ps2 ∧ s2.capacity = s.capacity ∧
      view s2 ps2 = absRun s.capacity (view s ps) ops := by
  induction ops generalizing s ps with
  | nil => exact ⟨s, ps, rfl, h, rfl, rfl⟩
  | cons op ops ih =>
    obtain ⟨s1, ps1, e1, h1, c1, v1⟩ := h.sim op
    obtain ⟨s2, ps2, e2, h2, c2, v2⟩ := ih h1
    refine ⟨s2, ps2, by simp [GCache.run, e1, e2], h2, c2.trans c1, ?_⟩
    rw [v2, c1, v1]
    rfl

/-- A call sequence on `NewLRUCache(c)`, `c > 0`, runs to the end and shows the list of
entries that the sequence builds from the empty list. -/
theorem exec_sim {c : Int} (hc : 0 < c) (ops : List Op) :
    ∃ s ps, exec c ops = some s ∧ Models s ps ∧ s.capacity = c ∧
      entries s = some (absRun c [] ops) := by
  obtain ⟨s0, e0, h0, c0⟩ := NewLRUCache_pos hc
  obtain ⟨s, ps, e, h, c1, v⟩ := h0.sim_run ops
  refine ⟨s, ps, by simp [exec, e0, e], h, c1.trans c0, ?_⟩
  rw [h.entries_eq, v, c0]
  rfl

/-! ## Values and the history of calls -/

theorem absRun_append (cap : Int) (es : List (String × String)) (ops1 ops2 : List Op) :
    absRun cap es (ops1 ++ ops2) = absRun cap (absRun cap es ops1) ops2 := by
  induction ops1 generalizing es with
  | nil => rfl
  | cons op ops ih =>
    show absRun cap (absStep cap es op).1 (ops ++ ops2) = _
    exact ih _

theorem lastPut_concat (k : String) (ops : List Op) (op : Op) :
    lastPut k (ops ++ [op]) =
      match op with
      | .put k2 v => if k2 = k then some v else lastPut k ops
      | _ => lastPut k ops := by
  induction ops with
  | nil => cases op <;> simp [lastPut]
  | cons o ops ih =>
    show (match lastPut k (ops ++ [op]) with
      | some v => some v
      | none =>
        match o with
        | .put k2 v => if k2 = k then some v else none
        | _ => none) = _
    rw [ih]
    cases op with
    | put k2 v =>
      by_cases e : k2 = k
      · simp [e]
      · simp [e, lastPut]
    | _ => simp [lastPut]

theorem valueOf_dropKey (k k2 : String) (es : List (String × String)) :
    valueOf k2 (dropKey k es) = if k2 = k then none else valueOf k2 es := by
  induction es with
  | nil => simp [dropKey, valueOf]
  | cons e es ih =>
    unfold dropKey at ih ⊢
    by_cases h1 : e.1 = k
    · by_cases h2 : k2 = k
      · simp [List.filter_cons, h1, h2] at ih ⊢
        exact ih
      · have h3 : e.1 ≠ k2 := fun e3 => h2 (e3 ▸ h1)
        have h4 : k ≠ k2 := Ne.symm h2
        simp [List.filter_cons, h1, h2, valueOf, h3, h4] at ih ⊢
        exact ih
    · by_cases h2 : k2 = k
      · have h3 : e.1 ≠ k2 := fun e3 => h1 (e3.trans h2)
        simp [List.filter_cons, h1, h2, valueOf] at ih ⊢
        exact ih
      · simp only [List.filter_cons, h1, ne_eq, not_false_eq_true, decide_True, if_true,
          valueOf, h2, if_false] at ih ⊢
        rw [ih]

theorem valueOf_append_of_some {k v : String} {a : List (String × String)}
    (b : List (String × String)) (h : valueOf k a = some v) : valueOf k (a ++ b) = some v := by
  induction a with
  | nil => simp [valueOf] at h
  | cons e a ih =>
    simp only [List.cons_append, valueOf] at h ⊢
    split_ifs at h ⊢ with e1
    · exact h
    · exact ih h

theorem valueOf_dropLast {k v : String} {es : List (String × String)}
    (h : valueOf k es.dropLast = some v) : valueOf k es = some v := by
  rcases List.eq_nil_or_concat es with e | ⟨a, b, e⟩
  · subst e; simpa using h
  · rw [List.concat_eq_append] at e
    subst e
    rw [List.dropLast_concat] at h
    exact valueOf_append_of_some _ h

/-- Every entry of the list built by the calls `ops` carries the value of the most recent
`Put` on its key. -/
theorem absRun_lastPut (cap : Int) (ops : List Op) :
    ∀ k v, valueOf k (absRun cap [] ops) = some v → lastPut k ops = some v := by
  induction ops using List.reverseRecOn with
  | nil => intro k v h; simp [absRun, valueOf] at h
  | append_singleton ops op ih =>
    intro k2 v2 h
    rw [absRun_append] at h
    simp only [absRun] at h
    rw [lastPut_concat]
    cases op with
    | get k =>
      simp only [absStep] at h ⊢
      rcases hv : valueOf k (absRun cap [] ops) with _ | w
      · rw [hv] at h; exact ih _ _ h
      · rw [hv] at h
        simp only [valueOf] at h
        split_ifs at h with e1
        · subst e1; cases h; exact ih _ _ hv
        · rw [valueOf_dropKey, if_neg (Ne.symm e1)] at h
          exact ih _ _ h
    | put k v =>
      simp only [absStep] at h ⊢
      by_cases e1 : k = k2
      · rw [if_pos e1]
        rcases hv : valueOf k (absRun cap [] ops) with _ | w
        · rw [hv] at h
          split_ifs at h <;> simpa [valueOf, e1] using h
        · rw [hv] at h
          simpa [valueOf, e1] using h
      · rw [if_neg e1]
        rcases hv : valueOf k (absRun cap [] ops) with _ | w
        · rw [hv] at h
          split_ifs at h
          · simp only [valueOf, e1, if_false] at h
            exact ih _ _ (valueOf_dropLast h)
          · simp only [valueOf, e1, if_false] at h
            exact ih _ _ h
        · rw [hv] at h
          simp only [valueOf, e1, if_false] at h
          rw [valueOf_dropKey, if_neg (Ne.symm e1)] at h
          exact ih _ _ h
    | delete k =>
      simp only [absStep] at h ⊢
      rw [valueOf_dropKey] at h
      split_ifs at h
      exact ih _ _ h
    | contains k => exact ih _ _ h
    | size => exact ih _ _ h
    | clear => simp [absStep, valueOf] at h

theorem exec_view {c : Int} {ops : List Op} {s : LRUCache} (h : exec c ops = some s) :
    ∃ ps, Models s ps ∧ s.capacity = c ∧ view s ps = absRun c [] ops := by
  obtain ⟨s2, ps, e, hm, hc, hv⟩ := exec_sim (exec_pos h) ops
  rw [h] at e
  cases e
  rw [hm.entries_eq] at hv
  exact ⟨ps, hm, hc, Option.some.inj hv⟩

/-! ## Recency and the history of calls -/

theorem find_congr {α : Type} {p q : α → Bool} {l : List α} (h : ∀ x ∈ l, p x = q x) :
    l.find? p = l.find? q := by
  induction l with
  | nil => rfl
  | cons a l ih =>
    simp only [List.find?_cons, h a (List.mem_cons_self _ _)]
    rw [ih (fun x hx => h x (List.mem_cons_of_mem _ hx))]

theorem touchedAt_concat_lt (c : Int) (ops : List Op) (op : Op) (k : String) {i : Nat}
    (hi : i < ops.length) : touchedAt c (ops ++ [op]) k i = touchedAt c ops k i := by
  unfold touchedAt
  rw [List.take_append_of_le_length (Nat.le_of_lt hi), List.getElem?_append_left hi]

theorem touchedAt_concat_length (c : Int) (ops : List Op) (op : Op) (k : String)
    {s : LRUCache} (h : exec c ops = some s) :
    touchedAt c (ops ++ [op]) k ops.length = touches s op k := by
  unfold touchedAt
  rw [List.take_left, List.getElem?_concat_length, h]

theorem lastTouch_concat (c : Int) (ops : List Op) (op : Op) (k : String)
    {s : LRUCache} (h : exec c ops = some s) :
    lastTouch c (ops ++ [op]) k =
      if touches s op k = true then some ops.length else lastTouch c ops k := by
  unfold lastTouch
  rw [List.length_append, List.length_singleton, List.range_succ, List.reverse_append,
    List.reverse_singleton, List.singleton_append, List.find?_cons,
    touchedAt_concat_length c ops op k h]
  rcases touches s op k with _ | _
  · simp only [Bool.false_eq_true, if_false]
    apply find_congr
    intro i hi
    rw [List.mem_reverse, List.mem_range] at hi
    exact touchedAt_concat_lt c ops op k hi
  · simp

theorem lastTouch_lt {c : Int} {ops : List Op} {k : String} {i : Nat}
    (h : lastTouch c ops k = some i) : i < ops.length := by
  have := List.mem_of_find?_eq_some h
  rwa [List.mem_reverse, List.mem_range] at this

theorem Models.touches_eq {s : LRUCache} {ps : List Nat} (h : Models s ps) (op : Op)
    (k : String) : touches s op k = decide (absTouched (view s ps) op = some k) := by
  cases op with
  | put k2 v => simp [touches, absTouched]
  | get k2 =>
    rcases hk : s.cache.lookup k2 with _ | n
    · simp [touches, absTouched, Get_miss hk, h.valueOf_absent hk]
    · obtain ⟨l1, l2, rfl, -⟩ := List.eq_append_cons_of_mem (h.index k2 n hk).1
      obtain ⟨s2, e, -⟩ := Get_hit l1 l2 h hk
      simp [touches, absTouched, e, (h.view_hit hk).2.1]
  | delete k2 => simp [touches, absTouched]
  | contains k2 => simp [touches, absTouched]
  | size => simp [touches, absTouched]
  | clear => simp [touches, absTouched]

theorem dropKey_sublist (k : String) (es : List (String × String)) :
    (dropKey k es).Sublist es :=
  List.filter_sublist es

theorem dropKey_ne {k : String} {es : List (String × String)} :
    ∀ e ∈ dropKey k es, e.1 ≠ k := by
  intro e he
  unfold dropKey at he
  simpa using (List.mem_filter.1 he).2

theorem absStep_touched (cap : Int) {es : List (String × String)} {op : Op} {k : String}
    (h : absTouched es op = some k) :
    ∃ v es2, (absStep cap es op).1 = (k, v) :: es2 ∧ es2.Sublist es ∧
      ∀ e ∈ es2, e.1 ≠ k := by
  cases op with
  | put k2 v =>
    simp only [absTouched, Option.some.injEq] at h
    subst h
    rcases hv : valueOf k2 es with _ | w
    · have hne : ∀ e ∈ es, e.1 ≠ k2 := by
        intro e he e2
        exact (valueOf_none.1 hv) (List.mem_map.2 ⟨e, he, e2⟩)
      simp only [absStep, hv]
      split_ifs
      · exact ⟨v, _, rfl, List.dropLast_sublist es,
          fun e he => hne e ((List.dropLast_sublist es).subset he)⟩
      · exact ⟨v, _, rfl, List.Sublist.refl es, hne⟩
    · simp only [absStep, hv]
      exact ⟨v, _, rfl, dropKey_sublist _ _, dropKey_ne⟩
  | get k2 =>
    simp only [absTouched] at h
    rcases hv : valueOf k2 es with _ | w
    · simp [hv] at h
    · simp only [hv, Option.isSome_some, if_true, Option.some.injEq] at h
      subst h
      simp only [absStep, hv]
      exact ⟨w, _, rfl, dropKey_sublist _ _, dropKey_ne⟩
  | delete k2 => simp [absTouched] at h
  | contains k2 => simp [absTouched] at h
  | size => simp [absTouched] at h
  | clear => simp [absTouched] at h

theorem absStep_untouched (cap : Int) {es : List (String × String)} {op : Op}
    (h : absTouched es op = none) : ((absStep cap es op).1).Sublist es := by
  cases op with
  | put k2 v => simp [absTouched] at h
  | get k2 =>
    simp only [absTouched] at h
    rcases hv : valueOf k2 es with _ | w
    · simp only [absStep, hv]
      exact List.Sublist.refl es
    · simp [hv] at h
  | delete k2 => exact dropKey_sublist _ _
  | contains k2 => exact List.Sublist.refl es
  | size => exact List.Sublist.refl es
  | clear => exact List.nil_sublist es

/-- The list of entries built by the calls `ops` is in strictly decreasing order of the most
recent touch of its keys, front to back. -/
theorem absRun_recency {c : Int} (hc : 0 < c) (ops : List Op) :
    (absRun c [] ops).Pairwise (fun a b => OlderThan c ops b.1 a.1) ∧
      ∀ e ∈ absRun c [] ops, ∃ i, lastTouch c ops e.1 = some i := by
  induction ops using List.reverseRecOn with
  | nil => exact ⟨List.Pairwise.nil, fun e he => by cases he⟩
  | append_singleton ops op ih =>
    obtain ⟨s, ps, hs, hm, -, hent⟩ := exec_sim hc ops
    have hv : view s ps = absRun c [] ops := by
      rw [hm.entries_eq] at hent
      exact Option.some.inj hent
    have hlt : ∀ k, lastTouch c (ops ++ [op]) k =
        if absTouched (absRun c [] ops) op = some k then some ops.length
        else lastTouch c ops k := by
      intro k
      rw [lastTouch_concat c ops op k hs, hm.touches_eq, hv]
      simp
    rw [absRun_append]
    simp only [absRun]
    rcases ht : absTouched (absRun c [] ops) op with _ | k
    · have hsub := absStep_untouched c ht
      have hsame : ∀ k, lastTouch c (ops ++ [op]) k = lastTouch c ops k := by
        intro k; rw [hlt, ht]; simp
      refine ⟨?_, ?_⟩
      · refine (ih.1.sublist hsub).imp ?_
        intro a b hab
        unfold OlderThan at hab ⊢
        simpa only [hsame] using hab
      · intro e he
        rw [hsame]
        exact ih.2 e (hsub.subset he)
    · obtain ⟨v, es2, he2, hsub, hne⟩ := absStep_touched c ht
      rw [he2]
      have hk : lastTouch c (ops ++ [op]) k = some ops.length := by
        rw [hlt, ht]; simp
      have hsame : ∀ e ∈ es2, lastTouch c (ops ++ [op]) e.1 = lastTouch c ops e.1 := by
        intro e he
        rw [hlt, ht]
        have : k ≠ e.1 := Ne.symm (hne e he)
        simp [this]
      refine ⟨List.pairwise_cons.2 ⟨?_, ?_⟩, ?_⟩
      · intro b hb
        obtain ⟨i, hi⟩ := ih.2 b (hsub.subset hb)
        exact ⟨i, ops.length, (hsame b hb).trans hi, hk, lastTouch_lt hi⟩
      · refine (ih.1.sublist hsub).imp_of_mem ?_
        intro a b ha hb hab
        obtain ⟨i, j, h1, h2, h3⟩ := hab
        exact ⟨i, j, (hsame b hb).trans h1, (hsame a ha).trans h2, h3⟩
      · intro e he
        rcases List.mem_cons.1 he with e1 | e1
        · subst e1; exact ⟨_, hk⟩
        · obtain ⟨i, hi⟩ := ih.2 e (hsub.subset e1)
          exact ⟨i, (hsame e e1).trans hi⟩

/-! ## `Put`, `Get` and `Delete` on the state reached by a call sequence -/

theorem Models.put_sim {s : LRUCache} {ps : List Nat} (h : Models s ps) (k v : String) :
    ∃ s2 ps2, Put s k v = some s2 ∧ Models s2 ps2 ∧ s2.capacity = s.capacity ∧
      view s2 ps2 = (absStep s.capacity (view s ps) (Op.put k v)).1 := by
  obtain ⟨s2, ps2, hstep, hm2, hc, hv2⟩ := h.sim (Op.put k v)
  refine ⟨s2, ps2, ?_, hm2, hc, hv2⟩
  rcases hp : Put s k v with _ | s3
  · simp [GCache.step, hp] at hstep
  · simp only [GCache.step, hp, Option.map_some', Option.some.injEq, Prod.mk.injEq] at hstep
    rw [hstep.1]

theorem Models.put_absent {s : LRUCache} {ps : List Nat} (h : Models s ps) (k v : String)
    (hk : Contains s k = false) :
    ∃ s2, Put s k v = some s2 ∧ Size s2 ≤ s.capacity ∧
      (Size s = s.capacity → ∃ d e, entries s = some (d ++ [e]) ∧
        entries s2 = some ((k, v) :: d)) ∧
      (Size s ≠ s.capacity → ∃ es, entries s = some es ∧
        entries s2 = some ((k, v) :: es)) := by
  obtain ⟨s2, ps2, hput, hm2, hc, hv2⟩ := h.put_sim k v
  have hval := h.valueOf_absent (Contains_false_iff.1 hk)
  have hlen : ((view s ps).length : Int) = Size s := by rw [h.size_eq]
  have hb := hm2.bound
  rw [hc] at hb
  refine ⟨s2, hput, hb, ?_, ?_⟩
  · intro hfull
    simp only [absStep, hval, hlen, hfull, if_true] at hv2
    rcases List.eq_nil_or_concat (view s ps) with e5 | ⟨d, l, e5⟩
    · rw [e5] at hlen
      have := h.cap
      simp at hlen
      omega
    · rw [List.concat_eq_append] at e5
      rw [e5, List.dropLast_concat] at hv2
      exact ⟨d, l, by rw [h.entries_eq, e5], by rw [hm2.entries_eq, hv2]⟩
  · intro hroom
    simp only [absStep, hval, hlen, hroom, if_false] at hv2
    exact ⟨view s ps, h.entries_eq, by rw [hm2.entries_eq, hv2]⟩

theorem exec_get_present {c : Int} {ops : List Op} {s : LRUCache} {k : String}
    (h : exec c ops = some s) (hk : Contains s k = true) :
    ∃ v l1 l2 s2, lastPut k ops = some v ∧ Get s k = some (s2, v, true) ∧
      entries s = some (l1 ++ (k, v) :: l2) ∧ entries s2 = some ((k, v) :: (l1 ++ l2)) ∧
      Size s2 = Size s := by
  obtain ⟨ps, hm, -, hv⟩ := exec_view h
  obtain ⟨n, hn⟩ := Option.isSome_iff_exists.1 hk
  obtain ⟨l1, l2, rfl, -⟩ := List.eq_append_cons_of_mem (hm.index k n hn).1
  obtain ⟨s2, e, hm2, hdat, -, -, -, hcount⟩ := Get_hit l1 l2 hm hn
  obtain ⟨hsplit, hval, -⟩ := hm.view_hit hn
  have h1 : view s2 (l1 ++ l2) = view s (l1 ++ l2) := view_congr (fun q _ => hdat q)
  have h2 : itemAt s2.mem n = (k, (itemAt s.mem n).2) := by
    rw [itemAt_congr (hdat n)]
    exact hm.item_split hn
  refine ⟨(itemAt s.mem n).2, view s l1, view s l2, s2, ?_, e, ?_, ?_, ?_⟩
  · rw [hv] at hval
    exact absRun_lastPut c ops k _ hval
  · rw [hm.entries_eq, hsplit]
  · rw [hm2.entries_eq]
    simp only [view, List.map_cons, List.map_append] at h1 ⊢
    rw [h2, h1]
  · simp [Size, DoublyLinkedList.Count, hcount]

/-! ## Sequences of `Put` within the capacity -/

theorem mem_keys_dropKey {k x : String} {es : List (String × String)} :
    x ∈ (dropKey k es).map Prod.fst ↔ x ∈ es.map Prod.fst ∧ x ≠ k := by
  unfold dropKey
  simp only [List.mem_map, List.mem_filter, decide_eq_true_eq]
  constructor
  · rintro ⟨a, ⟨h1, h2⟩, rfl⟩
    exact ⟨⟨a, h1, rfl⟩, h2⟩
  · rintro ⟨⟨a, h1, rfl⟩, h2⟩
    exact ⟨a, ⟨h1, h2⟩, rfl⟩

/-- While the number of distinct keys put so far is within the capacity, the keys of the
recency list are exactly the keys put so far. -/
theorem absRun_puts_keys {c : Int} (hc : 0 < c) (kvs : List (String × String))
    (hd : ((kvs.map Prod.fst).dedup.length : Int) ≤ c) :
    ((absRun c [] (kvs.map (fun e => Op.put e.1 e.2))).map Prod.fst).toFinset
      = (kvs.map Prod.fst).toFinset := by
  induction kvs using List.reverseRecOn with
  | nil => rfl
  | append_singleton kvs e ih =>
    rw [← List.card_toFinset] at hd
    have hK : ((kvs ++ [e]).map Prod.fst).toFinset
        = insert e.1 (kvs.map Prod.fst).toFinset := by
      ext x; simp [or_comm]
    rw [hK] at hd ⊢
    have hsubset : ((kvs.map Prod.fst).toFinset.card : Int) ≤ c := by
      have := Finset.card_le_card (Finset.subset_insert e.1 (kvs.map Prod.fst).toFinset)
      omega
    rw [List.card_toFinset] at hsubset
    have ih2 := ih hsubset
    obtain ⟨s, ps, -, hm, -, hent⟩ := exec_sim hc (kvs.map (fun e => Op.put e.1 e.2))
    have hv : view s ps = absRun c [] (kvs.map (fun e => Op.put e.1 e.2)) := by
      rw [hm.entries_eq] at hent
      exact Option.some.inj hent
    have hnd := hm.keys_nodup
    rw [hv] at hnd
    have hlen : (absRun c [] (kvs.map (fun e => Op.put e.1 e.2))).length
        = (kvs.map Prod.fst).toFinset.card := by
      rw [← ih2, List.toFinset_card_of_nodup hnd, List.length_map]
    rw [List.map_append, absRun_append]
    simp only [List.map_cons, List.map_nil, absRun, absStep]
    rcases hval : valueOf e.1 (absRun c [] (kvs.map (fun e => Op.put e.1 e.2))) with _ | w
    · have hnot : e.1 ∉ (kvs.map Prod.fst).toFinset := by
        rw [← ih2, List.mem_toFinset]
        exact valueOf_none.1 hval
      rw [Finset.card_insert_of_not_mem hnot] at hd
      have hne : ((absRun c [] (kvs.map (fun e => Op.put e.1 e.2))).length : Int) ≠ c := by
        rw [hlen]
        push_cast at hd
        omega
      simp only [hval, hne, if_false, List.map_cons, List.toFinset_cons, ih2]
    · simp only [hval, List.map_cons, List.toFinset_cons]
      rw [← ih2]
      ext x
      simp only [Finset.mem_insert, List.mem_toFinset, mem_keys_dropKey]
      by_cases hx : x = e.1
      · simp [hx]
      · simp [hx]

/-! ## The claims -/

/-- C1: in a state reachable from `NewLRUCache(c)` (there is one only when `c > 0`), a `Put(k, v)` of an absent key
on a full cache returns; it removes exactly the back entry `e` of the recency list (from the
list and from the index), keeps the other entries `es` with their values and order, puts
`(k, v)` at the front, and leaves `Size()` equal to the capacity. -/
theorem put_absent_full_evicts_back (c : Int) (s : LRUCache) (k v : String)
    (hr : Reachable c s) (habs : Contains s k = false) (hfull : Size s = s.capacity) :
    ∃ es e s2, entries s = some (es ++ [e]) ∧ Put s k v = some s2 ∧
      entries s2 = some ((k, v) :: es) ∧ Size s2 = s2.capacity ∧
      s2.capacity = s.capacity ∧ Contains s2 e.1 = false ∧
      ∀ k2, Contains s2 k2 = true ↔ k2 = k ∨ k2 ∈ es.map Prod.fst := by
  obtain ⟨ps, h, -⟩ := hr.models
  have hk := Contains_false_iff.1 habs
  have hne : ps ≠ [] := by
    intro e
    have h1 := h.wf.count
    have h2 := h.cap
    rw [e] at h1
    simp [Size, DoublyLinkedList.Count] at hfull h1
    omega
  obtain ⟨l1, t, e⟩ := (List.eq_nil_or_concat ps).resolve_left hne
  rw [List.concat_eq_append] at e
  subst e
  obtain ⟨s2, e2, hm, hdat, -, hcap⟩ := Put_full v l1 h hk hfull
  have hfresh : s.fresh ∉ l1 ++ [t] := fun e => Nat.lt_irrefl _ (h.alloc _ e)
  have hv2 : view s2 (s.fresh :: l1) = (k, v) :: view s l1 := by
    have h1 : view s2 l1 = view s l1 := by
      apply view_congr
      intro q hq
      have : q ≠ s.fresh := fun e => hfresh (by simp [← e, hq])
      rw [hdat, if_neg this]
    have h2 : itemAt s2.mem s.fresh = (k, v) := itemAt_of_data (by rw [hdat, if_pos rfl])
    simp only [view, List.map_cons] at h1 ⊢
    rw [h1, h2]
  have hkeys := h.keys_nodup
  have hcont : ∀ k2, Contains s2 k2 = true ↔ k2 = k ∨ k2 ∈ (view s l1).map Prod.fst := by
    intro k2
    rw [hm.contains_iff, hv2]
    simp
  refine ⟨view s l1, itemAt s.mem t, s2, ?_, e2, ?_, ?_, hcap, ?_, hcont⟩
  · rw [h.entries_eq]; simp [view]
  · rw [hm.entries_eq, hv2]
  · rw [hm.size_eq, hv2, hcap, ← hfull, h.size_eq]
    simp [view]
  · have hin : Contains s (itemAt s.mem t).1 = true := by
      rw [h.contains_iff]; simp [view]
    have hne2 : (itemAt s.mem t).1 ≠ k := by
      intro e
      rw [e, habs] at hin
      cases hin
    have hnot : (itemAt s.mem t).1 ∉ (view s l1).map Prod.fst := by
      have : view s (l1 ++ [t]) = view s l1 ++ [itemAt s.mem t] := by simp [view]
      rw [this, List.map_append, List.nodup_append] at hkeys
      intro e
      exact hkeys.2.2 e (by simp)
    cases hq : Contains s2 (itemAt s.mem t).1
    · rfl
    · rcases (hcont _).1 hq with e | e
      · exact absurd e hne2
      · exact absurd e hnot

theorem put_absent_full_evicts_back_witness :
    Reachable 2 demoFull ∧ Contains demoFull "c" = false ∧
      Size demoFull = demoFull.capacity ∧
      ∃ es e s2, entries demoFull = some (es ++ [e]) ∧ Put demoFull "c" "3" = some s2 ∧
        entries s2 = some (("c", "3") :: es) ∧ Size s2 = s2.capacity ∧
        s2.capacity = demoFull.capacity ∧ Contains s2 e.1 = false ∧
        ∀ k2, Contains s2 k2 = true ↔ k2 = "c" ∨ k2 ∈ es.map Prod.fst :=
  ⟨⟨_, exec_demoFull⟩, by decide, by decide,
    put_absent_full_evicts_back 2 demoFull "c" "3" ⟨_, exec_demoFull⟩
      (by decide) (by decide)⟩

/-- C2: in the state reached by the calls `ops`, `Get(k)` on a present key returns
`(v, true)` with `v` the value of the most recent `Put(k, _)` of `ops`; afterwards `(k, v)`
is the front entry, the other entries keep their values and order, and `Size()` is
unchanged. -/
theorem get_present_returns_last_put (c : Int) (ops : List Op) (s : LRUCache) (k : String)
    (h : exec c ops = some s) (hk : Contains s k = true) :
    ∃ v l1 l2 s2, lastPut k ops = some v ∧ Get s k = some (s2, v, true) ∧
      entries s = some (l1 ++ (k, v) :: l2) ∧ entries s2 = some ((k, v) :: (l1 ++ l2)) ∧
      Size s2 = Size s := by
  exact exec_get_present h hk

theorem get_present_returns_last_put_witness :
    exec 2 [.put "a" "1", .put "b" "2"] = some demoFull ∧ Contains demoFull "a" = true ∧
      ∃ v l1 l2 s2, lastPut "a" [.put "a" "1", .put "b" "2"] = some v ∧
        Get demoFull "a" = some (s2, v, true) ∧
        entries demoFull = some (l1 ++ ("a", v) :: l2) ∧
        entries s2 = some (("a", v) :: (l1 ++ l2)) ∧ Size s2 = Size demoFull :=
  ⟨exec_demoFull, by decide,
    get_present_returns_last_put 2 [.put "a" "1", .put "b" "2"] demoFull "a" exec_demoFull
      (by decide)⟩

/-- C3: in the state reached from `NewLRUCache(c)` by any calls `ops`, the recency list
holds exactly the present keys, and front to back their most recent touches (a `Put`, or a
`Get` that hits) are strictly decreasing; so a key that a `Put` evicts has its most recent
touch older than that of every other key then in the cache.  With capacity 2, the calls
put a, put b, get a, put c leave c and a. -/
theorem recency_list_ordered_by_last_touch (c : Int) (ops : List Op) (s : LRUCache)
    (h : exec c ops = some s) :
    (∃ es, entries s = some es ∧ (∀ k, Contains s k = true ↔ k ∈ es.map Prod.fst) ∧
        es.Pairwise (fun a b => OlderThan c ops b.1 a.1) ∧
        ∀ e ∈ es, (lastTouch c ops e.1).isSome = true) ∧
      (∀ k v, ∃ s2, Put s k v = some s2 ∧
        ∀ e, Contains s e = true → Contains s2 e = false →
          ∀ k2, k2 ≠ e → Contains s k2 = true → OlderThan c ops e k2) ∧
      (exec 2 [.put "a" "1", .put "b" "2", .get "a", .put "c" "3"]).bind entries
        = some [("c", "3"), ("a", "1")] := by
  obtain ⟨ps, hm, hcap, hv⟩ := exec_view h
  obtain ⟨hpw, hsome⟩ := absRun_recency (exec_pos h) ops
  rw [← hv] at hpw hsome
  refine ⟨⟨view s ps, hm.entries_eq, hm.contains_iff, hpw, ?_⟩, ?_, by decide⟩
  · intro e he
    obtain ⟨i, hi⟩ := hsome e he
    rw [hi]; rfl
  · intro k v
    obtain ⟨s2, ps2, hstep, hm2, -, hv2⟩ := hm.sim (Op.put k v)
    have hput : Put s k v = some s2 := by
      rcases hp : Put s k v with _ | s3
      · simp [step, hp] at hstep
      · simp only [step, hp, Option.map_some', Option.some.injEq, Prod.mk.injEq] at hstep
        rw [hstep.1]
    refine ⟨s2, hput, ?_⟩
    intro e he1 he2 k2 hne hk2
    rw [hm.contains_iff] at he1 hk2
    have he3 : e ∉ (view s2 ps2).map Prod.fst := by
      intro e3
      rw [← hm2.contains_iff, he2] at e3
      cases e3
    rw [hv2] at he3
    have hdrop : ∀ x, x ∈ (view s ps).map Prod.fst → x ≠ k →
        x ∈ (dropKey k (view s ps)).map Prod.fst := by
      intro x hx hxk
      obtain ⟨y, hy, rfl⟩ := List.mem_map.1 hx
      refine List.mem_map.2 ⟨y, ?_, rfl⟩
      unfold dropKey
      exact List.mem_filter.2 ⟨hy, by simpa using hxk⟩
    have hek : e ≠ k := by
      intro e4
      apply he3
      rcases hval : valueOf k (view s ps) with _ | w
      · simp only [absStep, hval]
        split_ifs <;> simp [e4]
      · simp [absStep, hval, e4]
    rcases hval : valueOf k (view s ps) with _ | w
    · simp only [absStep, hval] at he3
      split_ifs at he3 with hfull
      · rcases List.eq_nil_or_concat (view s ps) with e5 | ⟨d, l, e5⟩
        · rw [e5] at he1; simp at he1
        · rw [List.concat_eq_append] at e5
          rw [e5] at he1 hk2 hpw
          rw [e5, List.dropLast_concat] at he3
          simp only [List.map_cons, List.mem_cons, not_or] at he3
          simp only [List.map_append, List.map_cons, List.map_nil, List.mem_append,
            List.mem_singleton] at he1 hk2
          have hel : e = l.1 := he1.resolve_left he3.2
          have hk2d : k2 ∈ d.map Prod.fst := hk2.resolve_right (hel ▸ hne)
          obtain ⟨y, hy, rfl⟩ := List.mem_map.1 hk2d
          rw [List.pairwise_append] at hpw
          rw [hel]
          exact hpw.2.2 y hy l (List.mem_singleton_self _)
      · exact absurd (List.mem_cons_of_mem _ he1) he3
    · simp only [absStep, hval] at he3
      exact absurd (List.mem_cons_of_mem _ (hdrop e he1 hek)) he3

theorem recency_list_ordered_by_last_touch_witness :
    exec 2 [.put "a" "1", .put "b" "2"] = some demoFull ∧
      ((∃ es, entries demoFull = some es ∧
          (∀ k, Contains demoFull k = true ↔ k ∈ es.map Prod.fst) ∧
          es.Pairwise (fun a b => OlderThan 2 [.put "a" "1", .put "b" "2"] b.1 a.1) ∧
          ∀ e ∈ es, (lastTouch 2 [.put "a" "1", .put "b" "2"] e.1).isSome = true) ∧
        (∀ k v, ∃ s2, Put demoFull k v = some s2 ∧
          ∀ e, Contains demoFull e = true → Contains s2 e = false →
            ∀ k2, k2 ≠ e → Contains demoFull k2 = true →
              OlderThan 2 [.put "a" "1", .put "b" "2"] e k2) ∧
        (exec 2 [.put "a" "1", .put "b" "2", .get "a", .put "c" "3"]).bind entries
          = some [("c", "3"), ("a", "1")]) :=
  ⟨exec_demoFull,
    recency_list_ordered_by_last_touch 2 [.put "a" "1", .put "b" "2"] demoFull exec_demoFull⟩

/-- C4: for `c > 0`, every call sequence on `NewLRUCache(c)` runs without a panic and
`Size() <= c` holds after every call; in the state reached, a `Put` of an absent key removes
exactly the back entry when the cache is full and no entry otherwise. -/
theorem size_never_exceeds_capacity (c : Int) (hc : 0 < c) (ops : List Op) :
    (∀ n, ∃ s, exec c (ops.take n) = some s ∧ Size s ≤ c) ∧
      ∃ s, exec c ops = some s ∧
        ∀ k v, Contains s k = false →
          ∃ s2, Put s k v = some s2 ∧ Size s2 ≤ c ∧
            (Size s = c → ∃ d e, entries s = some (d ++ [e]) ∧
              entries s2 = some ((k, v) :: d)) ∧
            (Size s ≠ c → ∃ es, entries s = some es ∧
              entries s2 = some ((k, v) :: es)) := by
  refine ⟨?_, ?_⟩
  · intro n
    obtain ⟨s, ps, e, hm, hcap, -⟩ := exec_sim hc (ops.take n)
    refine ⟨s, e, ?_⟩
    have := hm.bound
    rwa [hcap] at this
  · obtain ⟨s, ps, e, hm, hcap, -⟩ := exec_sim hc ops
    refine ⟨s, e, ?_⟩
    intro k v hk
    have := hm.put_absent k v hk
    rwa [hcap] at this

theorem size_never_exceeds_capacity_witness :
    (0 : Int) < 2 ∧
      ((∀ n, ∃ s, exec 2 (List.take n [.put "a" "1", .put "b" "2", .put "c" "3"]) = some s ∧
          Size s ≤ 2) ∧
        ∃ s, exec 2 [.put "a" "1", .put "b" "2", .put "c" "3"] = some s ∧
          ∀ k v, Contains s k = false →
            ∃ s2, Put s k v = some s2 ∧ Size s2 ≤ 2 ∧
              (Size s = 2 → ∃ d e, entries s = some (d ++ [e]) ∧
                entries s2 = some ((k, v) :: d)) ∧
              (Size s ≠ 2 → ∃ es, entries s = some es ∧
                entries s2 = some ((k, v) :: es))) :=
  ⟨by decide,
    size_never_exceeds_capacity 2 (by decide) [.put "a" "1", .put "b" "2", .put "c" "3"]⟩

/-- C5: in a reachable state, `Put(k, v)` on a present key evicts nothing, whatever the
size: the entry of `k` moves to the front with the value `v`, the other entries keep their
values and order, the set of keys and `Size()` are unchanged, and `Get(k)` then gives `v`. -/
theorem put_present_overwrites_in_place (c : Int) (s : LRUCache) (k v : String)
    (hr : Reachable c s) (hk : Contains s k = true) :
    ∃ l1 v0 l2 s2, entries s = some (l1 ++ (k, v0) :: l2) ∧ Put s k v = some s2 ∧
      entries s2 = some ((k, v) :: (l1 ++ l2)) ∧ Size s2 = Size s ∧
      (∀ k2, Contains s2 k2 = Contains s k2) ∧
      ∃ s3, Get s2 k = some (s3, v, true) := by
  obtain ⟨ps, hm, -⟩ := hr.models
  obtain ⟨n, hn⟩ := Option.isSome_iff_exists.1 hk
  obtain ⟨l1, l2, rfl, -⟩ := List.eq_append_cons_of_mem (hm.index k n hn).1
  obtain ⟨s2, e, hm2, hdat, hcache, -, hcount⟩ := Put_hit v l1 l2 hm hn
  obtain ⟨hsplit, -, -⟩ := hm.view_hit hn
  have hnot := hm.not_mem_split
  have h1 : view s2 (l1 ++ l2) = view s (l1 ++ l2) := by
    apply view_congr
    intro q hq
    have : q ≠ n := fun e => hnot (e ▸ hq)
    rw [hdat, if_neg this]
  have h2 : itemAt s2.mem n = (k, v) := itemAt_of_data (by rw [hdat, if_pos rfl])
  have hn2 : s2.cache.lookup k = some n := by rw [hcache]; exact hn
  obtain ⟨s3, e3, -⟩ := Get_hit [] (l1 ++ l2) hm2 hn2
  rw [h2] at e3
  refine ⟨view s l1, (itemAt s.mem n).2, view s l2, s2, ?_, e, ?_, ?_, ?_, s3, e3⟩
  · rw [hm.entries_eq, hsplit]
  · rw [hm2.entries_eq]
    simp only [view, List.map_cons, List.map_append] at h1 ⊢
    rw [h2, h1]
  · simp [Size, DoublyLinkedList.Count, hcount]
  · intro k2
    simp [Contains, hcache]

theorem put_present_overwrites_in_place_witness :
    Reachable 2 demoFull ∧ Contains demoFull "a" = true ∧
      ∃ l1 v0 l2 s2, entries demoFull = some (l1 ++ ("a", v0) :: l2) ∧
        Put demoFull "a" "9" = some s2 ∧
        entries s2 = some (("a", "9") :: (l1 ++ l2)) ∧ Size s2 = Size demoFull ∧
        (∀ k2, Contains s2 k2 = Contains demoFull k2) ∧
        ∃ s3, Get s2 "a" = some (s3, "9", true) :=
  ⟨⟨_, exec_demoFull⟩, by decide,
    put_present_overwrites_in_place 2 demoFull "a" "9" ⟨_, exec_demoFull⟩ (by decide)⟩

/-- C6: in a reachable state, `Delete(k)` on a present key returns true, removes the entry
of `k` and no other, keeps the order of the rest, lowers `Size()` by one, and a following
`Get(k)` misses; on an absent key it returns false and leaves the state as it was. -/
theorem delete_removes_present_key (c : Int) (s : LRUCache) (k : String)
    (hr : Reachable c s) :
    (Contains s k = true →
        ∃ l1 v0 l2, entries s = some (l1 ++ (k, v0) :: l2) ∧ (Delete s k).2 = true ∧
          entries (Delete s k).1 = some (l1 ++ l2) ∧ Size (Delete s k).1 = Size s - 1 ∧
          Get (Delete s k).1 k = some ((Delete s k).1, "", false)) ∧
      (Contains s k = false → Delete s k = (s, false)) := by
  obtain ⟨ps, hm, -⟩ := hr.models
  refine ⟨?_, fun hk => Delete_miss (Contains_false_iff.1 hk)⟩
  intro hk
  obtain ⟨n, hn⟩ := Option.isSome_iff_exists.1 hk
  obtain ⟨l1, l2, rfl, -⟩ := List.eq_append_cons_of_mem (hm.index k n hn).1
  obtain ⟨hb, hm2, hdat, hcache, -⟩ := Delete_hit l1 l2 hm hn
  obtain ⟨hsplit, -, -⟩ := hm.view_hit hn
  have h1 : view (Delete s k).1 (l1 ++ l2) = view s (l1 ++ l2) :=
    view_congr (fun q _ => hdat q)
  refine ⟨view s l1, (itemAt s.mem n).2, view s l2, ?_, hb, ?_, ?_, ?_⟩
  · rw [hm.entries_eq, hsplit]
  · rw [hm2.entries_eq, h1]
    simp [view]
  · rw [hm2.size_eq, hm.size_eq]
    simp [view]
    omega
  · apply Get_miss
    rw [hcache, AList.lookup_erase]

theorem delete_removes_present_key_witness :
    Reachable 2 demoFull ∧
      ((Contains demoFull "a" = true →
          ∃ l1 v0 l2, entries demoFull = some (l1 ++ ("a", v0) :: l2) ∧
            (Delete demoFull "a").2 = true ∧
            entries (Delete demoFull "a").1 = some (l1 ++ l2) ∧
            Size (Delete demoFull "a").1 = Size demoFull - 1 ∧
            Get (Delete demoFull "a").1 "a" = some ((Delete demoFull "a").1, "", false)) ∧
        (Contains demoFull "a" = false → Delete demoFull "a" = (demoFull, false))) :=
  ⟨⟨_, exec_demoFull⟩, delete_removes_present_key 2 demoFull "a" ⟨_, exec_demoFull⟩⟩

/-- C7: `NewLRUCache(c)` panics for every `c <= 0`; for every `c > 0` it returns a cache of
capacity `c` with `Size() == 0`, no entry and no key. -/
theorem new_cache_requires_positive_capacity (c : Int) :
    (c ≤ 0 → NewLRUCache c = none) ∧
      (0 < c → ∃ s, NewLRUCache c = some s ∧ Size s = 0 ∧ s.capacity = c ∧
        entries s = some [] ∧ ∀ k, Contains s k = false) := by
  refine ⟨?_, ?_⟩
  · intro h
    unfold NewLRUCache
    rw [if_pos h]
  · intro h
    obtain ⟨s, e, hm, hc⟩ := NewLRUCache_pos h
    refine ⟨s, e, ?_, hc, hm.entries_eq, ?_⟩
    · rw [hm.size_eq]; rfl
    · intro k
      cases hk : Contains s k
      · rfl
      · have := (hm.contains_iff k).1 hk
        simp [view] at this

/-- C8: after `Clear()` the size is 0, there is no entry, `Get(k)` and `Contains(k)` miss
for every key `k`, and the capacity is the one before the call. -/
theorem clear_empties_cache (s : LRUCache) (k : String) :
    Size (Clear s) = 0 ∧ entries (Clear s) = some [] ∧
      Get (Clear s) k = some (Clear s, "", false) ∧ Contains (Clear s) k = false ∧
      (Clear s).capacity = s.capacity := by
  have hl : (Clear s).cache.lookup k = none := AList.lookup_empty k
  exact ⟨rfl, rfl, Get_miss hl, Contains_false_iff.2 hl, rfl⟩

/-- C9: in a reachable state, `Contains(k)` returns true exactly when `k` is a key of the
recency list and the call leaves the state as it was; `Get(k)` on an absent key returns
`("", false)` and leaves the state as it was. -/
theorem contains_and_missed_get_are_read_only (c : Int) (s : LRUCache) (k : String)
    (hr : Reachable c s) :
    (∃ es, entries s = some es ∧ (Contains s k = true ↔ k ∈ es.map Prod.fst)) ∧
      step s (Op.contains k) = some (s, Ret.bool (Contains s k)) ∧
      (Contains s k = false → Get s k = some (s, "", false)) := by
  obtain ⟨ps, hm, -⟩ := hr.models
  exact ⟨⟨view s ps, hm.entries_eq, hm.contains_iff k⟩, rfl,
    fun hk => Get_miss (Contains_false_iff.1 hk)⟩

theorem contains_and_missed_get_are_read_only_witness :
    Reachable 2 demoFull ∧
      ((∃ es, entries demoFull = some es ∧
          (Contains demoFull "x" = true ↔ "x" ∈ es.map Prod.fst)) ∧
        step demoFull (Op.contains "x") = some (demoFull, Ret.bool (Contains demoFull "x")) ∧
        (Contains demoFull "x" = false → Get demoFull "x" = some (demoFull, "", false))) :=
  ⟨⟨_, exec_demoFull⟩,
    contains_and_missed_get_are_read_only 2 demoFull "x" ⟨_, exec_demoFull⟩⟩

/-- C10: for `c > 0` and a sequence of `Put` calls on `NewLRUCache(c)` with at most `c`
distinct keys, the sequence runs without a panic, `Size()` afterwards is the number of
distinct keys, and every key of the sequence is present with the value of its last `Put`. -/
theorem puts_within_capacity_keep_every_key (c : Int) (hc : 0 < c)
    (kvs : List (String × String))
    (hd : ((kvs.map Prod.fst).dedup.length : Int) ≤ c) :
    ∃ s, exec c (kvs.map (fun e => Op.put e.1 e.2)) = some s ∧
      Size s = (kvs.map Prod.fst).dedup.length ∧
      ∀ k ∈ kvs.map Prod.fst, Contains s k = true ∧
        ∃ v s2, lastPut k (kvs.map (fun e => Op.put e.1 e.2)) = some v ∧
          Get s k = some (s2, v, true) := by
  obtain ⟨s, ps, e, hm, -, hent⟩ := exec_sim hc (kvs.map (fun e => Op.put e.1 e.2))
  have hv : view s ps = absRun c [] (kvs.map (fun e => Op.put e.1 e.2)) := by
    rw [hm.entries_eq] at hent
    exact Option.some.inj hent
  have hkeys := absRun_puts_keys hc kvs hd
  rw [← hv] at hkeys
  refine ⟨s, e, ?_, ?_⟩
  · rw [hm.size_eq, ← List.card_toFinset, ← hkeys,
      List.toFinset_card_of_nodup hm.keys_nodup, List.length_map]
  · intro k hk
    have hin : Contains s k = true := by
      rw [hm.contains_iff, ← List.mem_toFinset, hkeys, List.mem_toFinset]
      exact hk
    obtain ⟨v, -, -, s2, h1, h2, -⟩ := exec_get_present e hin
    exact ⟨hin, v, s2, h1, h2⟩

theorem puts_within_capacity_keep_every_key_witness :
    (0 : Int) < 2 ∧
      ((([("a", "1"), ("b", "2"), ("a", "3")].map Prod.fst).dedup.length : Int) ≤ 2) ∧
      ∃ s, exec 2 ([("a", "1"), ("b", "2"), ("a", "3")].map (fun e => Op.put e.1 e.2))
          = some s ∧
        Size s = ([("a", "1"), ("b", "2"), ("a", "3")].map Prod.fst).dedup.length ∧
        ∀ k ∈ [("a", "1"), ("b", "2"), ("a", "3")].map Prod.fst, Contains s k = true ∧
          ∃ v s2, lastPut k ([("a", "1"), ("b", "2"), ("a", "3")].map
              (fun e => Op.put e.1 e.2)) = some v ∧
            Get s k = some (s2, v, true) :=
  ⟨by decide, by decide,
    puts_within_capacity_keep_every_key 2 (by decide) [("a", "1"), ("b", "2"), ("a", "3")]
      (by decide)⟩

/-! ## The index against the recency list -/

theorem Models.index_count {s : LRUCache} {ps : List Nat} (h : Models s ps) :
    (s.cache.keys.length : Int) = s.list.Count := by
  have hk : ∀ k, k ∈ s.cache.keys ↔ k ∈ (view s ps).map Prod.fst := by
    intro k
    rw [← h.contains_iff, ← AList.mem_keys, ← AList.lookup_isSome]
    rfl
  have hperm := (List.perm_ext_iff_of_nodup s.cache.keys_nodup h.keys_nodup).2 hk
  have := hperm.length_eq
  rw [List.length_map] at this
  rw [this, ← h.size_eq]
  rfl

theorem Models.data_item {s : LRUCache} {ps : List Nat} (h : Models s ps) {p : Nat}
    (hp : p ∈ ps) : ∃ it, (s.mem p).data = some it ∧ it.key = keyAt s.mem p := by
  obtain ⟨it, hit⟩ := Option.isSome_iff_exists.1 (h.data p hp).1
  exact ⟨it, hit, by simp [keyAt, itemAt, hit]⟩

theorem exec_demoEmpty : exec 1 [] = some demoEmpty :=
  (Option.some_get _).symm

/-- C11: in every state reachable from `NewLRUCache(c)` the index and the recency list are
in lock-step: the nodes `ps` of the list all carry a `*CacheItem`; a key is in the index
exactly when a node of the list carries it; the index sends each key to a node of the list
carrying that key, and the key of each node of the list to that very node; no two nodes of
the list carry the same key; and the number of keys of the index is `list.Count()`. -/
theorem index_and_list_in_lock_step (c : Int) (s : LRUCache) (hr : Reachable c s) :
    ∃ ps, order s = some ps ∧
      (∀ k, k ∈ s.cache.keys ↔
        ∃ p ∈ ps, ∃ it, (s.mem p).data = some it ∧ it.key = k) ∧
      (∀ k p, s.cache.lookup k = some p →
        p ∈ ps ∧ ∃ it, (s.mem p).data = some it ∧ it.key = k) ∧
      (∀ p ∈ ps, ∃ it, (s.mem p).data = some it ∧ s.cache.lookup it.key = some p) ∧
      (∀ p ∈ ps, ∀ q ∈ ps, keyAt s.mem p = keyAt s.mem q → p = q) ∧
      (s.cache.keys.length : Int) = s.list.Count := by
  obtain ⟨ps, h, -⟩ := hr.models
  refine ⟨ps, h.wf.order_eq, ?_, ?_, ?_, ?_, h.index_count⟩
  · intro k
    rw [← AList.mem_keys, ← AList.lookup_isSome]
    constructor
    · intro hk
      obtain ⟨p, hp⟩ := Option.isSome_iff_exists.1 hk
      obtain ⟨h1, h2⟩ := h.index k p hp
      obtain ⟨it, hit, hkey⟩ := h.data_item h1
      exact ⟨p, h1, it, hit, hkey.trans h2⟩
    · rintro ⟨p, hp, it, hit, hkey⟩
      have := (h.data p hp).2
      have hk : keyAt s.mem p = k := by simp [keyAt, itemAt, hit, hkey]
      rw [hk] at this
      rw [this]
      rfl
  · intro k p hp
    obtain ⟨h1, h2⟩ := h.index k p hp
    obtain ⟨it, hit, hkey⟩ := h.data_item h1
    exact ⟨h1, it, hit, hkey.trans h2⟩
  · intro p hp
    obtain ⟨it, hit, hkey⟩ := h.data_item hp
    exact ⟨it, hit, by rw [hkey]; exact (h.data p hp).2⟩
  · intro p hp q hq e
    have h1 := (h.data p hp).2
    have h2 := (h.data q hq).2
    rw [e, h2] at h1
    exact (Option.some.inj h1).symm

theorem index_and_list_in_lock_step_witness :
    Reachable 2 demoFull ∧
      ∃ ps, order demoFull = some ps ∧
        (∀ k, k ∈ demoFull.cache.keys ↔
          ∃ p ∈ ps, ∃ it, (demoFull.mem p).data = some it ∧ it.key = k) ∧
        (∀ k p, demoFull.cache.lookup k = some p →
          p ∈ ps ∧ ∃ it, (demoFull.mem p).data = some it ∧ it.key = k) ∧
        (∀ p ∈ ps, ∃ it, (demoFull.mem p).data = some it ∧
          demoFull.cache.lookup it.key = some p) ∧
        (∀ p ∈ ps, ∀ q ∈ ps, keyAt demoFull.mem p = keyAt demoFull.mem q → p = q) ∧
        (demoFull.cache.keys.length : Int) = demoFull.list.Count :=
  ⟨⟨_, exec_demoFull⟩, index_and_list_in_lock_step 2 demoFull ⟨_, exec_demoFull⟩⟩

/-- C12, as stated, fails: the freshly constructed cache of capacity 1 is reachable and its
index holds no key, so `0 < count(index)` is false. -/
theorem fresh_cache_has_empty_index :
    Reachable 1 demoEmpty ∧
      ¬ (0 < (demoEmpty.cache.keys.length : Int) ∧
        (demoEmpty.cache.keys.length : Int) = demoEmpty.list.Count ∧
        demoEmpty.list.Count ≤ demoEmpty.capacity) :=
  ⟨⟨_, exec_demoEmpty⟩, by decide⟩

/-- C12, amended: every state reachable from `NewLRUCache(c)` satisfies
`0 <= count(index) == length(ordering) <= capacity` with `0 < capacity`; the count is 0 in
the freshly constructed cache and right after `Clear`. -/
theorem index_count_within_capacity (c : Int) (s : LRUCache) (hr : Reachable c s) :
    0 ≤ (s.cache.keys.length : Int) ∧ (s.cache.keys.length : Int) = s.list.Count ∧
      s.list.Count ≤ s.capacity ∧ 0 < s.capacity ∧
      ((Clear s).cache.keys.length : Int) = 0 ∧ (Clear s).list.Count = 0 := by
  obtain ⟨ps, h, -⟩ := hr.models
  exact ⟨Int.ofNat_nonneg _, h.index_count, h.bound, h.cap, rfl, rfl⟩

theorem index_count_within_capacity_witness :
    Reachable 2 demoFull ∧
      (0 ≤ (demoFull.cache.keys.length : Int) ∧
        (demoFull.cache.keys.length : Int) = demoFull.list.Count ∧
        demoFull.list.Count ≤ demoFull.capacity ∧ 0 < demoFull.capacity ∧
        ((Clear demoFull).cache.keys.length : Int) = 0 ∧ (Clear demoFull).list.Count = 0) :=
  ⟨⟨_, exec_demoFull⟩, index_count_within_capacity 2 demoFull ⟨_, exec_demoFull⟩⟩

/-! ## The dispatcher -/

theorem fieldsAux_blank {ws : List Char} (rest : List Char)
    (h : ∀ c ∈ ws, isSpace c = true) : fieldsAux (ws ++ rest) [] = fieldsAux rest [] := by
  induction ws with
  | nil => rfl
  | cons c ws ih =>
    have hc := h c (List.mem_cons_self _ _)
    simp only [List.cons_append, fieldsAux, hc, if_true]
    exact ih (fun d hd => h d (List.mem_cons_of_mem _ hd))

theorem fieldsAux_token {t : List Char} (rest cur : List Char)
    (h : ∀ c ∈ t, isSpace c = false) :
    fieldsAux (t ++ rest) cur = fieldsAux rest (t.reverse ++ cur) := by
  induction t generalizing cur with
  | nil => rfl
  | cons c t ih =>
    have hc := h c (List.mem_cons_self _ _)
    simp only [List.cons_append, fieldsAux, hc, Bool.false_eq_true, if_false]
    have := ih (c :: cur) (fun d hd => h d (List.mem_cons_of_mem _ hd))
    simpa using this

/-- `strings.Fields` gives back the tokens of a line made of tokens and white space. -/
theorem fields_lineOf (toks : List (String × String)) :
    ∀ (lead : String), Blank lead → Separated toks →
      fields (lead ++ lineOf toks) = toks.map Prod.fst := by
  induction toks with
  | nil =>
    intro lead hl _
    unfold fields
    have := fieldsAux_blank [] hl
    simpa [lineOf, fieldsAux] using this
  | cons p rest ih =>
    intro lead hl hs
    obtain ⟨t, w⟩ := p
    obtain ⟨⟨htne, htok⟩, hw, hne, hrest⟩ := hs
    unfold fields
    simp only [lineOf, String.data_append, List.append_assoc, List.map_cons]
    rw [fieldsAux_blank _ hl, fieldsAux_token _ _ htok, List.append_nil]
    have hcur : t.data.reverse ≠ [] := by simpa using htne
    rcases hwd : w.data with _ | ⟨c, w2⟩
    · have hr : rest = [] := by
        by_contra hr
        exact hne hr (String.ext hwd)
      subst hr
      simp [lineOf, fieldsAux, hcur]
    · have hc : isSpace c = true := hw c (by rw [hwd]; exact List.mem_cons_self _ _)
      have hw2 : Blank (String.mk w2) := by
        intro d hd
        exact hw d (by rw [hwd]; exact List.mem_cons_of_mem _ hd)
      have := ih (String.mk w2) hw2 hrest
      unfold fields at this
      simp only [String.data_append] at this
      simp only [List.cons_append, fieldsAux, hc, if_true, hcur, if_false, List.reverse_reverse]
      show String.mk t.data :: fieldsAux (w2 ++ (lineOf rest).data) [] = _
      rw [this]

theorem processCommand_nil (tbl : Char → Char) (u : Nat) (s : LRUCache) {command : String}
    (hf : fields command = []) :
    processCommand tbl u s command = some (s, "-ERR empty command") := by
  simp [processCommand, hf]

theorem processCommand_cons (tbl : Char → Char) (u : Nat) (s : LRUCache) {command : String}
    {tok : String} {args : List String} (hf : fields command = tok :: args) :
    processCommand tbl u s command =
      if toUpper tbl tok = "GET" then handleGet s (tok :: args)
      else if toUpper tbl tok = "SET" then handleSet s (tok :: args)
      else if toUpper tbl tok = "DEL" then handleDel s (tok :: args)
      else if toUpper tbl tok = "SIZE" then handleSize s (tok :: args)
      else if toUpper tbl tok = "CLEAR" then handleClear s (tok :: args)
      else if toUpper tbl tok = "PING" then handlePing s (tok :: args)
      else if toUpper tbl tok = "INFO" then handleInfo u s (tok :: args)
      else if toUpper tbl tok = "STATS" then handleStats s (tok :: args)
      else if toUpper tbl tok = "QUIT" then handleQuit s (tok :: args)
      else some (s, "-ERR unknown command '" ++ toUpper tbl tok ++ "'") := by
  simp [processCommand, hf]

theorem plus_not_err (v rest : String) : "+" ++ v ≠ "-ERR" ++ rest := by
  intro h
  have := congrArg (fun x => x.data.head?) h
  simp at this

theorem colon_not_err (v rest : String) : ":" ++ v ≠ "-ERR" ++ rest := by
  intro h
  have := congrArg (fun x => x.data.head?) h
  simp at this

theorem HandledOk.same {s : LRUCache} {ps : List Nat} (h : Models s ps) (resp : String) :
    HandledOk s (some (s, resp)) :=
  ⟨s, resp, rfl, ⟨ps, h⟩, rfl, fun _ => rfl⟩

theorem HandledOk.plus {s s2 : LRUCache} {ps2 : List Nat} (h : Models s2 ps2)
    (hc : s2.capacity = s.capacity) (v : String) : HandledOk s (some (s2, "+" ++ v)) :=
  ⟨s2, "+" ++ v, rfl, ⟨ps2, h⟩, hc, fun ⟨rest, e⟩ => absurd e (plus_not_err v rest)⟩

theorem Delete_false {s : LRUCache} {k : String} (h : ¬ (Delete s k).2 = true) :
    (Delete s k).1 = s := by
  rcases hk : s.cache.lookup k with _ | n
  · rw [Delete_miss hk]
  · exfalso
    apply h
    unfold Delete
    rw [hk]

theorem handleGet_ok {s : LRUCache} {ps : List Nat} (h : Models s ps) (parts : List String) :
    HandledOk s (handleGet s parts) := by
  unfold handleGet
  split_ifs with hl
  · exact HandledOk.same h _
  · obtain ⟨a, k, rfl⟩ : ∃ a k, parts = [a, k] := by
      match parts, hl with
      | [a, k], _ => exact ⟨a, k, rfl⟩
      | [], hl => simp at hl
      | [_], hl => simp at hl
      | _ :: _ :: _ :: _, hl => simp at hl
    simp only [List.getElem?_cons_succ, List.getElem?_cons_zero]
    rcases hk : s.cache.lookup k with _ | n
    · rw [Get_miss hk]
      exact HandledOk.same h _
    · obtain ⟨l1, l2, rfl, -⟩ := List.eq_append_cons_of_mem (h.index k n hk).1
      obtain ⟨s2, e, hm, -, -, hc, -⟩ := Get_hit l1 l2 h hk
      rw [e]
      exact HandledOk.plus hm hc _

theorem handleSet_ok {s : LRUCache} {ps : List Nat} (h : Models s ps) (parts : List String) :
    HandledOk s (handleSet s parts) := by
  unfold handleSet
  split_ifs with hl
  · exact HandledOk.same h _
  · obtain ⟨a, k, rest, rfl⟩ : ∃ a k rest, parts = a :: k :: rest := by
      match parts, hl with
      | a :: k :: rest, _ => exact ⟨a, k, rest, rfl⟩
      | [], hl => simp at hl
      | [_], hl => simp at hl
    simp only [List.getElem?_cons_succ, List.getElem?_cons_zero]
    obtain ⟨s2, ps2, e, hm, hc, -⟩ := h.put_sim k (joinSpace (List.drop 2 (a :: k :: rest)))
    rw [e]
    exact HandledOk.plus hm hc "OK"

theorem handleDel_ok {s : LRUCache} {ps : List Nat} (h : Models s ps) (parts : List String) :
    HandledOk s (handleDel s parts) := by
  unfold handleDel
  split_ifs with hl
  · exact HandledOk.same h _
  · obtain ⟨a, k, rfl⟩ : ∃ a k, parts = [a, k] := by
      match parts, hl with
      | [a, k], _ => exact ⟨a, k, rfl⟩
      | [], hl => simp at hl
      | [_], hl => simp at hl
      | _ :: _ :: _ :: _, hl => simp at hl
    simp only [List.getElem?_cons_succ, List.getElem?_cons_zero]
    split_ifs with hb
    · rcases hk : s.cache.lookup k with _ | n
      · rw [Delete_miss hk] at hb
        simp at hb
      · obtain ⟨l1, l2, rfl, -⟩ := List.eq_append_cons_of_mem (h.index k n hk).1
        obtain ⟨-, hm, -, -, hc⟩ := Delete_hit l1 l2 h hk
        exact HandledOk.plus hm hc "OK"
    · rw [Delete_false hb]
      exact HandledOk.same h _

/-- On a well-formed cache `processCommand` returns; the cache after the call is well
formed, and it is the cache before the call when the response is an error line. -/
theorem processCommand_ok {s : LRUCache} {ps : List Nat} (h : Models s ps)
    (tbl : Char → Char) (u : Nat) (command : String) :
    HandledOk s (processCommand tbl u s command) := by
  rcases hf : fields command with _ | ⟨tok, args⟩
  · rw [processCommand_nil tbl u s hf]
    exact HandledOk.same h _
  · rw [processCommand_cons tbl u s hf]
    split_ifs
    · exact handleGet_ok h _
    · exact handleSet_ok h _
    · exact handleDel_ok h _
    · unfold handleSize
      split_ifs
      · exact HandledOk.same h _
      · exact ⟨s, _, rfl, ⟨ps, h⟩, rfl, fun ⟨rest, e⟩ => absurd e (colon_not_err _ rest)⟩
    · unfold handleClear
      split_ifs
      · exact HandledOk.same h _
      · have hc : (Clear s).capacity = s.capacity := rfl
        exact HandledOk.plus (Clear_models h.cap) hc "OK"
    · unfold handlePing
      split_ifs with h1 h2
      · exact HandledOk.plus h rfl "PONG"
      · obtain ⟨m, hm⟩ : ∃ m, (tok :: args)[1]? = some m := by
          match args, h2 with
          | [m], _ => exact ⟨m, rfl⟩
          | [], h2 => simp at h2
          | _ :: _ :: _, h2 => simp at h2
        rw [hm]
        exact HandledOk.plus h rfl m
      · exact HandledOk.same h _
    · unfold handleInfo
      split_ifs
      · exact HandledOk.same h _
      · exact HandledOk.plus h rfl _
    · unfold handleStats
      split_ifs
      · exact HandledOk.same h _
      · exact HandledOk.plus h rfl _
    · exact HandledOk.plus h rfl "BYE"
    · exact HandledOk.same h _

theorem absStep_put_head (cap : Int) (es : List (String × String)) (k v : String) :
    ∃ tl, (absStep cap es (Op.put k v)).1 = (k, v) :: tl := by
  simp only [absStep]
  rcases valueOf k es with _ | w
  · split_ifs
    · exact ⟨_, rfl⟩
    · exact ⟨_, rfl⟩
  · exact ⟨_, rfl⟩

theorem Models.get_of_valueOf {s : LRUCache} {ps : List Nat} (h : Models s ps) {k v : String}
    (hv : valueOf k (view s ps) = some v) :
    ∃ s3 ps3, Get s k = some (s3, v, true) ∧ Models s3 ps3 ∧ s3.capacity = s.capacity := by
  obtain ⟨s3, ps3, hstep, hm3, hc, -⟩ := h.sim (Op.get k)
  refine ⟨s3, ps3, ?_, hm3, hc⟩
  simp only [absStep, hv] at hstep
  rcases hg : Get s k with _ | ⟨s4, w, b⟩
  · simp [GCache.step, hg] at hstep
  · simp only [GCache.step, hg, Option.map_some', Option.some.injEq, Prod.mk.injEq,
      Ret.found.injEq] at hstep
    obtain ⟨e1, e2, e3⟩ := hstep
    rw [e1, e2, e3]

theorem Models.put_then_get {s : LRUCache} {ps : List Nat} (h : Models s ps) (k v : String) :
    ∃ s2 s3, Put s k v = some s2 ∧ Get s2 k = some (s3, v, true) := by
  obtain ⟨s2, ps2, e, hm, -, hv⟩ := h.put_sim k v
  obtain ⟨tl, htl⟩ := absStep_put_head s.capacity (view s ps) k v
  have hval : valueOf k (view s2 ps2) = some v := by
    rw [hv, htl]
    simp [valueOf]
  obtain ⟨s3, -, e3, -⟩ := hm.get_of_valueOf hval
  exact ⟨s2, s3, e, e3⟩

theorem toUpper_SET (tbl : Char → Char) : toUpper tbl "SET" = "SET" := rfl

theorem toUpper_GET (tbl : Char → Char) : toUpper tbl "GET" = "GET" := rfl

theorem ascii_case_facts : ∀ n, n < 128 →
    ((Char.ofNat n).toLower.toNat < 128 ∧
      (Char.ofNat n).toLower.toUpper = (Char.ofNat n).toUpper) := by
  decide

theorem toLower_of_not_ascii (c : Char) (h : ¬ c.toNat < 128) : c.toLower = c := by
  unfold Char.toLower
  simp only
  rw [if_neg]
  omega

/-- Two characters that differ at most in ASCII letter case have the same upper case. -/
theorem upperRune_of_toLower_eq (tbl : Char → Char) {a b : Char}
    (h : a.toLower = b.toLower) : upperRune tbl a = upperRune tbl b := by
  have fa := ascii_case_facts a.toNat
  have fb := ascii_case_facts b.toNat
  rw [Char.ofNat_toNat] at fa fb
  unfold upperRune
  by_cases ha : a.toNat < 128
  · by_cases hb : b.toNat < 128
    · rw [if_pos ha, if_pos hb, ← (fa ha).2, ← (fb hb).2, h]
    · exfalso
      have := (fa ha).1
      rw [h, toLower_of_not_ascii b hb] at this
      exact hb this
  · by_cases hb : b.toNat < 128
    · exfalso
      have := (fb hb).1
      rw [← h, toLower_of_not_ascii a ha] at this
      exact ha this
    · rw [toLower_of_not_ascii a ha, toLower_of_not_ascii b hb] at h
      rw [h]

theorem toUpper_of_toLower_eq (tbl : Char → Char) {t1 t2 : String}
    (h : t1.data.map Char.toLower = t2.data.map Char.toLower) :
    toUpper tbl t1 = toUpper tbl t2 := by
  unfold toUpper
  congr 1
  generalize t1.data = l1 at h
  generalize t2.data = l2 at h
  induction l1 generalizing l2 with
  | nil =>
    cases l2 with
    | nil => rfl
    | cons b l2 => simp at h
  | cons a l1 ih =>
    cases l2 with
    | nil => simp at h
    | cons b l2 =>
      simp only [List.map_cons, List.cons.injEq] at h ⊢
      exact ⟨upperRune_of_toLower_eq tbl h.1, ih l2 h.2⟩

theorem handlers_ignore_first_token (u : Nat) (s : LRUCache) (t1 t2 : String)
    (args : List String) :
    handleGet s (t1 :: args) = handleGet s (t2 :: args) ∧
      handleSet s (t1 :: args) = handleSet s (t2 :: args) ∧
      handleDel s (t1 :: args) = handleDel s (t2 :: args) ∧
      handleSize s (t1 :: args) = handleSize s (t2 :: args) ∧
      handleClear s (t1 :: args) = handleClear s (t2 :: args) ∧
      handlePing s (t1 :: args) = handlePing s (t2 :: args) ∧
      handleInfo u s (t1 :: args) = handleInfo u s (t2 :: args) ∧
      handleStats s (t1 :: args) = handleStats s (t2 :: args) ∧
      handleQuit s (t1 :: args) = handleQuit s (t2 :: args) := by
  refine ⟨?_, ?_, ?_, ?_, ?_, ?_, ?_, ?_, ?_⟩ <;>
    simp [handleGet, handleSet, handleDel, handleSize, handleClear, handlePing, handleInfo,
      handleStats, handleQuit]

theorem trimSpace_blank {text : String} (h : Blank text) : trimSpace text = "" := by
  unfold trimSpace
  have : text.data.dropWhile isSpace = [] := by
    rw [List.dropWhile_eq_nil_iff]
    exact h
  rw [this]
  rfl

theorem fields_blank {text : String} (h : Blank text) : fields text = [] := by
  unfold fields
  have := fieldsAux_blank [] h
  simpa [fieldsAux] using this

/-- C13: on a reachable cache, for a key token `k` and value tokens `vs` (at least one),
with any white space between the tokens, `processCommand` on the line `SET k v1 ... vn`
returns `+OK`, and on the cache it leaves `processCommand` on `GET k` returns `+` followed
by the value tokens joined with single spaces; `SET k v1 v2` then `GET k` gives `+v1 v2`. -/
theorem set_then_get_joins_value_tokens (tbl : Char → Char) (u1 u2 : Nat) (c : Int)
    (s : LRUCache) (lead1 w0 w1 lead2 w2 w3 k : String) (vs : List (String × String))
    (hr : Reachable c s) (hvs : vs ≠ []) (hl1 : Blank lead1) (hl2 : Blank lead2)
    (hset : Separated (("SET", w0) :: (k, w1) :: vs))
    (hget : Separated [("GET", w2), (k, w3)]) :
    (∃ s2 s3,
        processCommand tbl u1 s (lead1 ++ lineOf (("SET", w0) :: (k, w1) :: vs))
          = some (s2, "+OK") ∧
        processCommand tbl u2 s2 (lead2 ++ lineOf [("GET", w2), (k, w3)])
          = some (s3, "+" ++ joinSpace (vs.map Prod.fst))) ∧
      ((processCommand keepRune 0 demoFull "SET k v1 v2").bind
          (fun r => processCommand keepRune 0 r.1 "GET k")).map Prod.snd
        = some "+v1 v2" := by
  refine ⟨?_, by decide⟩
  obtain ⟨ps, h, -⟩ := hr.models
  obtain ⟨s2, s3, e2, e3⟩ := h.put_then_get k (joinSpace (vs.map Prod.fst))
  have hf1 := fields_lineOf _ lead1 hl1 hset
  have hf2 := fields_lineOf _ lead2 hl2 hget
  simp only [List.map_cons, List.map_nil] at hf1 hf2
  have hlen : ¬ (vs.map Prod.fst).length + 1 + 1 < 3 := by
    have : 0 < vs.length := List.length_pos.2 hvs
    simp
    omega
  refine ⟨s2, s3, ?_, ?_⟩
  · rw [processCommand_cons tbl u1 s hf1, toUpper_SET]
    simp only [handleSet, List.length_cons, hlen, if_false, List.getElem?_cons_succ,
      List.getElem?_cons_zero, List.drop_succ_cons, List.drop_zero, e2]
    rfl
  · rw [processCommand_cons tbl u2 s2 hf2, toUpper_GET]
    simp [handleGet, e3]

theorem set_then_get_joins_value_tokens_witness :
    Reachable 2 demoFull ∧ [("v1", "\t"), ("v2", "")] ≠ [] ∧ Blank " " ∧ Blank "" ∧
      Separated (("SET", " ") :: ("k", "  ") :: [("v1", "\t"), ("v2", "")]) ∧
      Separated [("GET", " "), ("k", "")] ∧
      ((∃ s2 s3,
          processCommand keepRune 0 demoFull
              (" " ++ lineOf (("SET", " ") :: ("k", "  ") :: [("v1", "\t"), ("v2", "")]))
            = some (s2, "+OK") ∧
          processCommand keepRune 1 s2 ("" ++ lineOf [("GET", " "), ("k", "")])
            = some (s3, "+" ++ joinSpace ([("v1", "\t"), ("v2", "")].map Prod.fst))) ∧
        ((processCommand keepRune 0 demoFull "SET k v1 v2").bind
            (fun r => processCommand keepRune 0 r.1 "GET k")).map Prod.snd
          = some "+v1 v2") :=
  ⟨⟨_, exec_demoFull⟩, by decide, by decide, by decide, by decide, by decide,
    set_then_get_joins_value_tokens keepRune 0 1 2 demoFull " " " " "  " "" " " "" "k"
      [("v1", "\t"), ("v2", "")] ⟨_, exec_demoFull⟩ (by decide) (by decide) (by decide)
      (by decide) (by decide)⟩

/-- C14: a command line whose first token is, in upper case, `SIZE` with one or more
arguments, `GET` or `DEL` with an argument count other than 1, `SET` with fewer than 2
arguments, or `PING` with more than 1 argument, gets exactly the response
`-ERR wrong number of arguments for '<CMD>' command` with `<CMD>` the upper-case command
name, and the cache is untouched; `SIZE x` gives the `SIZE` error. -/
theorem wrong_argument_count_is_reported (tbl : Char → Char) (u : Nat) (s : LRUCache)
    (command tok : String) (args : List String) (hf : fields command = tok :: args)
    (h : (toUpper tbl tok = "SIZE" ∧ 1 ≤ args.length) ∨
      (toUpper tbl tok = "GET" ∧ args.length ≠ 1) ∨
      (toUpper tbl tok = "DEL" ∧ args.length ≠ 1) ∨
      (toUpper tbl tok = "SET" ∧ args.length < 2) ∨
      (toUpper tbl tok = "PING" ∧ 1 < args.length)) :
    processCommand tbl u s command =
        some (s, "-ERR wrong number of arguments for '" ++ toUpper tbl tok ++ "' command") ∧
      (processCommand keepRune 0 demoFull "SIZE x").map Prod.snd
        = some "-ERR wrong number of arguments for 'SIZE' command" := by
  refine ⟨?_, by decide⟩
  rw [processCommand_cons tbl u s hf]
  rcases h with ⟨e, ha⟩ | ⟨e, ha⟩ | ⟨e, ha⟩ | ⟨e, ha⟩ | ⟨e, ha⟩
  · have : ¬ args.length = 0 := by omega
    rw [e]
    simp [handleSize, this]
  · rw [e]
    simp [handleGet, ha]
  · rw [e]
    simp [handleDel, ha]
  · have : args.length + 1 < 3 := by omega
    rw [e]
    simp [handleSet, this]
  · have h1 : ¬ args.length = 0 := by omega
    have h2 : ¬ args.length = 1 := by omega
    rw [e]
    simp [handlePing, h1, h2]

theorem wrong_argument_count_is_reported_witness :
    fields "get" = "get" :: [] ∧
      ((toUpper keepRune "get" = "SIZE" ∧ 1 ≤ ([] : List String).length) ∨
        (toUpper keepRune "get" = "GET" ∧ ([] : List String).length ≠ 1) ∨
        (toUpper keepRune "get" = "DEL" ∧ ([] : List String).length ≠ 1) ∨
        (toUpper keepRune "get" = "SET" ∧ ([] : List String).length < 2) ∨
        (toUpper keepRune "get" = "PING" ∧ 1 < ([] : List String).length)) ∧
      (processCommand keepRune 0 demoFull "get" =
          some (demoFull, "-ERR wrong number of arguments for '" ++ toUpper keepRune "get" ++
            "' command") ∧
        (processCommand keepRune 0 demoFull "SIZE x").map Prod.snd
          = some "-ERR wrong number of arguments for 'SIZE' command") :=
  ⟨by decide, by decide,
    wrong_argument_count_is_reported keepRune 0 demoFull "get" "get" [] (by decide)
      (by decide)⟩

/-- C15, as stated, fails: the line `foo` is answered `-ERR unknown command 'FOO'`, in which
the token `foo` as the client sent it does not occur. -/
theorem unknown_command_token_is_not_echoed :
    fields "foo" = ["foo"] ∧
      (processCommand keepRune 0 demoFull "foo").map Prod.snd
        = some "-ERR unknown command 'FOO'" ∧
      (processCommand keepRune 0 demoFull "foo").map Prod.snd
        ≠ some ("-ERR unknown command '" ++ "foo" ++ "'") ∧
      ¬ ("foo".data <:+: "-ERR unknown command 'FOO'".data) := by
  decide

/-- C15, amended: a command line whose first token is, once converted to upper case by
`strings.ToUpper`, none of `GET`, `SET`, `DEL`, `SIZE`, `CLEAR`, `PING`, `INFO`, `STATS`,
`QUIT` gets the response `-ERR unknown command '<NAME>'` with `<NAME>` that upper-case
conversion of the token, and the cache is untouched. -/
theorem unknown_command_names_upper_case_token (tbl : Char → Char) (u : Nat) (s : LRUCache)
    (command tok : String) (args : List String) (hf : fields command = tok :: args)
    (h : toUpper tbl tok ∉
      ["GET", "SET", "DEL", "SIZE", "CLEAR", "PING", "INFO", "STATS", "QUIT"]) :
    processCommand tbl u s command =
      some (s, "-ERR unknown command '" ++ toUpper tbl tok ++ "'") := by
  rw [processCommand_cons tbl u s hf]
  simp only [List.mem_cons, List.mem_singleton, not_or, List.not_mem_nil, or_false] at h
  obtain ⟨h1, h2, h3, h4, h5, h6, h7, h8, h9⟩ := h
  rw [if_neg h1, if_neg h2, if_neg h3, if_neg h4, if_neg h5, if_neg h6, if_neg h7,
    if_neg h8, if_neg h9]

theorem unknown_command_names_upper_case_token_witness :
    fields "foo x" = "foo" :: ["x"] ∧
      toUpper keepRune "foo" ∉
        ["GET", "SET", "DEL", "SIZE", "CLEAR", "PING", "INFO", "STATS", "QUIT"] ∧
      processCommand keepRune 0 demoFull "foo x" =
        some (demoFull, "-ERR unknown command '" ++ toUpper keepRune "foo" ++ "'") :=
  ⟨by decide, by decide,
    unknown_command_names_upper_case_token keepRune 0 demoFull "foo x" "foo" ["x"]
      (by decide) (by decide)⟩

/-- C16: on a reachable cache `processCommand` returns, and whenever its response is an
error line (it starts with `-ERR`) the cache after the call is the cache before it, fields
and node store alike: entries, values, order, size and capacity are unchanged. -/
theorem error_response_leaves_cache_untouched (tbl : Char → Char) (u : Nat) (c : Int)
    (s : LRUCache) (command : String) (hr : Reachable c s) :
    ∃ s2 resp, processCommand tbl u s command = some (s2, resp) ∧
      ((∃ rest, resp = "-ERR" ++ rest) → s2 = s) := by
  obtain ⟨ps, h, -⟩ := hr.models
  obtain ⟨s2, resp, e, -, -, herr⟩ := processCommand_ok h tbl u command
  exact ⟨s2, resp, e, herr⟩

theorem error_response_leaves_cache_untouched_witness :
    Reachable 2 demoFull ∧
      ∃ s2 resp, processCommand keepRune 0 demoFull "GET zz" = some (s2, resp) ∧
        ((∃ rest, resp = "-ERR" ++ rest) → s2 = demoFull) :=
  ⟨⟨_, exec_demoFull⟩,
    error_response_leaves_cache_untouched keepRune 0 2 demoFull "GET zz" ⟨_, exec_demoFull⟩⟩

theorem toUpper_DEL (tbl : Char → Char) : toUpper tbl "DEL" = "DEL" := rfl

theorem fields_lineOf_nolead {toks : List (String × String)} (hs : Separated toks) :
    fields (lineOf toks) = toks.map Prod.fst := by
  have hb : Blank "" := by intro c hc; cases hc
  have := fields_lineOf toks "" hb hs
  have e : "" ++ lineOf toks = lineOf toks := by
    apply String.ext
    simp
  rwa [e] at this

theorem handleGet_key (s : LRUCache) (t k : String) :
    handleGet s [t, k] = (Get s k).map (fun r =>
      (r.1, if r.2.2 = true then "+" ++ r.2.1 else "-ERR key not found")) := by
  simp only [handleGet, List.length_cons, List.length_nil, ne_eq, not_true_eq_false,
    if_false, List.getElem?_cons_succ, List.getElem?_cons_zero]
  rcases Get s k with _ | ⟨s2, v, b⟩
  · rfl
  · cases b <;> rfl

theorem handleDel_key (s : LRUCache) (t k : String) :
    handleDel s [t, k] = some ((Delete s k).1,
      if (Delete s k).2 = true then "+OK" else "-ERR key not found") := by
  simp only [handleDel, List.length_cons, List.length_nil, ne_eq, not_true_eq_false,
    if_false, List.getElem?_cons_succ, List.getElem?_cons_zero]
  split_ifs <;> rfl

theorem handleSet_key (s : LRUCache) (t k : String) {vs : List String} (hvs : vs ≠ []) :
    handleSet s (t :: k :: vs) =
      (Put s k (joinSpace vs)).map (fun s2 => (s2, "+OK")) := by
  have hlen : ¬ vs.length + 1 + 1 < 3 := by
    have : 0 < vs.length := List.length_pos.2 hvs
    omega
  simp only [handleSet, List.length_cons, hlen, if_false, List.getElem?_cons_succ,
    List.getElem?_cons_zero, List.drop_succ_cons, List.drop_zero]
  rcases Put s k (joinSpace vs) with _ | s2 <;> rfl

theorem Models.put_other_key {s : LRUCache} {ps : List Nat} (h : Models s ps)
    (k v k2 : String) (hne : k2 ≠ k) (habs : Contains s k2 = false) :
    ∃ s2 s3, Put s k v = some s2 ∧ Get s2 k = some (s3, v, true) ∧
      Contains s2 k2 = false := by
  obtain ⟨s2, ps2, e, hm, -, hv⟩ := h.put_sim k v
  obtain ⟨w, es2, he2, hsub, -⟩ :=
    absStep_touched s.capacity (rfl : absTouched (view s ps) (Op.put k v) = some k)
  obtain ⟨tl, htl⟩ := absStep_put_head s.capacity (view s ps) k v
  have hval : valueOf k (view s2 ps2) = some v := by
    rw [hv, htl]
    simp [valueOf]
  obtain ⟨s3, -, e3, -⟩ := hm.get_of_valueOf hval
  refine ⟨s2, s3, e, e3, ?_⟩
  cases hc : Contains s2 k2
  · rfl
  · exfalso
    rw [hm.contains_iff, hv, he2, List.map_cons, List.mem_cons] at hc
    rcases hc with hc | hc
    · exact hne hc
    · have : k2 ∈ (view s ps).map Prod.fst := (hsub.map Prod.fst).subset hc
      rw [← h.contains_iff, habs] at this
      cases this

/-- C17: two command lines that differ only in the ASCII letter case of the first token get,
on the same cache, the same response and leave the same cache.  Keys and values stay
case-sensitive: `GET`, `DEL` and `SET` hand the key token and the value tokens to the engine
as the client sent them, so on a reachable cache, after `SET k1 v1 ... vn`, `GET k1` answers
the value as sent while `GET k2` and `DEL k2` miss for every absent key `k2` other than
`k1`, also one that differs from `k1` only in letter case (`GET a` hits where `GET A`
misses, and the value `Ab` comes back as `Ab`). -/
theorem command_name_case_is_ignored (tbl : Char → Char) (u : Nat) (s : LRUCache)
    (lead t1 t2 w : String) (rest : List (String × String)) (hl : Blank lead)
    (h1 : Separated ((t1, w) :: rest)) (h2 : Separated ((t2, w) :: rest))
    (hcase : t1.data.map Char.toLower = t2.data.map Char.toLower) :
    processCommand tbl u s (lead ++ lineOf ((t1, w) :: rest))
        = processCommand tbl u s (lead ++ lineOf ((t2, w) :: rest)) ∧
      (processCommand keepRune 0 demoFull "GET a").map Prod.snd = some "+1" ∧
      (processCommand keepRune 0 demoFull "GET A").map Prod.snd
        = some "-ERR key not found" ∧
      ((processCommand keepRune 0 demoFull "SET k Ab").bind
          (fun r => processCommand keepRune 0 r.1 "GET k")).map Prod.snd = some "+Ab" ∧
      (∀ (t w1 k w2 : String), Separated [(t, w1), (k, w2)] →
        (toUpper tbl t = "GET" →
          processCommand tbl u s (lead ++ lineOf [(t, w1), (k, w2)]) =
            (Get s k).map (fun r =>
              (r.1, if r.2.2 = true then "+" ++ r.2.1 else "-ERR key not found"))) ∧
        (toUpper tbl t = "DEL" →
          processCommand tbl u s (lead ++ lineOf [(t, w1), (k, w2)]) =
            some ((Delete s k).1,
              if (Delete s k).2 = true then "+OK" else "-ERR key not found"))) ∧
      (∀ (t w1 k w2 : String) (vs : List (String × String)), vs ≠ [] →
        Separated ((t, w1) :: (k, w2) :: vs) → toUpper tbl t = "SET" →
        processCommand tbl u s (lead ++ lineOf ((t, w1) :: (k, w2) :: vs)) =
          (Put s k (joinSpace (vs.map Prod.fst))).map (fun s2 => (s2, "+OK"))) ∧
      (∀ c, Reachable c s → ∀ (k1 w0 w1 k2 : String) (vs : List (String × String)),
        vs ≠ [] → Separated (("SET", w0) :: (k1, w1) :: vs) → Token k2 → k2 ≠ k1 →
        Contains s k2 = false →
        ∃ s2 s3,
          processCommand tbl u s (lead ++ lineOf (("SET", w0) :: (k1, w1) :: vs))
            = some (s2, "+OK") ∧
          processCommand tbl u s2 (lineOf [("GET", " "), (k1, "")])
            = some (s3, "+" ++ joinSpace (vs.map Prod.fst)) ∧
          processCommand tbl u s2 (lineOf [("GET", " "), (k2, "")])
            = some (s2, "-ERR key not found") ∧
          processCommand tbl u s2 (lineOf [("DEL", " "), (k2, "")])
            = some (s2, "-ERR key not found")) := by
  refine ⟨?_, by decide, by decide, by decide, ?_, ?_, ?_⟩
  · have hf1 := fields_lineOf _ lead hl h1
    have hf2 := fields_lineOf _ lead hl h2
    simp only [List.map_cons] at hf1 hf2
    obtain ⟨g1, g2, g3, g4, g5, g6, g7, g8, g9⟩ :=
      handlers_ignore_first_token u s t1 t2 (rest.map Prod.fst)
    rw [processCommand_cons tbl u s hf1, processCommand_cons tbl u s hf2,
      toUpper_of_toLower_eq tbl hcase, g1, g2, g3, g4, g5, g6, g7, g8, g9]
  · intro t w1 k w2 hs
    have hf := fields_lineOf _ lead hl hs
    simp only [List.map_cons, List.map_nil] at hf
    refine ⟨fun ht => ?_, fun ht => ?_⟩
    · rw [processCommand_cons tbl u s hf, ht, if_pos rfl, handleGet_key]
    · rw [processCommand_cons tbl u s hf, ht]
      simp only [String.reduceEq, if_false, if_true, handleDel_key]
  · intro t w1 k w2 vs hvs hs ht
    have hf := fields_lineOf _ lead hl hs
    simp only [List.map_cons] at hf
    have hvs2 : vs.map Prod.fst ≠ [] := by simpa using hvs
    rw [processCommand_cons tbl u s hf, ht]
    simp only [String.reduceEq, if_false, if_true, handleSet_key s t k hvs2]
  · intro c hr k1 w0 w1 k2 vs hvs hs hk2 hne habs
    obtain ⟨ps, h, -⟩ := hr.models
    obtain ⟨s2, s3, e2, e3, hc2⟩ :=
      h.put_other_key k1 (joinSpace (vs.map Prod.fst)) k2 hne habs
    have hl2 := Contains_false_iff.1 hc2
    have hk1 : Token k1 := hs.2.2.2.1
    have hb : Blank "" := by intro d hd; cases hd
    have hsp : Blank " " := by decide
    have hne2 : ([] : List (String × String)) ≠ [] → ("" : String) ≠ "" :=
      fun e => absurd rfl e
    have hsep : ∀ (t k : String), Token t → Token k → Separated [(t, " "), (k, "")] :=
      fun t k ht hk => ⟨ht, hsp, fun _ => by decide, hk, hb, hne2, trivial⟩
    have hf := fields_lineOf _ lead hl hs
    simp only [List.map_cons] at hf
    have hvs2 : vs.map Prod.fst ≠ [] := by simpa using hvs
    have hg1 := fields_lineOf_nolead (hsep "GET" k1 (by decide) hk1)
    have hg2 := fields_lineOf_nolead (hsep "GET" k2 (by decide) hk2)
    have hd2 := fields_lineOf_nolead (hsep "DEL" k2 (by decide) hk2)
    simp only [List.map_cons, List.map_nil] at hg1 hg2 hd2
    refine ⟨s2, s3, ?_, ?_, ?_, ?_⟩
    · rw [processCommand_cons tbl u s hf, toUpper_SET]
      simp only [String.reduceEq, if_false, if_true, handleSet_key s "SET" k1 hvs2, e2,
        Option.map_some']
    · rw [processCommand_cons tbl u s2 hg1, toUpper_GET, if_pos rfl, handleGet_key, e3]
      rfl
    · rw [processCommand_cons tbl u s2 hg2, toUpper_GET, if_pos rfl, handleGet_key,
        Get_miss hl2]
      rfl
    · rw [processCommand_cons tbl u s2 hd2, toUpper_DEL]
      simp only [String.reduceEq, if_false, if_true, handleDel_key, Delete_miss hl2]
      rfl

theorem command_name_case_is_ignored_witness :
    Blank "" ∧ Separated (("get", " ") :: [("a", "")]) ∧
      Separated (("GeT", " ") :: [("a", "")]) ∧
      "get".data.map Char.toLower = "GeT".data.map Char.toLower ∧
      (processCommand keepRune 0 demoFull ("" ++ lineOf (("get", " ") :: [("a", "")]))
          = processCommand keepRune 0 demoFull ("" ++ lineOf (("GeT", " ") :: [("a", "")])) ∧
        (processCommand keepRune 0 demoFull "GET a").map Prod.snd = some "+1" ∧
        (processCommand keepRune 0 demoFull "GET A").map Prod.snd
          = some "-ERR key not found" ∧
        ((processCommand keepRune 0 demoFull "SET k Ab").bind
            (fun r => processCommand keepRune 0 r.1 "GET k")).map Prod.snd = some "+Ab" ∧
        (∀ (t w1 k w2 : String), Separated [(t, w1), (k, w2)] →
          (toUpper keepRune t = "GET" →
            processCommand keepRune 0 demoFull ("" ++ lineOf [(t, w1), (k, w2)]) =
              (Get demoFull k).map (fun r =>
                (r.1, if r.2.2 = true then "+" ++ r.2.1 else "-ERR key not found"))) ∧
          (toUpper keepRune t = "DEL" →
            processCommand keepRune 0 demoFull ("" ++ lineOf [(t, w1), (k, w2)]) =
              some ((Delete demoFull k).1,
                if (Delete demoFull k).2 = true then "+OK" else "-ERR key not found"))) ∧
        (∀ (t w1 k w2 : String) (vs : List (String × String)), vs ≠ [] →
          Separated ((t, w1) :: (k, w2) :: vs) → toUpper keepRune t = "SET" →
          processCommand keepRune 0 demoFull ("" ++ lineOf ((t, w1) :: (k, w2) :: vs)) =
            (Put demoFull k (joinSpace (vs.map Prod.fst))).map (fun s2 => (s2, "+OK"))) ∧
        (∀ c, Reachable c demoFull →
          ∀ (k1 w0 w1 k2 : String) (vs : List (String × String)),
          vs ≠ [] → Separated (("SET", w0) :: (k1, w1) :: vs) → Token k2 → k2 ≠ k1 →
          Contains demoFull k2 = false →
          ∃ s2 s3,
            processCommand keepRune 0 demoFull
                ("" ++ lineOf (("SET", w0) :: (k1, w1) :: vs)) = some (s2, "+OK") ∧
            processCommand keepRune 0 s2 (lineOf [("GET", " "), (k1, "")])
              = some (s3, "+" ++ joinSpace (vs.map Prod.fst)) ∧
            processCommand keepRune 0 s2 (lineOf [("GET", " "), (k2, "")])
              = some (s2, "-ERR key not found") ∧
            processCommand keepRune 0 s2 (lineOf [("DEL", " "), (k2, "")])
              = some (s2, "-ERR key not found"))) ∧
      (∃ s2 s3,
        processCommand keepRune 0 demoFull
            ("" ++ lineOf (("SET", " ") :: ("k", " ") :: [("Ab", "")])) = some (s2, "+OK") ∧
        processCommand keepRune 0 s2 (lineOf [("GET", " "), ("k", "")])
          = some (s3, "+" ++ joinSpace ([("Ab", "")].map Prod.fst)) ∧
        processCommand keepRune 0 s2 (lineOf [("GET", " "), ("K", "")])
          = some (s2, "-ERR key not found") ∧
        processCommand keepRune 0 s2 (lineOf [("DEL", " "), ("K", "")])
          = some (s2, "-ERR key not found")) :=
  ⟨by decide, by decide, by decide, by decide,
    command_name_case_is_ignored keepRune 0 demoFull "" "get" "GeT" " " [("a", "")]
      (by decide) (by decide) (by decide) (by decide),
    (command_name_case_is_ignored keepRune 0 demoFull "" "get" "GeT" " " [("a", "")]
      (by decide) (by decide) (by decide) (by decide)).2.2.2.2.2.2 2 ⟨_, exec_demoFull⟩
      "k" " " " " "K" [("Ab", "")] (by decide) (by decide) (by decide) (by decide)
      (by decide)⟩

/-- C18, as stated, fails: on the same cache the line `INFO` gets a different response when
the server has been up 0 seconds and when it has been up 1 second. -/
theorem info_response_depends_on_uptime :
    (processCommand keepRune 0 demoFull "INFO").map Prod.snd
        = some "+gcache_version:1.0 cache_capacity:2 cache_size:2 uptime_seconds:0" ∧
      (processCommand keepRune 1 demoFull "INFO").map Prod.snd
        = some "+gcache_version:1.0 cache_capacity:2 cache_size:2 uptime_seconds:1" ∧
      (processCommand keepRune 0 demoFull "INFO").map Prod.snd
        ≠ (processCommand keepRune 1 demoFull "INFO").map Prod.snd := by
  decide

/-- C18, amended: for every command line and cache, the cache after `processCommand` does
not depend on the clock, and neither does the response unless the line is a well-formed
`INFO` (the one token `INFO`, in any letter case), whose response carries the uptime. -/
theorem dispatcher_reads_clock_only_for_info (tbl : Char → Char) (u1 u2 : Nat)
    (s : LRUCache) (command : String) :
    (processCommand tbl u1 s command).map Prod.fst
        = (processCommand tbl u2 s command).map Prod.fst ∧
      ((∀ tok, fields command = [tok] → toUpper tbl tok ≠ "INFO") →
        processCommand tbl u1 s command = processCommand tbl u2 s command) := by
  rcases hf : fields command with _ | ⟨tok, args⟩
  · rw [processCommand_nil tbl u1 s hf, processCommand_nil tbl u2 s hf]
    exact ⟨rfl, fun _ => rfl⟩
  · rw [processCommand_cons tbl u1 s hf, processCommand_cons tbl u2 s hf]
    by_cases hinfo : toUpper tbl tok = "INFO"
    · rw [hinfo]
      simp only [String.reduceEq, if_false, if_true, handleInfo, List.length_cons]
      rcases args with _ | ⟨a, args⟩
      · refine ⟨rfl, fun h => absurd hinfo (h tok rfl)⟩
      · simp
    · simp only [hinfo, if_false]
      exact ⟨trivial, fun _ => trivial⟩

/-- C19, as stated, fails: for a white-space-only line the connection handler writes nothing
to the client, so no error response line is sent. -/
theorem blank_line_gets_no_response :
    Blank "   " ∧
      (handleConnection keepRune demoFull [(0, "   ")]).map (fun r => r.2.1) = some [] ∧
      (handleConnection keepRune demoFull [(0, ""), (1, "size")]).map (fun r => r.2.1)
        = some [":2\r\n"] := by
  decide

theorem utf8ByteSize_spaces (n : Nat) :
    (String.mk (List.replicate n ' ')).utf8ByteSize = n := by
  induction n with
  | zero => rfl
  | succ n ih =>
    have h : (String.mk (List.replicate (n + 1) ' ')).utf8ByteSize
        = (String.mk (List.replicate n ' ')).utf8ByteSize + 1 := rfl
    rw [h, ih]

/-- A blank line of 65536 bytes: the scanner fails on it, nothing is written and the
connection is closed, whatever follows. -/
theorem long_blank_line_closes_connection (tbl : Char → Char) (s : LRUCache) (u : Nat)
    (rest : List (Nat × String)) :
    Blank (String.mk (List.replicate 65536 ' ')) ∧
      handleConnection tbl s ((u, String.mk (List.replicate 65536 ' ')) :: rest)
        = some (s, [], false) := by
  constructor
  · intro c hc
    rw [List.eq_of_mem_replicate hc]
    decide
  · have h : maxScanTokenSize ≤ (String.mk (List.replicate 65536 ' ')).utf8ByteSize := by
      rw [utf8ByteSize_spaces]
      decide
    simp only [handleConnection, h, if_true]

/-- C19, amended: for every empty or white-space-only line of fewer than 65536 bytes received
on a connection of a server that is not shut down, the handler writes no response and does not touch the cache, and it goes on
with the following lines (the connection stays open); `processCommand`, which would answer
such a line with `-ERR empty command`, is not called for it.  A line of 65536 bytes or
more, blank or not, makes the scanner fail: nothing is written for it and the connection is
closed. -/
theorem blank_line_is_skipped (tbl : Char → Char) (s : LRUCache) (u : Nat) (text : String)
    (rest : List (Nat × String)) (hb : Blank text)
    (hlen : text.utf8ByteSize < maxScanTokenSize) :
    handleConnection tbl s ((u, text) :: rest) = handleConnection tbl s rest ∧
      handleConnection tbl s [(u, text)] = some (s, [], true) ∧
      processCommand tbl u s text = some (s, "-ERR empty command") ∧
      ∀ long : String, maxScanTokenSize ≤ long.utf8ByteSize →
        handleConnection tbl s ((u, long) :: rest) = some (s, [], false) := by
  have hn : ¬ maxScanTokenSize ≤ text.utf8ByteSize := not_le.2 hlen
  refine ⟨?_, ?_, processCommand_nil tbl u s (fields_blank hb), ?_⟩
  · simp [handleConnection, hn, trimSpace_blank hb]
  · simp [handleConnection, hn, trimSpace_blank hb]
  · intro long hl
    simp only [handleConnection, hl, if_true]

theorem blank_line_is_skipped_witness :
    Blank " \t " ∧ " \t ".utf8ByteSize < maxScanTokenSize ∧
      (handleConnection keepRune demoFull ((3, " \t ") :: [(4, "size")])
          = handleConnection keepRune demoFull [(4, "size")] ∧
        handleConnection keepRune demoFull [(3, " \t ")] = some (demoFull, [], true) ∧
        processCommand keepRune 3 demoFull " \t " = some (demoFull, "-ERR empty command") ∧
        ∀ long : String, maxScanTokenSize ≤ long.utf8ByteSize →
          handleConnection keepRune demoFull ((3, long) :: [(4, "size")])
            = some (demoFull, [], false)) :=
  ⟨by decide, by decide,
    blank_line_is_skipped keepRune demoFull 3 " \t " [(4, "size")] (by decide) (by decide)⟩

/-! ## The list invariant and the traversal -/

theorem walk_some_cons {m : Heap} {p : Nat} {f : Nat} {ps : List Nat}
    (h : walk m (some p) f = some ps) :
    ∃ g rest, f = g + 1 ∧ ps = p :: rest ∧ walk m (m p).next g = some rest := by
  cases f with
  | zero => simp [walk] at h
  | succ g =>
    simp only [walk, Option.map_eq_some'] at h
    obtain ⟨rest, h1, h2⟩ := h
    exact ⟨g, rest, rfl, h2.symm, h1⟩

theorem walk_none_eq {m : Heap} {f : Nat} {ps : List Nat} (h : walk m none f = some ps) :
    ps = [] := by
  cases f <;> simpa [walk] using h.symm

theorem walk_head {m : Heap} {cur : Option Nat} {f : Nat} {ps : List Nat}
    (h : walk m cur f = some ps) : cur = ps.head? := by
  cases cur with
  | none => rw [walk_none_eq h]; rfl
  | some p =>
    obtain ⟨g, rest, -, e, -⟩ := walk_some_cons h
    rw [e]; rfl

theorem walk_unique {m : Heap} {f1 : Nat} :
    ∀ {cur : Option Nat} {f2 : Nat} {a b : List Nat},
      walk m cur f1 = some a → walk m cur f2 = some b → a = b := by
  induction f1 with
  | zero =>
    intro cur f2 a b ha hb
    cases cur with
    | none => rw [walk_none_eq ha, walk_none_eq hb]
    | some p => simp [walk] at ha
  | succ g ih =>
    intro cur f2 a b ha hb
    cases cur with
    | none => rw [walk_none_eq ha, walk_none_eq hb]
    | some p =>
      obtain ⟨g1, r1, e1, rfl, w1⟩ := walk_some_cons ha
      obtain ⟨g2, r2, -, rfl, w2⟩ := walk_some_cons hb
      have : g1 = g := by omega
      subst this
      rw [ih w1 w2]

theorem walk_mem_suffix {m : Heap} {f : Nat} :
    ∀ {cur : Option Nat} {ps : List Nat} {q : Nat}, walk m cur f = some ps → q ∈ ps →
      ∃ g b, walk m (some q) g = some (q :: b) ∧ (q :: b).length ≤ ps.length := by
  induction f with
  | zero =>
    intro cur ps q h hq
    cases cur with
    | none => rw [walk_none_eq h] at hq; cases hq
    | some p => simp [walk] at h
  | succ g ih =>
    intro cur ps q h hq
    cases cur with
    | none => rw [walk_none_eq h] at hq; cases hq
    | some p =>
      obtain ⟨g1, rest, e1, rfl, w1⟩ := walk_some_cons h
      have : g1 = g := by omega
      subst this
      rcases List.mem_cons.1 hq with e | e
      · subst e
        exact ⟨g1 + 1, rest, h, le_refl _⟩
      · obtain ⟨g2, b, hw, hlen⟩ := ih w1 e
        exact ⟨g2, b, hw, Nat.le_succ_of_le hlen⟩

/-- A traversal that ends visits no node twice. -/
theorem walk_nodup {m : Heap} {f : Nat} :
    ∀ {cur : Option Nat} {ps : List Nat}, walk m cur f = some ps → ps.Nodup := by
  induction f with
  | zero =>
    intro cur ps h
    cases cur with
    | none => rw [walk_none_eq h]; exact List.nodup_nil
    | some p => simp [walk] at h
  | succ g ih =>
    intro cur ps h
    cases cur with
    | none => rw [walk_none_eq h]; exact List.nodup_nil
    | some p =>
      obtain ⟨g1, rest, e1, rfl, w1⟩ := walk_some_cons h
      have hg : g1 = g := by omega
      subst hg
      refine List.nodup_cons.2 ⟨?_, ih w1⟩
      intro hp
      obtain ⟨g2, b, hw, hlen⟩ := walk_mem_suffix w1 hp
      have := walk_unique hw h
      have hl := congrArg List.length this
      simp only [List.length_cons] at hl hlen
      omega

theorem walk_seg {m : Heap} {f : Nat} :
    ∀ {cur : Option Nat} {ps : List Nat} {pv : Option Nat}, walk m cur f = some ps →
      (∀ n ∈ ps, ∀ x ∈ (m n).next, (m x).prev = some n) →
      (∀ h ∈ cur, (m h).prev = pv) → Seg m pv ps := by
  induction f with
  | zero =>
    intro cur ps pv h _ _
    cases cur with
    | none => rw [walk_none_eq h]; trivial
    | some p => simp [walk] at h
  | succ g ih =>
    intro cur ps pv h hd hpv
    cases cur with
    | none => rw [walk_none_eq h]; trivial
    | some p =>
      obtain ⟨g1, rest, e1, rfl, w1⟩ := walk_some_cons h
      have : g1 = g := by omega
      subst this
      refine ⟨hpv p rfl, walk_head w1, ih w1 ?_ ?_⟩
      · intro n hn
        exact hd n (List.mem_cons_of_mem _ hn)
      · intro x hx
        exact hd p (List.mem_cons_self _ _) x hx

theorem WF.walk_list {m : Heap} {l : DoublyLinkedList} {ps : List Nat} (h : WF m l ps) :
    walk m l.head l.count.toNat = some ps := by
  rw [h.head, h.count]
  exact h.seg.walk_eq

theorem WF.wellFormed {m : Heap} {l : DoublyLinkedList} {ps : List Nat} (h : WF m l ps) :
    WellFormed m l := by
  refine ⟨?_, ?_, ?_, ?_, ps, h.walk_list, h.count.symm, h.last.symm, ?_⟩
  · rw [h.head, h.last]
    cases ps with
    | nil => simp
    | cons p r => simp [List.getLast?_eq_getLast]
  · rw [h.last, h.count]
    cases ps with
    | nil => simp
    | cons p r =>
      simp only [List.getLast?_eq_getLast, List.length_cons]
      constructor
      · intro e; cases e
      · intro e; omega
  · intro x hx
    rw [h.head] at hx
    cases ps with
    | nil => cases hx
    | cons p r =>
      have : p = x := by simpa using hx
      subst this
      exact h.seg.1
  · intro t ht
    rw [h.last] at ht
    rcases List.eq_nil_or_concat ps with e | ⟨l1, b, e⟩
    · subst e; cases ht
    · rw [List.concat_eq_append] at e
      subst e
      have : b = t := by simpa using ht
      subst this
      have := Seg.next_mid l1 h.seg
      simpa using this
  · intro n hn x hx
    obtain ⟨l1, l2, rfl, -⟩ := List.eq_append_cons_of_mem hn
    have hnx := Seg.next_mid l1 h.seg
    rw [hnx] at hx
    cases l2 with
    | nil => cases hx
    | cons y r =>
      have : y = x := by simpa using hx
      subst this
      have hseg := h.seg
      rw [show l1 ++ n :: y :: r = (l1 ++ [n]) ++ y :: r by simp] at hseg
      have := Seg.prev_mid (l1 ++ [n]) hseg
      simpa using this

/-- The invariant written out says that the traversal from `head` is a well-formed list. -/
theorem WellFormed.wf {m : Heap} {l : DoublyLinkedList} {ps : List Nat}
    (h : WellFormed m l) (ht : walk m l.head l.count.toNat = some ps) : WF m l ps := by
  obtain ⟨-, -, hprev, -, qs, hq, hlen, hlast, hd⟩ := h
  have hq2 : walk m l.head l.count.toNat = some qs := hq
  rw [ht] at hq2
  cases hq2
  exact ⟨walk_nodup ht, walk_seg ht hd hprev, walk_head ht, hlast.symm, hlen.symm⟩

theorem Models.last_of_full {s : LRUCache} {ps : List Nat} (h : Models s ps)
    (hfull : s.list.Count = s.capacity) : ∃ t, s.list.last = some t := by
  have h1 := h.wf.count
  have h2 := h.cap
  rw [h.wf.last]
  rcases List.eq_nil_or_concat ps with e | ⟨l1, b, e⟩
  · subst e
    simp [DoublyLinkedList.Count] at hfull h1
    omega
  · rw [List.concat_eq_append] at e
    subst e
    exact ⟨b, by simp⟩

theorem Models.get_total {s : LRUCache} {ps : List Nat} (h : Models s ps) (k : String) :
    ∃ r, Get s k = some r := by
  rcases hk : s.cache.lookup k with _ | n
  · exact ⟨_, Get_miss hk⟩
  · obtain ⟨l1, l2, rfl, -⟩ := List.eq_append_cons_of_mem (h.index k n hk).1
    obtain ⟨s2, e, -⟩ := Get_hit l1 l2 h hk
    exact ⟨_, e⟩

/-! ## The legacy cache against the hardened one -/

theorem legacy_get_eq (s : LRUCache) (k : String) : Legacy.Get s k = Get s k := rfl

theorem legacy_put_eq {s : LRUCache} (k v : String)
    (h : s.list.Count = s.capacity → ∃ t, s.list.last = some t) :
    Legacy.Put s k v = Put s k v := by
  unfold Legacy.Put Put
  rcases s.cache.lookup k with _ | n
  · by_cases hfull : s.list.Count = s.capacity
    · obtain ⟨t, ht⟩ := h hfull
      simp only [hfull, if_true, ht]
    · simp only [hfull, if_false]
  · rfl

theorem legacy_step_eq {s : LRUCache} {ps : List Nat} (h : Models s ps) (call : Call) :
    Legacy.step s call = step s call.toOp := by
  cases call with
  | get k => rfl
  | put k v =>
    simp only [Legacy.step, Call.toOp, step, legacy_put_eq k v h.last_of_full]

theorem legacy_trace_eq {s : LRUCache} {ps : List Nat} (h : Models s ps)
    (calls : List Call) :
    ∃ s2 rets ps2, Legacy.trace s calls = some (s2, rets) ∧
      trace s (calls.map Call.toOp) = some (s2, rets) ∧ Models s2 ps2 := by
  induction calls generalizing s ps with
  | nil => exact ⟨s, [], ps, rfl, rfl, h⟩
  | cons call calls ih =>
    obtain ⟨s1, r, ps1, e1, h1, -⟩ := h.step_ok call.toOp
    obtain ⟨s2, rets, ps2, e2, e3, h2⟩ := ih h1
    refine ⟨s2, r :: rets, ps2, ?_, ?_, h2⟩
    · simp [Legacy.trace, legacy_step_eq h, e1, e2]
    · simp [trace, e1, e3]

/-- With capacity 0 the legacy `Put` dereferences the nil tail of the empty list, which
is the fault the hardened cache excludes at construction. -/
theorem legacy_put_panics_at_capacity_zero :
    (Legacy.Put (Legacy.NewLRUCache 0) "a" "1").isSome = false ∧
      (NewLRUCache 0).isSome = false := by
  decide

/-! ## The claims on the list and on the two caches -/

/-- C21: on a well-formed list whose traversal is `l1 ++ n :: l2` (so `n` is at the head, at
the back, in the middle or the only node), `Remove(n)` leaves the nodes `l1 ++ l2` in that
order, with `head` and `last` their first and last node, `Count()` one less, the links of
`n` cleared, no payload changed and the list still well formed; `Remove(nil)` changes
nothing. -/
theorem remove_detaches_exactly_the_node (m : Heap) (l : DoublyLinkedList)
    (l1 l2 : List Nat) (n : Nat) (hwf : WellFormed m l)
    (ht : walk m l.head l.count.toNat = some (l1 ++ n :: l2)) :
    walk (Remove m l (some n)).1 (Remove m l (some n)).2.head
        (Remove m l (some n)).2.count.toNat = some (l1 ++ l2) ∧
      (Remove m l (some n)).2.head = (l1 ++ l2).head? ∧
      (Remove m l (some n)).2.last = (l1 ++ l2).getLast? ∧
      (Remove m l (some n)).2.Count = l.Count - 1 ∧
      ((Remove m l (some n)).1 n).prev = none ∧ ((Remove m l (some n)).1 n).next = none ∧
      (∀ q, ((Remove m l (some n)).1 q).data = (m q).data) ∧
      WellFormed (Remove m l (some n)).1 (Remove m l (some n)).2 ∧
      Remove m l none = (m, l) := by
  have h := (hwf.wf ht).remove_split l1 l2
  refine ⟨h.walk_list, h.head, h.last, ?_, ?_, ?_, Remove_data m l n, h.wellFormed, rfl⟩
  · rw [Remove_list]; rfl
  · rw [Remove_mem, if_pos rfl]
  · rw [Remove_mem, if_pos rfl]

theorem remove_detaches_exactly_the_node_witness :
    WellFormed demoFull.mem demoFull.list ∧
      walk demoFull.mem demoFull.list.head demoFull.list.count.toNat
        = some ([] ++ 1 :: [0]) ∧
      (walk (Remove demoFull.mem demoFull.list (some 1)).1
          (Remove demoFull.mem demoFull.list (some 1)).2.head
          (Remove demoFull.mem demoFull.list (some 1)).2.count.toNat = some ([] ++ [0]) ∧
        (Remove demoFull.mem demoFull.list (some 1)).2.head = ([] ++ [0]).head? ∧
        (Remove demoFull.mem demoFull.list (some 1)).2.last = ([] ++ [0]).getLast? ∧
        (Remove demoFull.mem demoFull.list (some 1)).2.Count = demoFull.list.Count - 1 ∧
        ((Remove demoFull.mem demoFull.list (some 1)).1 1).prev = none ∧
        ((Remove demoFull.mem demoFull.list (some 1)).1 1).next = none ∧
        (∀ q, ((Remove demoFull.mem demoFull.list (some 1)).1 q).data
          = (demoFull.mem q).data) ∧
        WellFormed (Remove demoFull.mem demoFull.list (some 1)).1
          (Remove demoFull.mem demoFull.list (some 1)).2 ∧
        Remove demoFull.mem demoFull.list none = (demoFull.mem, demoFull.list)) :=
  ⟨by decide, by decide,
    remove_detaches_exactly_the_node demoFull.mem demoFull.list [] [0] 1 (by decide)
      (by decide)⟩

/-- C22: a list that satisfies the invariant written out in `WellFormed`, with traversal
`ps`, still satisfies it after `InsertAtFront` of a node not in `ps` and after `Remove` of a
node of `ps`; after `InsertAtFront(n)` the head is `n`, the traversal is `n` followed by
`ps`, and `Count()` is one more. -/
theorem list_invariant_is_preserved (m : Heap) (l : DoublyLinkedList) (ps : List Nat)
    (n : Nat) (hwf : WellFormed m l) (ht : walk m l.head l.count.toNat = some ps) :
    (n ∉ ps →
        WellFormed (InsertAtFront m l n).1 (InsertAtFront m l n).2 ∧
        (InsertAtFront m l n).2.head = some n ∧
        walk (InsertAtFront m l n).1 (InsertAtFront m l n).2.head
          (InsertAtFront m l n).2.count.toNat = some (n :: ps) ∧
        (InsertAtFront m l n).2.Count = l.Count + 1) ∧
      (n ∈ ps →
        WellFormed (Remove m l (some n)).1 (Remove m l (some n)).2 ∧
        walk (Remove m l (some n)).1 (Remove m l (some n)).2.head
          (Remove m l (some n)).2.count.toNat = some (ps.erase n)) := by
  have h := hwf.wf ht
  refine ⟨fun hn => ?_, fun hn => ?_⟩
  · have h2 := h.insert_front hn
    refine ⟨h2.wellFormed, h2.head, h2.walk_list, ?_⟩
    rw [InsertAtFront_list]; rfl
  · have h2 := h.remove_mem hn
    exact ⟨h2.wellFormed, h2.walk_list⟩

theorem list_invariant_is_preserved_witness :
    WellFormed demoFull.mem demoFull.list ∧
      walk demoFull.mem demoFull.list.head demoFull.list.count.toNat = some [1, 0] ∧
      ((5 ∉ [1, 0] →
          WellFormed (InsertAtFront demoFull.mem demoFull.list 5).1
            (InsertAtFront demoFull.mem demoFull.list 5).2 ∧
          (InsertAtFront demoFull.mem demoFull.list 5).2.head = some 5 ∧
          walk (InsertAtFront demoFull.mem demoFull.list 5).1
            (InsertAtFront demoFull.mem demoFull.list 5).2.head
            (InsertAtFront demoFull.mem demoFull.list 5).2.count.toNat = some (5 :: [1, 0]) ∧
          (InsertAtFront demoFull.mem demoFull.list 5).2.Count
            = demoFull.list.Count + 1) ∧
        (5 ∈ [1, 0] →
          WellFormed (Remove demoFull.mem demoFull.list (some 5)).1
            (Remove demoFull.mem demoFull.list (some 5)).2 ∧
          walk (Remove demoFull.mem demoFull.list (some 5)).1
            (Remove demoFull.mem demoFull.list (some 5)).2.head
            (Remove demoFull.mem demoFull.list (some 5)).2.count.toNat
            = some ([1, 0].erase 5))) :=
  ⟨by decide, by decide,
    list_invariant_is_preserved demoFull.mem demoFull.list [1, 0] 5 (by decide)
      (by decide)⟩

/-- C23: in every state reachable from `NewLRUCache(c)`, when `list.Count() == capacity` the
back node `list.last` is not nil; every node of the list and every node the index points to
carries a `*CacheItem`; so `Get` and `Put` return for every key and value, and a `Put` of an
absent key on a full cache does evict the back entry. -/
theorem put_and_get_never_fail (c : Int) (s : LRUCache) (hr : Reachable c s) :
    (s.list.Count = s.capacity → ∃ t, s.list.last = some t) ∧
      (∃ ps, order s = some ps ∧ ∀ p ∈ ps, ∃ it, (s.mem p).data = some it) ∧
      (∀ k p, s.cache.lookup k = some p → ∃ it, (s.mem p).data = some it) ∧
      (∀ k, ∃ r, Get s k = some r) ∧
      (∀ k v, ∃ s2, Put s k v = some s2) ∧
      (∀ k v, Contains s k = false → Size s = s.capacity →
        ∃ s2 d e, Put s k v = some s2 ∧ entries s = some (d ++ [e]) ∧
          entries s2 = some ((k, v) :: d)) := by
  obtain ⟨ps, h, -⟩ := hr.models
  refine ⟨h.last_of_full, ⟨ps, h.wf.order_eq, ?_⟩, ?_, h.get_total, ?_, ?_⟩
  · intro p hp
    obtain ⟨it, hit, -⟩ := h.data_item hp
    exact ⟨it, hit⟩
  · intro k p hk
    obtain ⟨it, hit, -⟩ := h.data_item (h.index k p hk).1
    exact ⟨it, hit⟩
  · intro k v
    obtain ⟨s2, -, e, -⟩ := h.put_sim k v
    exact ⟨s2, e⟩
  · intro k v hk hfull
    obtain ⟨s2, e, -, h1, -⟩ := h.put_absent k v hk
    obtain ⟨d, x, e1, e2⟩ := h1 hfull
    exact ⟨s2, d, x, e, e1, e2⟩

theorem put_and_get_never_fail_witness :
    Reachable 2 demoFull ∧
      ((demoFull.list.Count = demoFull.capacity → ∃ t, demoFull.list.last = some t) ∧
        (∃ ps, order demoFull = some ps ∧ ∀ p ∈ ps, ∃ it, (demoFull.mem p).data = some it) ∧
        (∀ k p, demoFull.cache.lookup k = some p → ∃ it, (demoFull.mem p).data = some it) ∧
        (∀ k, ∃ r, Get demoFull k = some r) ∧
        (∀ k v, ∃ s2, Put demoFull k v = some s2) ∧
        (∀ k v, Contains demoFull k = false → Size demoFull = demoFull.capacity →
          ∃ s2 d e, Put demoFull k v = some s2 ∧ entries demoFull = some (d ++ [e]) ∧
            entries s2 = some ((k, v) :: d))) :=
  ⟨⟨_, exec_demoFull⟩, put_and_get_never_fail 2 demoFull ⟨_, exec_demoFull⟩⟩

/-- C24: for every capacity `c > 0` and every sequence of `Get` and `Put` calls, the legacy
cache of `src/cache.go` and the hardened cache, over the same list and nodes, both run to
the end, return the same result for every call, and end in the same state, hence with the
same entries, values and recency order. -/
theorem legacy_and_hardened_agree (c : Int) (hc : 0 < c) (calls : List Call) :
    ∃ s rets es, Legacy.trace (Legacy.NewLRUCache c) calls = some (s, rets) ∧
      (NewLRUCache c).bind (fun s0 => trace s0 (calls.map Call.toOp)) = some (s, rets) ∧
      entries s = some es := by
  obtain ⟨s0, e0, h0, -⟩ := NewLRUCache_pos hc
  have hs0 : s0 = Legacy.NewLRUCache c := by
    unfold NewLRUCache at e0
    rw [if_neg (not_le.2 hc)] at e0
    exact (Option.some.inj e0).symm
  obtain ⟨s, rets, ps, e1, e2, hm⟩ := legacy_trace_eq h0 calls
  refine ⟨s, rets, view s ps, ?_, ?_, hm.entries_eq⟩
  · rw [← hs0]; exact e1
  · rw [e0]; exact e2

theorem legacy_and_hardened_agree_witness :
    (0 : Int) < 2 ∧
      ∃ s rets es,
        Legacy.trace (Legacy.NewLRUCache 2)
            [.put "a" "1", .put "b" "2", .get "a", .put "c" "3", .get "b"]
          = some (s, rets) ∧
        (NewLRUCache 2).bind (fun s0 => trace s0
            ([Call.put "a" "1", .put "b" "2", .get "a", .put "c" "3", .get "b"].map
              Call.toOp)) = some (s, rets) ∧
        entries s = some es :=
  ⟨by decide,
    legacy_and_hardened_agree 2 (by decide)
      [.put "a" "1", .put "b" "2", .get "a", .put "c" "3", .get "b"]⟩

/-! ## Writers under the lock -/

theorem exec_puts_within_capacity {c : Int} (hc : 0 < c) (kvs : List (String × String))
    (hd : ((kvs.map Prod.fst).dedup.length : Int) ≤ c) :
    ∃ s, exec c (kvs.map (fun e => Op.put e.1 e.2)) = some s ∧
      Size s = (kvs.map Prod.fst).dedup.length ∧
      ∀ k ∈ kvs.map Prod.fst, Contains s k = true ∧
        ∃ v s2, lastPut k (kvs.map (fun e => Op.put e.1 e.2)) = some v ∧
          Get s k = some (s2, v, true) := by
  obtain ⟨s, ps, e, hm, -, hent⟩ := exec_sim hc (kvs.map (fun e => Op.put e.1 e.2))
  have hv : view s ps = absRun c [] (kvs.map (fun e => Op.put e.1 e.2)) := by
    rw [hm.entries_eq] at hent
    exact Option.some.inj hent
  have hkeys := absRun_puts_keys hc kvs hd
  rw [← hv] at hkeys
  refine ⟨s, e, ?_, ?_⟩
  · rw [hm.size_eq, ← List.card_toFinset, ← hkeys,
      List.toFinset_card_of_nodup hm.keys_nodup, List.length_map]
  · intro k hk
    have hin : Contains s k = true := by
      rw [hm.contains_iff, ← List.mem_toFinset, hkeys, List.mem_toFinset]
      exact hk
    obtain ⟨v, -, -, s2, h1, h2, -⟩ := exec_get_present e hin
    exact ⟨hin, v, s2, h1, h2⟩

theorem lastPut_mem {k v : String} {kvs : List (String × String)}
    (h : lastPut k (kvs.map (fun e => Op.put e.1 e.2)) = some v) : (k, v) ∈ kvs := by
  induction kvs with
  | nil => simp [lastPut] at h
  | cons e kvs ih =>
    simp only [List.map_cons, lastPut] at h
    rcases hl : lastPut k (kvs.map (fun e => Op.put e.1 e.2)) with _ | w
    · rw [hl] at h
      simp only at h
      split_ifs at h with e1
      cases h
      rw [← e1]
      exact List.mem_cons_self _ _
    · rw [hl] at h
      cases h
      exact List.mem_cons_of_mem _ (ih hl)

theorem length_flatten_of_length {α : Type} {M : Nat} (ws : List (List α))
    (h : ∀ w ∈ ws, w.length = M) : ws.flatten.length = ws.length * M := by
  induction ws with
  | nil => simp
  | cons w ws ih =>
    rw [List.flatten_cons, List.length_append, h w (List.mem_cons_self _ _),
      ih (fun x hx => h x (List.mem_cons_of_mem _ hx)), List.length_cons]
    ring

/-- C20: each `Put` holds the lock of the cache from its first statement to its last, so
the calls of concurrent writers take effect one after the other, in some order `sched` of
all their calls (every interleaving of the writers is such an order).  For `N` writers with
`M` keys each, all keys different, on a cache of capacity at least `N * M`: whatever the
order, the calls all return, the final `Size()` is `N * M`, and every key is present with
the value its writer put. -/
theorem disjoint_writers_lose_no_update (c : Int) (N M : Nat)
    (writers : List (List (String × String))) (sched : List (String × String))
    (hc : 0 < c) (hN : writers.length = N) (hM : ∀ w ∈ writers, w.length = M)
    (hkeys : (writers.flatten.map Prod.fst).Nodup) (hcap : ((N * M : Nat) : Int) ≤ c)
    (hs : sched.Perm writers.flatten) :
    ∃ s, exec c (sched.map (fun e => Op.put e.1 e.2)) = some s ∧
      Size s = ((N * M : Nat) : Int) ∧
      ∀ w ∈ writers, ∀ e ∈ w, Contains s e.1 = true ∧
        ∃ s2, Get s e.1 = some (s2, e.2, true) := by
  have hnd : (sched.map Prod.fst).Nodup := (hs.map Prod.fst).nodup_iff.2 hkeys
  have hlen : (sched.map Prod.fst).dedup.length = N * M := by
    rw [List.Nodup.dedup hnd, List.length_map, hs.length_eq,
      length_flatten_of_length writers hM, hN]
  obtain ⟨s, e, hsize, hall⟩ := exec_puts_within_capacity hc sched (by rw [hlen]; exact hcap)
  refine ⟨s, e, by rw [hsize, hlen], ?_⟩
  intro w hw x hx
  have hmem : x ∈ sched := hs.mem_iff.2 (List.mem_flatten.2 ⟨w, hw, hx⟩)
  obtain ⟨hin, v, s2, h1, h2⟩ := hall x.1 (List.mem_map.2 ⟨x, hmem, rfl⟩)
  have hv : (x.1, v) = x :=
    List.inj_on_of_nodup_map hnd (lastPut_mem h1) hmem rfl
  have hv2 : v = x.2 := congrArg Prod.snd hv
  rw [hv2] at h2
  exact ⟨hin, s2, h2⟩

theorem disjoint_writers_lose_no_update_witness :
    (0 : Int) < 4 ∧ [[("a", "1"), ("b", "2")], [("c", "3"), ("d", "4")]].length = 2 ∧
      (∀ w ∈ [[("a", "1"), ("b", "2")], [("c", "3"), ("d", "4")]], w.length = 2) ∧
      ([[("a", "1"), ("b", "2")], [("c", "3"), ("d", "4")]].flatten.map Prod.fst).Nodup ∧
      (((2 * 2 : Nat) : Int) ≤ 4) ∧
      [("c", "3"), ("a", "1"), ("d", "4"), ("b", "2")].Perm
        [[("a", "1"), ("b", "2")], [("c", "3"), ("d", "4")]].flatten ∧
      ∃ s, exec 4 ([("c", "3"), ("a", "1"), ("d", "4"), ("b", "2")].map
          (fun e => Op.put e.1 e.2)) = some s ∧
        Size s = ((2 * 2 : Nat) : Int) ∧
        ∀ w ∈ [[("a", "1"), ("b", "2")], [("c", "3"), ("d", "4")]], ∀ e ∈ w,
          Contains s e.1 = true ∧ ∃ s2, Get s e.1 = some (s2, e.2, true) :=
  ⟨by decide, by decide, by decide, by decide, by decide, by decide,
    disjoint_writers_lose_no_update 4 2 2 [[("a", "1"), ("b", "2")], [("c", "3"), ("d", "4")]]
      [("c", "3"), ("a", "1"), ("d", "4"), ("b", "2")] (by decide) (by decide) (by decide)
      (by decide) (by decide) (by decide)⟩

end GCache
